import Mathlib

/-!
# Verification of the `sp_ipld` DAG-CBOR codec

A shallow embedding, in Lean 4, of `src/sp_ipld/src/lib.rs`: the `ByteCursor`
random-access byte buffer, the big-endian primitive reads/writes, the CBOR
framing rules, the nine-variant `Ipld` value model, the DAG-CBOR encoder and
decoder, the link scanner (`references`) and the skipper (`skip`).

Modelling conventions:

* Rust `u8`/`u64` values and byte buffers are modelled as `Nat` / `List Nat`
  (bytes produced by the codec are always `< 256`; where a width matters the
  definitions take the value modulo `2 ^ w` exactly where the source does).
* The target is a 64-bit host: `usize::MAX = 2^64 - 1`, so `u64 → usize`
  conversions fail exactly when the position exceeds `usizeMax`.
* Rust `f64`/`f32` values are modelled by their IEEE-754 bit patterns
  (`Nat < 2^64` / `Nat < 2^32`); the `as f32` cast and the `f64::from` widening
  are defined arithmetically on the patterns (round to nearest, ties to even).
* `Result<T, String>` is `Except String T`; in-place mutation of the cursor is
  explicit state passing.
* The decoder, scanner and skipper recurse through the encoded bytes; the
  embedding makes this recursion total with an explicit fuel argument that the
  façades instantiate with `bytes.length + 1` (the recursion depth of the Rust
  code is bounded by the number of bytes consumed, so this fuel is always
  sufficient for inputs produced by the encoder).
-/

namespace SpIpld

/-- `usize::MAX` on the 64-bit target. -/
def usizeMax : Nat := 2 ^ 64 - 1

/-- Big-endian bytes of `v`, `k` bytes wide (the low `8*k` bits of `v`,
most significant byte first) — what `byteorder::BigEndian::write_uNN` stores. -/
def beBytes : Nat → Nat → List Nat
  | 0, _ => []
  | k + 1, v => beBytes k (v / 256) ++ [v % 256]

/-- Big-endian value of a byte list — what `byteorder::BigEndian::read_uNN`
returns. -/
def beVal (l : List Nat) : Nat := l.foldl (fun a b => a * 256 + b) 0

/-- The growable byte buffer with an explicit position
(`struct ByteCursor { inner: Vec<u8>, pos: u64 }`). -/
structure ByteCursor where
  inner : List Nat
  pos : Nat
deriving Repr, DecidableEq

/-- `ByteCursor::new` (position 0). -/
def ByteCursor.new (inner : List Nat) : ByteCursor := ⟨inner, 0⟩

/-- `ByteCursor::fill_buf`: the bytes from the current position to the end
(empty when the position is at or past the end). -/
def ByteCursor.fillBuf (c : ByteCursor) : List Nat :=
  c.inner.drop (min c.pos c.inner.length)

/-- `ByteCursor::read_exact(buf)` for a request of `n` bytes: fails with
`short-read` when fewer than `n` bytes remain, leaving the cursor unchanged;
otherwise returns the `n` bytes and advances the position by `n`.
State passing is explicit so that the claim about failure atomicity is
expressible: the second component is the cursor after the call. -/
def ByteCursor.readExact (c : ByteCursor) (n : Nat) :
    Except String (List Nat) × ByteCursor :=
  if n > c.fillBuf.length then
    (.error "failed to fill whole buffer", c)
  else
    (.ok (c.fillBuf.take n), { c with pos := c.pos + n })

/-- `read_exact` packaged for the decoding chain (the failing case drops the
unchanged cursor). -/
def readExactE (c : ByteCursor) (n : Nat) :
    Except String (List Nat × ByteCursor) :=
  match c.readExact n with
  | (.ok bs, c') => .ok (bs, c')
  | (.error e, _) => .error e

/-- `enum SeekFrom`. -/
inductive SeekFrom where
  | start (n : Nat)
  | «end» (n : Int)
  | current (n : Int)

/-- `ByteCursor::seek`: absolute, end-relative or current-relative positioning.
Relative moves fail when the new position would be negative or would overflow
the unsigned 64-bit position. -/
def ByteCursor.seek (c : ByteCursor) (style : SeekFrom) :
    Except String (Nat × ByteCursor) :=
  match style with
  | .start n => .ok (n, { c with pos := n })
  | .«end» n =>
    let base : Nat := c.inner.length
    if 0 ≤ base + n ∧ base + n < 2 ^ 64 then
      .ok ((base + n).toNat, { c with pos := (base + n).toNat })
    else
      .error "invalid seek to a negative or overflowing position"
  | .current n =>
    if 0 ≤ (c.pos : Int) + n ∧ (c.pos : Int) + n < 2 ^ 64 then
      .ok (((c.pos : Int) + n).toNat, { c with pos := ((c.pos : Int) + n).toNat })
    else
      .error "invalid seek to a negative or overflowing position"

/-- `ByteCursor::write(buf)`: writes all of `buf` at the current position,
zero-filling any gap between the end of the buffer and the position, and
extending the buffer as needed. Fails only when the position does not fit in
`usize`. Returns the written count (always `buf.len()`). -/
def ByteCursor.write (c : ByteCursor) (buf : List Nat) :
    Except String (Nat × ByteCursor) :=
  if c.pos > usizeMax then
    .error "cursor position exceeds maximum possible vector length"
  else
    let pos := c.pos
    let vec := if c.inner.length < pos then
        c.inner ++ List.replicate (pos - c.inner.length) 0
      else c.inner
    let space := vec.length - pos
    let amt := min space buf.length
    let left := buf.take amt
    let right := buf.drop amt
    let vec := vec.take pos ++ left ++ vec.drop (pos + left.length) ++ right
    .ok (buf.length, ⟨vec, pos + buf.length⟩)

/-- `ByteCursor::write_all(buf)`: repeats `write` until the whole slice is
consumed, failing with `short-write` if an iteration writes zero bytes. -/
def ByteCursor.writeAll (c : ByteCursor) (buf : List Nat) :
    Except String ByteCursor :=
  if h : buf = [] then .ok c
  else
    match c.write buf with
    | .error e => .error e
    | .ok (0, _) => .error "failed to write whole buffer"
    | .ok (n + 1, c') => c'.writeAll (buf.drop (n + 1))
termination_by buf.length
decreasing_by
  have : buf.length ≠ 0 := fun hl => h (List.eq_nil_of_length_eq_zero hl)
  simp only [List.length_drop]
  omega

/-- `read_u8`. -/
def readU8 (r : ByteCursor) : Except String (Nat × ByteCursor) := do
  let (bs, r) ← readExactE r 1
  .ok (bs.headI, r)

/-- `read_u16`. -/
def readU16 (r : ByteCursor) : Except String (Nat × ByteCursor) := do
  let (bs, r) ← readExactE r 2
  .ok (beVal bs, r)

/-- `read_u32`. -/
def readU32 (r : ByteCursor) : Except String (Nat × ByteCursor) := do
  let (bs, r) ← readExactE r 4
  .ok (beVal bs, r)

/-- `read_u64`. -/
def readU64 (r : ByteCursor) : Except String (Nat × ByteCursor) := do
  let (bs, r) ← readExactE r 8
  .ok (beVal bs, r)

/-- `read_f32` — returns the IEEE-754 single bit pattern
(`BigEndian::read_f32` is `f32::from_bits` of the big-endian `u32`). -/
def readF32 (r : ByteCursor) : Except String (Nat × ByteCursor) := readU32 r

/-- `read_f64` — returns the IEEE-754 double bit pattern. -/
def readF64 (r : ByteCursor) : Except String (Nat × ByteCursor) := readU64 r

/-- `read_bytes`. -/
def readBytes (r : ByteCursor) (len : Nat) :
    Except String (List Nat × ByteCursor) :=
  readExactE r len

end SpIpld

namespace SpIpld

/-- Well-formed UTF-8 (the byte-level validity that Rust's
`String::from_utf8` checks): ASCII, or a 2/3/4-byte sequence with the
continuation-byte ranges of the Unicode standard (surrogates and
over-long/out-of-range encodings rejected). -/
def validUtf8 : List Nat → Bool
  | [] => true
  | b :: rest =>
    if b < 0x80 then validUtf8 rest
    else if 0xc2 ≤ b ∧ b ≤ 0xdf then
      match rest with
      | c1 :: rest' => decide (0x80 ≤ c1 ∧ c1 ≤ 0xbf) && validUtf8 rest'
      | [] => false
    else if b = 0xe0 then
      match rest with
      | c1 :: c2 :: rest' =>
        decide (0xa0 ≤ c1 ∧ c1 ≤ 0xbf) && decide (0x80 ≤ c2 ∧ c2 ≤ 0xbf) &&
          validUtf8 rest'
      | _ => false
    else if (0xe1 ≤ b ∧ b ≤ 0xec) ∨ b = 0xee ∨ b = 0xef then
      match rest with
      | c1 :: c2 :: rest' =>
        decide (0x80 ≤ c1 ∧ c1 ≤ 0xbf) && decide (0x80 ≤ c2 ∧ c2 ≤ 0xbf) &&
          validUtf8 rest'
      | _ => false
    else if b = 0xed then
      match rest with
      | c1 :: c2 :: rest' =>
        decide (0x80 ≤ c1 ∧ c1 ≤ 0x9f) && decide (0x80 ≤ c2 ∧ c2 ≤ 0xbf) &&
          validUtf8 rest'
      | _ => false
    else if b = 0xf0 then
      match rest with
      | c1 :: c2 :: c3 :: rest' =>
        decide (0x90 ≤ c1 ∧ c1 ≤ 0xbf) && decide (0x80 ≤ c2 ∧ c2 ≤ 0xbf) &&
          decide (0x80 ≤ c3 ∧ c3 ≤ 0xbf) && validUtf8 rest'
      | _ => false
    else if 0xf1 ≤ b ∧ b ≤ 0xf3 then
      match rest with
      | c1 :: c2 :: c3 :: rest' =>
        decide (0x80 ≤ c1 ∧ c1 ≤ 0xbf) && decide (0x80 ≤ c2 ∧ c2 ≤ 0xbf) &&
          decide (0x80 ≤ c3 ∧ c3 ≤ 0xbf) && validUtf8 rest'
      | _ => false
    else if b = 0xf4 then
      match rest with
      | c1 :: c2 :: c3 :: rest' =>
        decide (0x80 ≤ c1 ∧ c1 ≤ 0x8f) && decide (0x80 ≤ c2 ∧ c2 ≤ 0xbf) &&
          decide (0x80 ≤ c3 ∧ c3 ≤ 0xbf) && validUtf8 rest'
      | _ => false
    else false

/-- `read_str`: `read_bytes` followed by the UTF-8 validity check of
`String::from_utf8`. Strings are modelled by their UTF-8 byte lists. -/
def readStr (r : ByteCursor) (len : Nat) :
    Except String (List Nat × ByteCursor) := do
  let (bytes, r) ← readBytes r len
  if validUtf8 bytes then .ok (bytes, r)
  else .error "Error converting to UTF-8"

/-- A multiformats unsigned varint (little-endian base 128, continuation bit
`0x80`): the decoded value and the remaining bytes. -/
def uvarint? : List Nat → Option (Nat × List Nat)
  | [] => none
  | b :: rest =>
    if b < 0x80 then some (b, rest)
    else (uvarint? rest).map fun vr => (b - 0x80 + 128 * vr.1, vr.2)

/-- Modelled from the spec: the content-identifier type of the external `cid`
crate is not part of this repository; the spec describes it as "a
self-describing hash-based identifier for a block of bytes" that is
"externally supplied, round-tripped bitwise". Following the multiformats CID
layout the crate implements, a byte string is a valid content identifier when
it is either a version-0 identifier (`0x12 0x20` followed by a 32-byte
digest) or a version-1 identifier (varint version `1`, varint codec, then a
multihash: varint hash code, varint digest size, digest of exactly that
size). -/
def cidWf (bs : List Nat) : Bool :=
  match bs with
  | 0x12 :: 0x20 :: rest => rest.length = 32
  | _ =>
    match uvarint? bs with
    | some (1, r1) =>
      match uvarint? r1 with
      | some (_, r2) =>
        match uvarint? r2 with
        | some (_, r3) =>
          match uvarint? r3 with
          | some (size, digest) => digest.length = size
          | none => false
        | none => false
      | none => false
    | _ => false

/-- Modelled from the spec: `Cid::try_from(bytes)` of the external `cid`
crate — parse the bytes as a content identifier ("round-tripped bitwise", so
a valid identifier is kept as its bytes), reject anything else. -/
def cidTryFrom (bs : List Nat) : Except String (List Nat) :=
  if cidWf bs then .ok bs else .error "Failed to parse multihash"

/-- `read_link`: the tag-42 payload must be a one-byte-length byte string
(initial byte exactly `0x58`) of non-zero length whose first byte is `0x00`,
the remainder being a valid content identifier. -/
def readLink (r : ByteCursor) : Except String (List Nat × ByteCursor) := do
  let (ty, r) ← readU8 r
  if ty ≠ 0x58 then
    .error ("Unknown cbor tag `" ++ toString ty ++ "`")
  else do
    let (len, r) ← readU8 r
    if len = 0 then
      .error "Length out of range when decoding Cid."
    else do
      let (bytes, r) ← readBytes r len
      if bytes.headI ≠ 0 then
        .error ("Invalid Cid prefix: " ++ toString bytes.headI)
      else do
        let cid ← cidTryFrom (bytes.drop 1)
        .ok (cid, r)

/-- `read_len`: decode a length from the additional-info byte `major`
(the low five bits of the initial byte), reading 1/2/4/8 trailing bytes for
`0x18`/`0x19`/`0x1a`/`0x1b`. -/
def readLen (r : ByteCursor) (major : Nat) :
    Except String (Nat × ByteCursor) :=
  if major ≤ 0x17 then .ok (major, r)
  else if major = 0x18 then readU8 r
  else if major = 0x19 then readU16 r
  else if major = 0x1a then readU32 r
  else if major = 0x1b then do
    let (len, r) ← readU64 r
    if len > usizeMax then
      .error "Length out of range when decoding usize."
    else .ok (len, r)
  else
    .error ("Unexpected cbor code `0x" ++ toString major ++
      "` when decoding usize.")

/-- Lexicographic `≤` on byte strings: the `Ord` of Rust's `Vec<u8>` /
`String` (a strict prefix precedes any extension). -/
def bytesLe : List Nat → List Nat → Bool
  | [], _ => true
  | _ :: _, [] => false
  | a :: as', b :: bs' => decide (a < b) || (decide (a = b) && bytesLe as' bs')

/-- Strict lexicographic `<` on byte strings. -/
def bytesLt : List Nat → List Nat → Bool
  | [], [] => false
  | [], _ :: _ => true
  | _ :: _, [] => false
  | a :: as', b :: bs' => decide (a < b) || (decide (a = b) && bytesLt as' bs')

/-- The nine-variant IPLD value sum. `Integer` carries an `i128` (here `Int`
with the `i128` range assumed where it matters); `Float` carries the IEEE-754
binary64 bit pattern; `String` carries UTF-8 bytes; `StringMap` is the
`BTreeMap<String, Ipld>` modelled as its sorted association list; `Link`
carries the content identifier's bytes. -/
inductive Ipld where
  | null
  | bool (b : Bool)
  | integer (i : Int)
  | float (bits : Nat)
  | string (s : List Nat)
  | bytes (b : List Nat)
  | list (l : List Ipld)
  | map (m : List (List Nat × Ipld))
  | link (cid : List Nat)
deriving Repr, Inhabited

/-- `BTreeMap::insert` on the sorted association list (keys ordered by the
byte-lexicographic `String` order; an existing key's value is replaced). -/
def mapInsert (k : List Nat) (v : Ipld) :
    List (List Nat × Ipld) → List (List Nat × Ipld)
  | [] => [(k, v)]
  | (k', v') :: rest =>
    if bytesLt k k' then (k, v) :: (k', v') :: rest
    else if k = k' then (k, v) :: rest
    else (k', v') :: mapInsert k v rest

end SpIpld

namespace SpIpld

/-! ## IEEE-754 bit-pattern arithmetic

`f64` is its 64-bit pattern (sign `s`, 11-bit exponent field `e`, 52-bit
mantissa field `m`), `f32` its 32-bit pattern. The Rust operations the
encoder uses — `is_nan`, `is_infinite`, `is_finite`, `is_sign_positive`,
the `as f32` cast (round to nearest, ties to even, overflow to infinity)
and the exact `f64::from(f32)` widening — are defined on the patterns. -/

/-- Sign bit of a binary64 pattern. -/
def sign64 (b : Nat) : Nat := b / 2 ^ 63 % 2

/-- Exponent field of a binary64 pattern. -/
def expf64 (b : Nat) : Nat := b / 2 ^ 52 % 2 ^ 11

/-- Mantissa field of a binary64 pattern. -/
def mant64 (b : Nat) : Nat := b % 2 ^ 52

/-- `f64::is_nan`. -/
def isNan64 (b : Nat) : Bool := expf64 b = 0x7ff ∧ mant64 b ≠ 0

/-- `f64::is_infinite`. -/
def isInf64 (b : Nat) : Bool := expf64 b = 0x7ff ∧ mant64 b = 0

/-- `f64::is_finite`. -/
def isFinite64 (b : Nat) : Bool := expf64 b ≠ 0x7ff

/-- `f64::is_sign_positive`. -/
def isSignPositive64 (b : Nat) : Bool := sign64 b = 0

/-- Significand of a finite binary64 pattern (with the implicit leading bit
for normal numbers): the magnitude is `sig64 b * 2 ^ exp64 b`. -/
def sig64 (b : Nat) : Nat :=
  if expf64 b = 0 then mant64 b else 2 ^ 52 + mant64 b

/-- Binary exponent of a finite binary64 pattern (scale of `sig64`). -/
def exp64 (b : Nat) : Int :=
  if expf64 b = 0 then -1074 else (expf64 b : Int) - 1075

/-- Sign bit of a binary32 pattern. -/
def sign32 (b : Nat) : Nat := b / 2 ^ 31 % 2

/-- Exponent field of a binary32 pattern. -/
def expf32 (b : Nat) : Nat := b / 2 ^ 23 % 2 ^ 8

/-- Mantissa field of a binary32 pattern. -/
def mant32 (b : Nat) : Nat := b % 2 ^ 23

/-- `f32::is_nan`. -/
def isNan32 (b : Nat) : Bool := expf32 b = 0xff ∧ mant32 b ≠ 0

/-- `f32::is_infinite`. -/
def isInf32 (b : Nat) : Bool := expf32 b = 0xff ∧ mant32 b = 0

/-- `f32::is_sign_positive`. -/
def isSignPositive32 (b : Nat) : Bool := sign32 b = 0

/-- Round the rational `num / 2 ^ d` to the nearest integer, ties to even. -/
def roundHalfEven (num d : Nat) : Nat :=
  let den := 2 ^ d
  let q := num / den
  let r := num % den
  if 2 * r < den then q
  else if 2 * r > den then q + 1
  else if q % 2 = 0 then q else q + 1

/-- `M * 2 ^ sh` rounded to the nearest integer, ties to even
(exact when `sh ≥ 0`). -/
def rheScaled (M : Nat) (sh : Int) : Nat :=
  if 0 ≤ sh then M * 2 ^ sh.toNat else roundHalfEven M (-sh).toNat

/-- Round the positive magnitude `M * 2 ^ E` (`M ≠ 0`) to the nearest
binary32 magnitude, ties to even, overflowing to infinity: the exponent and
mantissa fields of the result. -/
def narrowMag (M : Nat) (E : Int) : Nat × Nat :=
  let k : Int := Nat.log2 M + E
  if k ≤ -127 then
    let n := rheScaled M (E + 149)
    if n < 2 ^ 23 then (0, n) else (1, n - 2 ^ 23)
  else
    let n := rheScaled M (E - (k - 23))
    let kn := if n = 2 ^ 24 then (k + 1, 2 ^ 23) else (k, n)
    if 127 < kn.1 then (0xff, 0)
    else ((kn.1 + 127).toNat, kn.2 - 2 ^ 23)

/-- The Rust `as f32` cast on bit patterns: round to nearest (ties to even),
overflow to an infinity of the same sign, NaN to a quiet NaN of the same
sign, zeroes and infinities preserved with their sign. -/
def narrow (b : Nat) : Nat :=
  if isNan64 b then sign64 b * 2 ^ 31 + 0xff * 2 ^ 23 + 2 ^ 22
  else if isInf64 b then sign64 b * 2 ^ 31 + 0xff * 2 ^ 23
  else if sig64 b = 0 then sign64 b * 2 ^ 31
  else
    let em := narrowMag (sig64 b) (exp64 b)
    sign64 b * 2 ^ 31 + em.1 * 2 ^ 23 + em.2

/-- The exact `f64::from(f32)` widening on bit patterns. -/
def widen (b : Nat) : Nat :=
  let s := sign32 b
  let ef := expf32 b
  let mf := mant32 b
  if ef = 0xff then s * 2 ^ 63 + 0x7ff * 2 ^ 52 + mf * 2 ^ 29
  else if ef = 0 then
    if mf = 0 then s * 2 ^ 63
    else
      let L := Nat.log2 mf
      s * 2 ^ 63 + (L + 874) * 2 ^ 52 + (mf - 2 ^ L) * 2 ^ (52 - L)
  else s * 2 ^ 63 + (ef + 896) * 2 ^ 52 + mf * 2 ^ 29

/-- Equality of the magnitudes `sig64 a * 2 ^ exp64 a` and
`sig64 b * 2 ^ exp64 b`, via integer arithmetic at the common scale. -/
def magEq64 (a b : Nat) : Bool :=
  let d : Int := exp64 a - exp64 b
  if 0 ≤ d then sig64 a * 2 ^ d.toNat = sig64 b
  else sig64 a = sig64 b * 2 ^ (-d).toNat

/-- IEEE-754 equality (`==` on Rust `f64`) on bit patterns: NaN equals
nothing, infinities compare by sign, finite values by signed magnitude
(`+0 == -0`). -/
def floatEq64 (a b : Nat) : Bool :=
  if isNan64 a ∨ isNan64 b then false
  else if isInf64 a ∨ isInf64 b then
    isInf64 a ∧ isInf64 b ∧ sign64 a = sign64 b
  else
    magEq64 a b ∧ (sign64 a = sign64 b ∨ sig64 a = 0)

end SpIpld

namespace SpIpld

/-! ## Encoder -/

/-- `write_null`. -/
def writeNull (w : ByteCursor) : Except String ByteCursor :=
  w.writeAll [0xf6]

/-- `write_u8(major, value)`: minimum-width emission, immediate form for
`value ≤ 23`. (`major << 5 | value` is `major * 32 + value` for the
disjoint bit ranges involved.) -/
def writeU8 (w : ByteCursor) (major value : Nat) : Except String ByteCursor :=
  if value ≤ 0x17 then w.writeAll [major * 32 + value]
  else w.writeAll [major * 32 + 24, value]

/-- `write_u16(major, value)`: falls through to `write_u8` when the value
fits in one byte. -/
def writeU16 (w : ByteCursor) (major value : Nat) : Except String ByteCursor :=
  if value ≤ 0xff then writeU8 w major value
  else w.writeAll ((major * 32 + 25) :: beBytes 2 value)

/-- `write_u32(major, value)`. -/
def writeU32 (w : ByteCursor) (major value : Nat) : Except String ByteCursor :=
  if value ≤ 0xffff then writeU16 w major value
  else w.writeAll ((major * 32 + 26) :: beBytes 4 value)

/-- `write_u64(major, value)`. -/
def writeU64 (w : ByteCursor) (major value : Nat) : Except String ByteCursor :=
  if value ≤ 0xffffffff then writeU32 w major value
  else w.writeAll ((major * 32 + 27) :: beBytes 8 value)

/-- `write_tag`. -/
def writeTag (w : ByteCursor) (tag : Nat) : Except String ByteCursor :=
  writeU64 w 6 tag

/-- `impl Encode<DagCborCodec> for bool`. -/
def encodeBool (b : Bool) (w : ByteCursor) : Except String ByteCursor :=
  w.writeAll (if b then [0xf5] else [0xf4])

/-- `impl Encode<DagCborCodec> for str/String` (strings are their UTF-8
bytes; `self.len()` is the byte length). -/
def encodeStr (s : List Nat) (w : ByteCursor) : Except String ByteCursor := do
  let w ← writeU64 w 3 s.length
  w.writeAll s

/-- `impl Encode<DagCborCodec> for [u8]`. -/
def encodeBytesSlice (b : List Nat) (w : ByteCursor) :
    Except String ByteCursor := do
  let w ← writeU64 w 2 b.length
  w.writeAll b

/-- `impl Encode<DagCborCodec> for i128`: major type 0 for `i ≥ 0`, major
type 1 with magnitude `-(i+1)` otherwise; fails outside `[-2^64, 2^64-1]`. -/
def encodeI128 (i : Int) (w : ByteCursor) : Except String ByteCursor :=
  if i < 0 then
    if -(i + 1) > (2 : Int) ^ 64 - 1 then .error "Number larger than i128."
    else writeU64 w 1 (-(i + 1)).toNat
  else
    if i > (2 : Int) ^ 64 - 1 then .error "Number larger than i128."
    else writeU64 w 0 i.toNat

/-- `impl Encode<DagCborCodec> for f32`: fixed half-precision bytes for the
infinities and NaN, otherwise `0xfa` followed by the big-endian bits. -/
def encodeF32 (b : Nat) (w : ByteCursor) : Except String ByteCursor :=
  if isInf32 b then
    if isSignPositive32 b then w.writeAll [0xf9, 0x7c, 0x00]
    else w.writeAll [0xf9, 0xfc, 0x00]
  else if isNan32 b then w.writeAll [0xf9, 0x7e, 0x00]
  else w.writeAll (0xfa :: beBytes 4 b)

/-- `impl Encode<DagCborCodec> for f64`: when the value is not finite or the
`as f32` cast loses nothing (IEEE equality of the widened cast with the
original), encode the cast as an `f32`; otherwise `0xfb` followed by the
big-endian bits. -/
def encodeF64 (b : Nat) (w : ByteCursor) : Except String ByteCursor :=
  if !isFinite64 b || floatEq64 (widen (narrow b)) b then
    encodeF32 (narrow b) w
  else w.writeAll (0xfb :: beBytes 8 b)

/-- `impl Encode<DagCborCodec> for Cid`: tag 42, a byte string of length
`len(cid) + 1`, the zero multibase-identity byte, then the identifier
bytes. -/
def encodeCid (cid : List Nat) (w : ByteCursor) : Except String ByteCursor := do
  let w ← writeTag w 42
  let w ← writeU64 w 2 (cid.length + 1)
  let w ← w.writeAll [0]
  w.writeAll cid

/-- The key bytes used by the `BTreeMap` encoder's comparator: the key
encoded into a fresh cursor (encoding errors are dropped by the source's
`mem::drop`; a string key on a fresh cursor never fails, see
`encodeStr_fresh`). -/
def keyEncBytes (k : List Nat) : List Nat :=
  match encodeStr k (ByteCursor.new []) with
  | .ok c => c.inner
  | .error _ => []

/-- The comparator of the `BTreeMap` encoder: byte-lexicographic order of
the keys' own encodings. -/
def keyLe (a b : List Nat × Ipld) : Prop :=
  bytesLe (keyEncBytes a.1) (keyEncBytes b.1) = true

instance : DecidableRel keyLe := fun a b => by
  unfold keyLe; infer_instance

/-- The entry order emitted for a `StringMap`
(`vec.sort_unstable_by` with the encoded-key comparator; map keys are
distinct so any sort by this comparator yields this order). -/
def sortEntries (m : List (List Nat × Ipld)) : List (List Nat × Ipld) :=
  List.insertionSort keyLe m

mutual

/-- `impl Encode<DagCborCodec> for Ipld`. -/
def encodeIpld : Ipld → ByteCursor → Except String ByteCursor
  | .null, w => writeNull w
  | .bool b, w => encodeBool b w
  | .integer i, w => encodeI128 i w
  | .float bits, w => encodeF64 bits w
  | .string s, w => encodeStr s w
  | .bytes b, w => encodeBytesSlice b w
  | .list l, w => do
    let w ← writeU64 w 4 l.length
    encodeSeq l w
  | .map m, w => do
    let w ← writeU64 w 5 m.length
    encodeEntries (sortEntries m) w
  | .link cid, w => encodeCid cid w
termination_by v _ => sizeOf v
decreasing_by
  all_goals simp_wf
  all_goals first
    | omega
    | (have h := (List.perm_insertionSort keyLe m).sizeOf_eq_sizeOf
       simp only [sortEntries]
       omega)

/-- The body of `impl Encode<DagCborCodec> for Vec<T>`: each element in
order. -/
def encodeSeq : List Ipld → ByteCursor → Except String ByteCursor
  | [], w => .ok w
  | x :: xs, w => do
    let w ← encodeIpld x w
    encodeSeq xs w
termination_by l _ => sizeOf l
decreasing_by
  all_goals simp_wf <;> omega

/-- The emission loop of `impl Encode<DagCborCodec> for BTreeMap<K, T>`:
each (key, value) pair of the already-sorted entry list. -/
def encodeEntries : List (List Nat × Ipld) → ByteCursor →
    Except String ByteCursor
  | [], w => .ok w
  | (k, v) :: rest, w => do
    let w ← encodeStr k w
    let w ← encodeIpld v w
    encodeEntries rest w
termination_by es _ => sizeOf es
decreasing_by
  all_goals simp_wf <;> omega

end

end SpIpld

namespace SpIpld

/-! ## The bytes the encoder appends (pure form)

`encodeIpld` threads a cursor; since encoding always writes at the end of
the buffer, its effect is to append a byte string that depends only on the
value. `emit` is that byte string, proved to agree with `encodeIpld` in
`encodeIpld_eq_emit` below. -/

/-- The bytes `write_u64(major, value)` appends: the minimum-width CBOR
framing of `value` under major type `major`. -/
def header64 (major value : Nat) : List Nat :=
  if value ≤ 0x17 then [major * 32 + value]
  else if value ≤ 0xff then [major * 32 + 24, value]
  else if value ≤ 0xffff then (major * 32 + 25) :: beBytes 2 value
  else if value ≤ 0xffffffff then (major * 32 + 26) :: beBytes 4 value
  else (major * 32 + 27) :: beBytes 8 value

/-- The bytes the `f32` encoder appends. -/
def emitF32 (b : Nat) : List Nat :=
  if isInf32 b then
    if isSignPositive32 b then [0xf9, 0x7c, 0x00] else [0xf9, 0xfc, 0x00]
  else if isNan32 b then [0xf9, 0x7e, 0x00]
  else 0xfa :: beBytes 4 b

/-- The bytes the `f64` encoder appends. -/
def emitF64 (b : Nat) : List Nat :=
  if !isFinite64 b || floatEq64 (widen (narrow b)) b then emitF32 (narrow b)
  else 0xfb :: beBytes 8 b

/-- The bytes the string encoder appends. -/
def emitStr (s : List Nat) : List Nat := header64 3 s.length ++ s

/-- The bytes the `i128` encoder appends (meaningful on the encodable
range). -/
def emitInt (i : Int) : List Nat :=
  if i < 0 then header64 1 (-(i + 1)).toNat else header64 0 i.toNat

/-- The bytes the `Cid` encoder appends. -/
def emitCid (cid : List Nat) : List Nat :=
  header64 6 42 ++ header64 2 (cid.length + 1) ++ 0 :: cid

mutual

/-- The bytes `encodeIpld` appends for a value. -/
def emit : Ipld → List Nat
  | .null => [0xf6]
  | .bool b => if b then [0xf5] else [0xf4]
  | .integer i => emitInt i
  | .float bits => emitF64 bits
  | .string s => emitStr s
  | .bytes b => header64 2 b.length ++ b
  | .list l => header64 4 l.length ++ emitSeq l
  | .map m => header64 5 m.length ++ emitEntries (sortEntries m)
  | .link cid => emitCid cid
termination_by v => sizeOf v
decreasing_by
  all_goals simp_wf
  all_goals first
    | omega
    | (have h := fun (x : List (List Nat × Ipld)) =>
         (List.perm_insertionSort keyLe x).sizeOf_eq_sizeOf
       simp only [sortEntries, h]
       omega)

/-- The bytes appended for a list's elements. -/
def emitSeq : List Ipld → List Nat
  | [] => []
  | x :: xs => emit x ++ emitSeq xs
termination_by l => sizeOf l
decreasing_by
  all_goals simp_wf <;> omega

/-- The bytes appended for a map's (already sorted) entries. -/
def emitEntries : List (List Nat × Ipld) → List Nat
  | [] => []
  | (k, v) :: rest => emitStr k ++ emit v ++ emitEntries rest
termination_by es => sizeOf es
decreasing_by
  all_goals simp_wf <;> omega

end

/-! ## Decoder -/

/-- `impl Decode<DagCborCodec> for String`. -/
def decodeString (r : ByteCursor) : Except String (List Nat × ByteCursor) := do
  let (major, r) ← readU8 r
  if 0x60 ≤ major ∧ major ≤ 0x7b then do
    let (len, r) ← readLen r (major - 0x60)
    readStr r len
  else
    .error ("Unexpected cbor code `0x" ++ toString major ++
      "` when decoding String.")

/-- `read_list`: `len` successive decodes with the item decoder `dec`. -/
def readListN (dec : ByteCursor → Except String (Ipld × ByteCursor)) :
    Nat → ByteCursor → Except String (List Ipld × ByteCursor)
  | 0, r => .ok ([], r)
  | n + 1, r => do
    let (x, r) ← dec r
    let (xs, r) ← readListN dec n r
    .ok (x :: xs, r)

/-- `read_list_il`: decode items until the `0xff` break byte, backtracking
one byte before each item (`lf` bounds the number of iterations; the Rust
loop is unbounded). -/
def readListIl (dec : ByteCursor → Except String (Ipld × ByteCursor)) :
    Nat → ByteCursor → Except String (List Ipld × ByteCursor)
  | 0, _ => .error "recursion limit reached"
  | lf + 1, r => do
    let (major, r) ← readU8 r
    if major = 0xff then .ok ([], r)
    else do
      let (_, r) ← r.seek (.current (-1))
      let (x, r) ← dec r
      let (xs, r) ← readListIl dec lf r
      .ok (x :: xs, r)

/-- `read_map`: `len` successive key/value pairs inserted into the map
(`String::decode` for the key, the item decoder for the value). -/
def readMapN (dec : ByteCursor → Except String (Ipld × ByteCursor)) :
    Nat → List (List Nat × Ipld) → ByteCursor →
    Except String (List (List Nat × Ipld) × ByteCursor)
  | 0, m, r => .ok (m, r)
  | n + 1, m, r => do
    let (k, r) ← decodeString r
    let (v, r) ← dec r
    readMapN dec n (mapInsert k v m) r

/-- `read_map_il`: key/value pairs until the `0xff` break byte. -/
def readMapIl (dec : ByteCursor → Except String (Ipld × ByteCursor)) :
    Nat → List (List Nat × Ipld) → ByteCursor →
    Except String (List (List Nat × Ipld) × ByteCursor)
  | 0, _, _ => .error "recursion limit reached"
  | lf + 1, m, r => do
    let (major, r) ← readU8 r
    if major = 0xff then .ok (m, r)
    else do
      let (_, r) ← r.seek (.current (-1))
      let (k, r) ← decodeString r
      let (v, r) ← dec r
      readMapIl dec lf (mapInsert k v m) r

/-- The body of `impl Decode<DagCborCodec> for Ipld`: dispatch on the
initial byte, with `dec` decoding nested items and `lf` bounding the
indefinite-length loops. -/
def decodeStep (dec : ByteCursor → Except String (Ipld × ByteCursor))
    (lf : Nat) (r : ByteCursor) : Except String (Ipld × ByteCursor) := do
  let (major, r) ← readU8 r
  if major ≤ 0x17 then .ok (.integer major, r)
  else if major = 0x18 then do
    let (v, r) ← readU8 r
    .ok (.integer v, r)
  else if major = 0x19 then do
    let (v, r) ← readU16 r
    .ok (.integer v, r)
  else if major = 0x1a then do
    let (v, r) ← readU32 r
    .ok (.integer v, r)
  else if major = 0x1b then do
    let (v, r) ← readU64 r
    .ok (.integer v, r)
  else if 0x20 ≤ major ∧ major ≤ 0x37 then
    .ok (.integer (-1 - ((major - 0x20 : Nat) : Int)), r)
  else if major = 0x38 then do
    let (v, r) ← readU8 r
    .ok (.integer (-1 - (v : Int)), r)
  else if major = 0x39 then do
    let (v, r) ← readU16 r
    .ok (.integer (-1 - (v : Int)), r)
  else if major = 0x3a then do
    let (v, r) ← readU32 r
    .ok (.integer (-1 - (v : Int)), r)
  else if major = 0x3b then do
    let (v, r) ← readU64 r
    .ok (.integer (-1 - (v : Int)), r)
  else if 0x40 ≤ major ∧ major ≤ 0x5b then do
    let (len, r) ← readLen r (major - 0x40)
    let (bytes, r) ← readBytes r len
    .ok (.bytes bytes, r)
  else if 0x60 ≤ major ∧ major ≤ 0x7b then do
    let (len, r) ← readLen r (major - 0x60)
    let (s, r) ← readStr r len
    .ok (.string s, r)
  else if 0x80 ≤ major ∧ major ≤ 0x9b then do
    let (len, r) ← readLen r (major - 0x80)
    let (l, r) ← readListN dec len r
    .ok (.list l, r)
  else if major = 0x9f then do
    let (l, r) ← readListIl dec lf r
    .ok (.list l, r)
  else if 0xa0 ≤ major ∧ major ≤ 0xbb then do
    let (len, r) ← readLen r (major - 0xa0)
    let (m, r) ← readMapN dec len [] r
    .ok (.map m, r)
  else if major = 0xbf then do
    let (pos, r) ← r.seek (.current 0)
    let (_, r) ← r.seek (.start pos)
    let (m, r) ← readMapIl dec lf [] r
    .ok (.map m, r)
  else if major = 0xd8 then do
    let (tag, r) ← readU8 r
    if tag = 42 then do
      let (cid, r) ← readLink r
      .ok (.link cid, r)
    else .error ("Unknown cbor tag `" ++ toString tag ++ "`")
  else if major = 0xf4 then .ok (.bool false, r)
  else if major = 0xf5 then .ok (.bool true, r)
  else if major = 0xf6 ∨ major = 0xf7 then .ok (.null, r)
  else if major = 0xfa then do
    let (bits, r) ← readF32 r
    .ok (.float (widen bits), r)
  else if major = 0xfb then do
    let (bits, r) ← readF64 r
    .ok (.float bits, r)
  else
    .error ("Unexpected cbor code `0x" ++ toString major ++
      "` when decoding Ipld.")

/-- `impl Decode<DagCborCodec> for Ipld`: the fuel makes the Rust decoder's
structural recursion total; every nesting level and every iteration of an
indefinite-length loop strictly decreases it. -/
def decodeIpld : Nat → ByteCursor → Except String (Ipld × ByteCursor)
  | 0, _ => .error "recursion limit reached"
  | f + 1, r => decodeStep (fun r' => decodeIpld f r') f r

end SpIpld

namespace SpIpld

/-! ## Skipper and link scanner -/

/-- The definite-length array loop of `skip`. -/
def skipSeqN (skp : ByteCursor → Except String ByteCursor) :
    Nat → ByteCursor → Except String ByteCursor
  | 0, r => .ok r
  | n + 1, r => do
    let r ← skp r
    skipSeqN skp n r

/-- The indefinite-length array loop of `skip`. -/
def skipSeqIl (skp : ByteCursor → Except String ByteCursor) :
    Nat → ByteCursor → Except String ByteCursor
  | 0, _ => .error "recursion limit reached"
  | lf + 1, r => do
    let (major, r) ← readU8 r
    if major = 0xff then .ok r
    else do
      let (_, r) ← r.seek (.current (-1))
      let r ← skp r
      skipSeqIl skp lf r

/-- The definite-length map loop of `skip` (two skips per entry). -/
def skipMapN (skp : ByteCursor → Except String ByteCursor) :
    Nat → ByteCursor → Except String ByteCursor
  | 0, r => .ok r
  | n + 1, r => do
    let r ← skp r
    let r ← skp r
    skipMapN skp n r

/-- The indefinite-length map loop of `skip`. -/
def skipMapIl (skp : ByteCursor → Except String ByteCursor) :
    Nat → ByteCursor → Except String ByteCursor
  | 0, _ => .error "recursion limit reached"
  | lf + 1, r => do
    let (major, r) ← readU8 r
    if major = 0xff then .ok r
    else do
      let (_, r) ← r.seek (.current (-1))
      let r ← skp r
      let r ← skp r
      skipMapIl skp lf r

/-- The body of `impl SkipOne for DagCborCodec`: advance the cursor past
exactly one encoded value without materialising it. -/
def skipStep (skp : ByteCursor → Except String ByteCursor) (lf : Nat)
    (r : ByteCursor) : Except String ByteCursor := do
  let (major, r) ← readU8 r
  if major ≤ 0x17 ∨ (0x20 ≤ major ∧ major ≤ 0x37) ∨
      (0xf4 ≤ major ∧ major ≤ 0xf7) then .ok r
  else if major = 0x18 ∨ major = 0x38 ∨ major = 0xf8 then do
    let (_, r) ← r.seek (.current 1)
    .ok r
  else if major = 0x19 ∨ major = 0x39 ∨ major = 0xf9 then do
    let (_, r) ← r.seek (.current 2)
    .ok r
  else if major = 0x1a ∨ major = 0x3a ∨ major = 0xfa then do
    let (_, r) ← r.seek (.current 4)
    .ok r
  else if major = 0x1b ∨ major = 0x3b ∨ major = 0xfb then do
    let (_, r) ← r.seek (.current 8)
    .ok r
  else if 0x40 ≤ major ∧ major ≤ 0x5b then do
    let (len, r) ← readLen r (major - 0x40)
    let (_, r) ← r.seek (.current len)
    .ok r
  else if 0x60 ≤ major ∧ major ≤ 0x7b then do
    let (len, r) ← readLen r (major - 0x60)
    let (_, r) ← r.seek (.current len)
    .ok r
  else if 0x80 ≤ major ∧ major ≤ 0x9b then do
    let (len, r) ← readLen r (major - 0x80)
    skipSeqN skp len r
  else if major = 0x9f then skipSeqIl skp lf r
  else if 0xa0 ≤ major ∧ major ≤ 0xbb then do
    let (len, r) ← readLen r (major - 0xa0)
    skipMapN skp len r
  else if major = 0xbf then skipMapIl skp lf r
  else if major = 0xd8 then do
    let (_, r) ← readU8 r
    skp r
  else
    .error ("Unexpected cbor code `0x" ++ toString major ++
      "` when decoding Ipld.")

/-- `impl SkipOne for DagCborCodec` (fuel as in `decodeIpld`). -/
def skipOne : Nat → ByteCursor → Except String ByteCursor
  | 0, _ => .error "recursion limit reached"
  | f + 1, r => skipStep (fun r' => skipOne f r') f r

/-- The definite-length array loop of `references`. -/
def refsSeqN
    (ref : ByteCursor → List (List Nat) →
      Except String (List (List Nat) × ByteCursor)) :
    Nat → ByteCursor → List (List Nat) →
    Except String (List (List Nat) × ByteCursor)
  | 0, r, set => .ok (set, r)
  | n + 1, r, set => do
    let (set, r) ← ref r set
    refsSeqN ref n r set

/-- The indefinite-length array loop of `references`. -/
def refsSeqIl
    (ref : ByteCursor → List (List Nat) →
      Except String (List (List Nat) × ByteCursor)) :
    Nat → ByteCursor → List (List Nat) →
    Except String (List (List Nat) × ByteCursor)
  | 0, _, _ => .error "recursion limit reached"
  | lf + 1, r, set => do
    let (major, r) ← readU8 r
    if major = 0xff then .ok (set, r)
    else do
      let (_, r) ← r.seek (.current (-1))
      let (set, r) ← ref r set
      refsSeqIl ref lf r set

/-- The definite-length map loop of `references` (two scans per entry). -/
def refsMapN
    (ref : ByteCursor → List (List Nat) →
      Except String (List (List Nat) × ByteCursor)) :
    Nat → ByteCursor → List (List Nat) →
    Except String (List (List Nat) × ByteCursor)
  | 0, r, set => .ok (set, r)
  | n + 1, r, set => do
    let (set, r) ← ref r set
    let (set, r) ← ref r set
    refsMapN ref n r set

/-- The indefinite-length map loop of `references`. -/
def refsMapIl
    (ref : ByteCursor → List (List Nat) →
      Except String (List (List Nat) × ByteCursor)) :
    Nat → ByteCursor → List (List Nat) →
    Except String (List (List Nat) × ByteCursor)
  | 0, _, _ => .error "recursion limit reached"
  | lf + 1, r, set => do
    let (major, r) ← readU8 r
    if major = 0xff then .ok (set, r)
    else do
      let (_, r) ← r.seek (.current (-1))
      let (set, r) ← ref r set
      let (set, r) ← ref r set
      refsMapIl ref lf r set

/-- The body of `impl References<DagCborCodec> for Ipld`: advance past one
encoded value like `skip`, pushing the identifier of every tag-42 link into
the sink (modelled as an accumulating list; `Extend::extend` appends). A
tag other than 42 scans its wrapped value. -/
def refsStep
    (ref : ByteCursor → List (List Nat) →
      Except String (List (List Nat) × ByteCursor))
    (lf : Nat) (r : ByteCursor) (set : List (List Nat)) :
    Except String (List (List Nat) × ByteCursor) := do
  let (major, r) ← readU8 r
  if major ≤ 0x17 ∨ (0x20 ≤ major ∧ major ≤ 0x37) ∨
      (0xf4 ≤ major ∧ major ≤ 0xf7) then .ok (set, r)
  else if major = 0x18 ∨ major = 0x38 ∨ major = 0xf8 then do
    let (_, r) ← r.seek (.current 1)
    .ok (set, r)
  else if major = 0x19 ∨ major = 0x39 ∨ major = 0xf9 then do
    let (_, r) ← r.seek (.current 2)
    .ok (set, r)
  else if major = 0x1a ∨ major = 0x3a ∨ major = 0xfa then do
    let (_, r) ← r.seek (.current 4)
    .ok (set, r)
  else if major = 0x1b ∨ major = 0x3b ∨ major = 0xfb then do
    let (_, r) ← r.seek (.current 8)
    .ok (set, r)
  else if 0x40 ≤ major ∧ major ≤ 0x5b then do
    let (len, r) ← readLen r (major - 0x40)
    let (_, r) ← r.seek (.current len)
    .ok (set, r)
  else if 0x60 ≤ major ∧ major ≤ 0x7b then do
    let (len, r) ← readLen r (major - 0x60)
    let (_, r) ← r.seek (.current len)
    .ok (set, r)
  else if 0x80 ≤ major ∧ major ≤ 0x9b then do
    let (len, r) ← readLen r (major - 0x80)
    refsSeqN ref len r set
  else if major = 0x9f then refsSeqIl ref lf r set
  else if 0xa0 ≤ major ∧ major ≤ 0xbb then do
    let (len, r) ← readLen r (major - 0xa0)
    refsMapN ref len r set
  else if major = 0xbf then refsMapIl ref lf r set
  else if major = 0xd8 then do
    let (tag, r) ← readU8 r
    if tag = 42 then do
      let (cid, r) ← readLink r
      .ok (set ++ [cid], r)
    else ref r set
  else
    .error ("Unexpected cbor code `0x" ++ toString major ++
      "` when decoding Ipld.")

/-- `impl References<DagCborCodec> for Ipld` (fuel as in `decodeIpld`). -/
def refsOne : Nat → ByteCursor → List (List Nat) →
    Except String (List (List Nat) × ByteCursor)
  | 0, _, _ => .error "recursion limit reached"
  | f + 1, r, set => refsStep (fun r' set' => refsOne f r' set') f r set

/-! ## Structural predicates on values -/

mutual

/-- The representation invariant of a Rust `Ipld` value in this embedding:
integers in the encodable range, float patterns 64-bit, strings valid UTF-8
(as `String` guarantees), lengths within `u64` (as `usize` guarantees),
map entry lists strictly sorted by the byte-lexicographic key order (the
`BTreeMap` invariant), link bytes a valid content identifier. -/
def wfIpld : Ipld → Bool
  | .null => true
  | .bool _ => true
  | .integer i => decide (-(2 ^ 64 : Int) ≤ i ∧ i ≤ 2 ^ 64 - 1)
  | .float bits => decide (bits < 2 ^ 64)
  | .string s => validUtf8 s && decide (s.length < 2 ^ 64)
  | .bytes b => decide (b.length < 2 ^ 64)
  | .list l => decide (l.length < 2 ^ 64) && wfSeq l
  | .map m => decide (m.length < 2 ^ 64) && wfEntries m
  | .link cid => cidWf cid && decide (cid.length + 1 < 2 ^ 64)

/-- `wfIpld` over a list's elements. -/
def wfSeq : List Ipld → Bool
  | [] => true
  | x :: xs => wfIpld x && wfSeq xs

/-- `wfIpld` over a map's entries, with valid UTF-8 keys in strictly
ascending byte-lexicographic order. -/
def wfEntries : List (List Nat × Ipld) → Bool
  | [] => true
  | (k, v) :: rest =>
    validUtf8 k && decide (k.length < 2 ^ 64) && wfIpld v &&
      (match rest with
       | [] => true
       | (k', _) :: _ => bytesLt k k') &&
      wfEntries rest

end

mutual

/-- Every float in the value (recursively) is finite — neither NaN nor an
infinity. -/
def floatsFinite : Ipld → Bool
  | .float bits => isFinite64 bits
  | .list l => floatsFiniteSeq l
  | .map m => floatsFiniteEntries m
  | _ => true

/-- `floatsFinite` over a list's elements. -/
def floatsFiniteSeq : List Ipld → Bool
  | [] => true
  | x :: xs => floatsFinite x && floatsFiniteSeq xs

/-- `floatsFinite` over a map's entries. -/
def floatsFiniteEntries : List (List Nat × Ipld) → Bool
  | [] => true
  | (_, v) :: rest => floatsFinite v && floatsFiniteEntries rest

end

mutual

/-- Every link in the value (recursively) has a content identifier of 23 to
254 bytes, so that the byte string the encoder wraps it in takes the
one-byte-length form `0x58` that `read_link` demands. -/
def cidsSized : Ipld → Bool
  | .link cid => decide (23 ≤ cid.length ∧ cid.length ≤ 254)
  | .list l => cidsSizedSeq l
  | .map m => cidsSizedEntries m
  | _ => true

/-- `cidsSized` over a list's elements. -/
def cidsSizedSeq : List Ipld → Bool
  | [] => true
  | x :: xs => cidsSized x && cidsSizedSeq xs

/-- `cidsSized` over a map's entries. -/
def cidsSizedEntries : List (List Nat × Ipld) → Bool
  | [] => true
  | (_, v) :: rest => cidsSized v && cidsSizedEntries rest

end

mutual

/-- The content identifiers of the `Link` variants reachable by structural
descent (list elements and map values, in structural order). -/
def ipldLinks : Ipld → List (List Nat)
  | .link cid => [cid]
  | .list l => ipldLinksSeq l
  | .map m => ipldLinksEntries m
  | _ => []

/-- `ipldLinks` over a list's elements. -/
def ipldLinksSeq : List Ipld → List (List Nat)
  | [] => []
  | x :: xs => ipldLinks x ++ ipldLinksSeq xs

/-- `ipldLinks` over a map's entries. -/
def ipldLinksEntries : List (List Nat × Ipld) → List (List Nat)
  | [] => []
  | (_, v) :: rest => ipldLinks v ++ ipldLinksEntries rest

end

mutual

/-- The nesting depth of a value: an upper bound on the fuel the decoder,
skipper and scanner consume on its encoding. -/
def ipldFuel : Ipld → Nat
  | .list l => ipldFuelSeq l + 1
  | .map m => ipldFuelEntries m + 1
  | _ => 1

/-- Maximum `ipldFuel` over a list's elements. -/
def ipldFuelSeq : List Ipld → Nat
  | [] => 0
  | x :: xs => max (ipldFuel x) (ipldFuelSeq xs)

/-- Maximum `ipldFuel` over a map's values. -/
def ipldFuelEntries : List (List Nat × Ipld) → Nat
  | [] => 0
  | (_, v) :: rest => max (ipldFuel v) (ipldFuelEntries rest)

end

/-! ## Codec façade -/

/-- `DagCborCodec::encode`: encode into a fresh cursor, returning the
underlying bytes (`into_inner`). -/
def dagCborEncode (v : Ipld) : Except String (List Nat) :=
  (encodeIpld v (ByteCursor.new [])).map ByteCursor.inner

/-- `DagCborCodec::decode::<Ipld>`: decode from a cursor at position 0.
The fuel `bs.length + 1` dominates the recursion depth of the Rust decoder
on every input the encoder produces (`ipldFuel_le_emit_length`). -/
def dagCborDecode (bs : List Nat) : Except String Ipld :=
  (decodeIpld (bs.length + 1) (ByteCursor.new bs)).map Prod.fst

/-- `DagCborCodec::skip`: advance the given cursor past one value. -/
def dagCborSkip (r : ByteCursor) : Except String ByteCursor :=
  skipOne (r.inner.length + 1) r

/-- `DagCborCodec::references::<Ipld, _>`: scan from position 0, extending
the sink. -/
def dagCborReferences (bs : List Nat) (set : List (List Nat)) :
    Except String (List (List Nat)) :=
  (refsOne (bs.length + 1) (ByteCursor.new bs) set).map Prod.fst

end SpIpld

namespace SpIpld

/-! ## Basic byte and cursor lemmas -/

theorem beBytes_length (k v : Nat) : (beBytes k v).length = k := by
  induction k generalizing v with
  | zero => rfl
  | succ k ih => simp [beBytes, ih]

theorem beVal_append (l : List Nat) (b : Nat) (a : Nat) :
    (l ++ [b]).foldl (fun a b => a * 256 + b) a =
      (l.foldl (fun a b => a * 256 + b) a) * 256 + b := by
  simp [List.foldl_append]

theorem beVal_beBytes (k v : Nat) (h : v < 2 ^ (8 * k)) :
    beVal (beBytes k v) = v := by
  induction k generalizing v with
  | zero =>
    simp [beBytes, beVal]
    omega
  | succ k ih =>
    have hv : v / 256 < 2 ^ (8 * k) := by
      have h2 : (2 : Nat) ^ (8 * (k + 1)) = 2 ^ (8 * k) * 256 := by ring
      omega
    have := ih (v / 256) hv
    simp only [beBytes, beVal, beVal_append] at *
    omega

theorem fillBuf_of_drop {I : List Nat} {p : Nat} {xs : List Nat}
    (h : I.drop p = xs) : (ByteCursor.mk I p).fillBuf = xs := by
  unfold ByteCursor.fillBuf
  simp only
  rcases le_or_lt p I.length with hp | hp
  · rwa [min_eq_left hp]
  · rw [List.drop_eq_nil_of_le (le_of_lt hp)] at h
    rw [min_eq_right (le_of_lt hp), List.drop_length, h]

theorem drop_append_of_drop {I xs t : List Nat} {p : Nat}
    (h : I.drop p = xs ++ t) : I.drop (p + xs.length) = t := by
  have h2 : (I.drop p).drop xs.length = t := by
    rw [h, List.drop_left]
  rw [List.drop_drop] at h2
  first
    | exact h2
    | rwa [Nat.add_comm xs.length p] at h2

theorem readExactE_of_drop {I xs t : List Nat} {p n : Nat}
    (hd : I.drop p = xs ++ t) (hn : xs.length = n) :
    readExactE ⟨I, p⟩ n = .ok (xs, ⟨I, p + n⟩) := by
  have hfill : (ByteCursor.mk I p).fillBuf = xs ++ t := fillBuf_of_drop hd
  unfold readExactE ByteCursor.readExact
  rw [hfill]
  have hlen : ¬ n > (xs ++ t).length := by
    simp [List.length_append]; omega
  rw [if_neg hlen]
  simp [← hn, List.take_left]

theorem readU8_of_drop {I t : List Nat} {p b : Nat}
    (h : I.drop p = b :: t) :
    readU8 ⟨I, p⟩ = .ok (b, ⟨I, p + 1⟩) := by
  have : readExactE ⟨I, p⟩ 1 = .ok ([b], ⟨I, p + 1⟩) :=
    readExactE_of_drop (show I.drop p = [b] ++ t by simpa using h) rfl
  simp [readU8, this, bind, Except.bind]

theorem readU16_of_drop {I t : List Nat} {p v : Nat}
    (h : I.drop p = beBytes 2 v ++ t) (hv : v < 2 ^ 16) :
    readU16 ⟨I, p⟩ = .ok (v, ⟨I, p + 2⟩) := by
  have := readExactE_of_drop h (beBytes_length 2 v)
  simp [readU16, this, bind, Except.bind, beVal_beBytes 2 v hv]

theorem readU32_of_drop {I t : List Nat} {p v : Nat}
    (h : I.drop p = beBytes 4 v ++ t) (hv : v < 2 ^ 32) :
    readU32 ⟨I, p⟩ = .ok (v, ⟨I, p + 4⟩) := by
  have := readExactE_of_drop h (beBytes_length 4 v)
  simp [readU32, this, bind, Except.bind, beVal_beBytes 4 v hv]

theorem readU64_of_drop {I t : List Nat} {p v : Nat}
    (h : I.drop p = beBytes 8 v ++ t) (hv : v < 2 ^ 64) :
    readU64 ⟨I, p⟩ = .ok (v, ⟨I, p + 8⟩) := by
  have := readExactE_of_drop h (beBytes_length 8 v)
  simp [readU64, this, bind, Except.bind, beVal_beBytes 8 v hv]

theorem seek_current_nonneg (c : ByteCursor) (k : Nat)
    (h : c.pos + k < 2 ^ 64) :
    c.seek (.current k) = .ok (c.pos + k, ⟨c.inner, c.pos + k⟩) := by
  simp only [ByteCursor.seek]
  rw [if_pos (by constructor <;> omega)]
  have h2 : ((c.pos : Int) + (k : Int)).toNat = c.pos + k := by omega
  rw [h2]

theorem seek_current_neg_one (c : ByteCursor) (hp : 1 ≤ c.pos)
    (h : c.pos < 2 ^ 64) :
    c.seek (.current (-1)) = .ok (c.pos - 1, ⟨c.inner, c.pos - 1⟩) := by
  simp only [ByteCursor.seek]
  rw [if_pos (by constructor <;> omega)]
  have h2 : ((c.pos : Int) + (-1)).toNat = c.pos - 1 := by omega
  rw [h2]

/-! ## Write-side lemmas -/

theorem write_ok {c : ByteCursor} {buf : List Nat} {n : Nat} {c' : ByteCursor}
    (h : c.write buf = .ok (n, c')) :
    n = buf.length ∧ c'.pos = c.pos + buf.length := by
  unfold ByteCursor.write at h
  by_cases hp : c.pos > usizeMax
  · rw [if_pos hp] at h; exact absurd h (by simp)
  · rw [if_neg hp] at h
    simp only [Except.ok.injEq, Prod.mk.injEq] at h
    obtain ⟨hn, hc⟩ := h
    subst hc
    exact ⟨hn.symm, rfl⟩

theorem write_at_end {c : ByteCursor} (buf : List Nat)
    (hpos : c.pos = c.inner.length) (hle : c.pos ≤ usizeMax) :
    c.write buf = .ok (buf.length, ⟨c.inner ++ buf, c.pos + buf.length⟩) := by
  have hgt : ¬ (c.pos > usizeMax) := by omega
  have hlt : ¬ (c.inner.length < c.pos) := by omega
  simp only [ByteCursor.write]
  rw [if_neg hgt, if_neg hlt]
  have h0 : c.inner.length - c.pos = 0 := by omega
  rw [h0]
  simp only [Nat.zero_min, List.take_zero, List.length_nil, List.drop_zero,
    List.nil_append, Nat.add_zero]
  rw [hpos, List.take_length, List.drop_length]
  simp

theorem writeAll_at_end {c : ByteCursor} (buf : List Nat)
    (hpos : c.pos = c.inner.length) (hle : c.pos ≤ usizeMax) :
    c.writeAll buf = .ok ⟨c.inner ++ buf, c.pos + buf.length⟩ := by
  unfold ByteCursor.writeAll
  by_cases hb : buf = []
  · subst hb
    rw [dif_pos rfl]
    simp only [List.append_nil, List.length_nil, Nat.add_zero]
  · rw [dif_neg hb, write_at_end buf hpos hle]
    have hm : ∃ m, buf.length = m + 1 := by
      cases buf with
      | nil => exact absurd rfl hb
      | cons a l => exact ⟨l.length, rfl⟩
    obtain ⟨m, hm⟩ := hm
    rw [hm]
    simp only
    rw [← hm, List.drop_length]
    unfold ByteCursor.writeAll
    rw [dif_pos rfl]

theorem writeAll_ok_at_end {c : ByteCursor} {buf : List Nat} {c' : ByteCursor}
    (hpos : c.pos = c.inner.length)
    (h : c.writeAll buf = .ok c') :
    c' = ⟨c.inner ++ buf, c.pos + buf.length⟩ := by
  by_cases hb : buf = []
  · subst hb
    unfold ByteCursor.writeAll at h
    rw [dif_pos rfl] at h
    cases h
    cases c
    simp_all
  · by_cases hle : c.pos ≤ usizeMax
    · rw [writeAll_at_end buf hpos hle] at h
      cases h; rfl
    · unfold ByteCursor.writeAll at h
      rw [dif_neg hb] at h
      unfold ByteCursor.write at h
      rw [if_pos (by omega)] at h
      exact absurd h (by simp)

end SpIpld

namespace SpIpld

theorem write_error {c : ByteCursor} {buf : List Nat} {e : String}
    (h : c.write buf = .error e) :
    e = "cursor position exceeds maximum possible vector length" := by
  unfold ByteCursor.write at h
  by_cases hp : c.pos > usizeMax
  · rw [if_pos hp] at h
    cases h
    rfl
  · rw [if_neg hp] at h
    exact absurd h (by simp)

/-- C10 (part): `read_exact` is atomic on failure — when fewer bytes remain
past the position than requested it fails with the short-read error and the
cursor (position and buffer) is returned unchanged; on success it returns
the requested bytes, the buffer is unchanged and the position advances by
exactly the request length. -/
theorem readExact_atomicity (c : ByteCursor) (n : Nat) :
    (n > c.fillBuf.length →
      c.readExact n = (.error "failed to fill whole buffer", c)) ∧
    (n ≤ c.fillBuf.length →
      c.readExact n = (.ok (c.fillBuf.take n), ⟨c.inner, c.pos + n⟩)) := by
  constructor
  · intro h
    unfold ByteCursor.readExact
    rw [if_pos h]
  · intro h
    unfold ByteCursor.readExact
    rw [if_neg (by first | omega)]

/-- Witness for `readExact_atomicity` at a concrete cursor: a 5-byte request
on 2 remaining bytes fails leaving the cursor untouched; a 2-byte request
succeeds advancing the position by 2. -/
theorem readExact_atomicity_witness :
    (ByteCursor.mk [1, 2] 0).readExact 5 =
      (.error "failed to fill whole buffer", ⟨[1, 2], 0⟩) ∧
    (ByteCursor.mk [1, 2] 0).readExact 2 = (.ok [1, 2], ⟨[1, 2], 2⟩) :=
  ⟨(readExact_atomicity ⟨[1, 2], 0⟩ 5).1 (by decide), by
    have h := (readExact_atomicity ⟨[1, 2], 0⟩ 2).2 (by decide)
    simpa using h⟩

/-- C8: whenever `ByteCursor::write` succeeds it returns exactly the length
of the buffer and advances the position by that length; consequently
`write_all` can never fail with the short-write error ("failed to write
whole buffer"), and for a non-empty buffer `write_all` is a single call to
`write`. -/
theorem write_writeAll_contract (c : ByteCursor) (buf : List Nat) :
    (∀ n c', c.write buf = .ok (n, c') →
      n = buf.length ∧ c'.pos = c.pos + buf.length) ∧
    (∀ e, c.writeAll buf = .error e → e ≠ "failed to write whole buffer") ∧
    (buf ≠ [] → c.writeAll buf =
      match c.write buf with
      | .ok (_, c') => .ok c'
      | .error e => .error e) := by
  have hsingle : buf ≠ [] → c.writeAll buf =
      match c.write buf with
      | .ok (_, c') => .ok c'
      | .error e => .error e := by
    intro hb
    unfold ByteCursor.writeAll
    rw [dif_neg hb]
    cases hw : c.write buf with
    | error e => simp
    | ok p =>
      obtain ⟨n, c'⟩ := p
      obtain ⟨hn, _⟩ := write_ok hw
      subst hn
      have hm : ∃ m, buf.length = m + 1 := by
        cases buf with
        | nil => exact absurd rfl hb
        | cons a l => exact ⟨l.length, rfl⟩
      obtain ⟨m, hm⟩ := hm
      rw [hm]
      simp only
      rw [← hm, List.drop_length]
      unfold ByteCursor.writeAll
      rw [dif_pos rfl]
  refine ⟨fun n c' h => write_ok h, ?_, hsingle⟩
  intro e he
  by_cases hb : buf = []
  · subst hb
    unfold ByteCursor.writeAll at he
    rw [dif_pos rfl] at he
    exact absurd he (by simp)
  · rw [hsingle hb] at he
    cases hw : c.write buf with
    | error e' =>
      rw [hw] at he
      simp only [Except.error.injEq] at he
      subst he
      rw [write_error hw]
      decide
    | ok p =>
      rw [hw] at he
      exact absurd he (by simp)

/-- Witness for `write_writeAll_contract` at a concrete cursor and buffer:
a two-byte write into the middle of a three-byte buffer extends it and
advances the position, and `write_all` performs it in one `write`. -/
theorem write_writeAll_contract_witness :
    ([7, 8] : List Nat) ≠ [] ∧
    (ByteCursor.mk [1, 2, 3] 2).writeAll [7, 8] =
      (match (ByteCursor.mk [1, 2, 3] 2).write [7, 8] with
       | .ok (_, c') => .ok c'
       | .error e => .error e) ∧
    (ByteCursor.mk [1, 2, 3] 2).write [7, 8] = .ok (2, ⟨[1, 2, 7, 8], 4⟩) :=
  ⟨by decide,
   (write_writeAll_contract ⟨[1, 2, 3], 2⟩ [7, 8]).2.2 (by decide),
   by rfl⟩

theorem writeU64_at_end {c : ByteCursor} (major value : Nat)
    (hpos : c.pos = c.inner.length) (hle : c.pos ≤ usizeMax) :
    writeU64 c major value =
      .ok ⟨c.inner ++ header64 major value,
           c.pos + (header64 major value).length⟩ := by
  unfold writeU64 writeU32 writeU16 writeU8 header64
  split_ifs <;>
    first
      | omega
      | rw [writeAll_at_end _ hpos hle]

end SpIpld

namespace SpIpld

/-- C7: for an `i128` value `i`, encoding `Integer(i)` succeeds if and only
if `-2^64 ≤ i ≤ 2^64 - 1`; outside that range it returns the
integer-out-of-range error (`"Number larger than i128."`), and no in-range
`Integer` makes encoding fail. -/
theorem integer_encode_range (i : Int)
    (h : -(2 : Int) ^ 127 ≤ i ∧ i < 2 ^ 127) :
    ((∃ bs, dagCborEncode (.integer i) = .ok bs) ↔
      (-(2 : Int) ^ 64 ≤ i ∧ i ≤ 2 ^ 64 - 1)) ∧
    (¬ (-(2 : Int) ^ 64 ≤ i ∧ i ≤ 2 ^ 64 - 1) →
      dagCborEncode (.integer i) = .error "Number larger than i128.") := by
  have hent : dagCborEncode (.integer i) =
      (encodeI128 i (ByteCursor.new [])).map ByteCursor.inner := by
    simp [dagCborEncode, encodeIpld]
  unfold encodeI128 at hent
  by_cases h1 : i < 0
  · rw [if_pos h1] at hent
    by_cases h2 : -(i + 1) > (2 : Int) ^ 64 - 1
    · rw [if_pos h2] at hent
      simp only [Except.map] at hent
      refine ⟨⟨fun ⟨bs, hbs⟩ => ?_, fun hr => by omega⟩, fun _ => hent⟩
      rw [hent] at hbs
      cases hbs
    · rw [if_neg h2] at hent
      rw [writeU64_at_end 1 (-(i + 1)).toNat rfl (by simp [ByteCursor.new, usizeMax])] at hent
      simp only [Except.map] at hent
      refine ⟨⟨fun _ => by omega, fun _ => ⟨_, hent⟩⟩, fun hr => by omega⟩
  · rw [if_neg h1] at hent
    by_cases h2 : i > (2 : Int) ^ 64 - 1
    · rw [if_pos h2] at hent
      simp only [Except.map] at hent
      refine ⟨⟨fun ⟨bs, hbs⟩ => ?_, fun hr => by omega⟩, fun _ => hent⟩
      rw [hent] at hbs
      cases hbs
    · rw [if_neg h2] at hent
      rw [writeU64_at_end 0 i.toNat rfl (by simp [ByteCursor.new, usizeMax])] at hent
      simp only [Except.map] at hent
      refine ⟨⟨fun _ => by omega, fun _ => ⟨_, hent⟩⟩, fun hr => by omega⟩

/-- Witness for `integer_encode_range`: `2^64` is rejected with the
integer-out-of-range error and `2^64 - 1` is accepted. -/
theorem integer_encode_range_witness :
    dagCborEncode (.integer (2 ^ 64)) = .error "Number larger than i128." ∧
    (∃ bs, dagCborEncode (.integer (2 ^ 64 - 1)) = .ok bs) :=
  ⟨(integer_encode_range (2 ^ 64) (by constructor <;> decide)).2 (by
      intro hr
      have := hr.2
      omega),
   (integer_encode_range (2 ^ 64 - 1) (by constructor <;> decide)).1.2
     (by constructor <;> decide)⟩

end SpIpld

namespace SpIpld

theorem bind_ok_iff {α β : Type} {x : Except String α} {f : α → Except String β}
    {b : β} : (x >>= f) = .ok b ↔ ∃ a, x = .ok a ∧ f a = .ok b := by
  cases x <;> simp [bind, Except.bind]

theorem writeU64_ok {c w : ByteCursor} {major value : Nat}
    (hpos : c.pos = c.inner.length)
    (h : writeU64 c major value = .ok w) :
    w = ⟨c.inner ++ header64 major value,
         c.pos + (header64 major value).length⟩ := by
  unfold writeU64 writeU32 writeU16 writeU8 at h
  unfold header64
  split_ifs at h ⊢ <;>
    first
      | omega
      | exact writeAll_ok_at_end hpos h

theorem encodeStr_ok {c w : ByteCursor} {s : List Nat}
    (hpos : c.pos = c.inner.length)
    (h : encodeStr s c = .ok w) :
    w = ⟨c.inner ++ emitStr s, c.pos + (emitStr s).length⟩ := by
  unfold encodeStr at h
  rw [bind_ok_iff] at h
  obtain ⟨w1, hw1, h2⟩ := h
  have e1 := writeU64_ok hpos hw1
  subst e1
  have e2 := writeAll_ok_at_end (by simp; omega) h2
  rw [e2]
  simp [emitStr]
  omega

theorem encodeBytesSlice_ok {c w : ByteCursor} {b : List Nat}
    (hpos : c.pos = c.inner.length)
    (h : encodeBytesSlice b c = .ok w) :
    w = ⟨c.inner ++ (header64 2 b.length ++ b),
         c.pos + (header64 2 b.length ++ b).length⟩ := by
  unfold encodeBytesSlice at h
  rw [bind_ok_iff] at h
  obtain ⟨w1, hw1, h2⟩ := h
  have e1 := writeU64_ok hpos hw1
  subst e1
  have e2 := writeAll_ok_at_end (by simp; omega) h2
  rw [e2]
  simp
  omega

theorem encodeI128_ok {c w : ByteCursor} {i : Int}
    (hpos : c.pos = c.inner.length)
    (h : encodeI128 i c = .ok w) :
    w = ⟨c.inner ++ emitInt i, c.pos + (emitInt i).length⟩ := by
  unfold encodeI128 at h
  unfold emitInt
  by_cases h1 : i < 0
  · rw [if_pos h1] at h ⊢
    by_cases h2 : -(i + 1) > (2 : Int) ^ 64 - 1
    · rw [if_pos h2] at h
      exact absurd h (by simp)
    · rw [if_neg h2] at h
      exact writeU64_ok hpos h
  · rw [if_neg h1] at h ⊢
    by_cases h2 : i > (2 : Int) ^ 64 - 1
    · rw [if_pos h2] at h
      exact absurd h (by simp)
    · rw [if_neg h2] at h
      exact writeU64_ok hpos h

theorem encodeF32_ok {c w : ByteCursor} {b : Nat}
    (hpos : c.pos = c.inner.length)
    (h : encodeF32 b c = .ok w) :
    w = ⟨c.inner ++ emitF32 b, c.pos + (emitF32 b).length⟩ := by
  unfold encodeF32 at h
  unfold emitF32
  split_ifs at h ⊢ <;> exact writeAll_ok_at_end hpos h

theorem encodeF64_ok {c w : ByteCursor} {b : Nat}
    (hpos : c.pos = c.inner.length)
    (h : encodeF64 b c = .ok w) :
    w = ⟨c.inner ++ emitF64 b, c.pos + (emitF64 b).length⟩ := by
  unfold encodeF64 at h
  unfold emitF64
  split_ifs at h ⊢
  · exact encodeF32_ok hpos h
  · exact writeAll_ok_at_end hpos h

theorem encodeCid_ok {c w : ByteCursor} {cid : List Nat}
    (hpos : c.pos = c.inner.length)
    (h : encodeCid cid c = .ok w) :
    w = ⟨c.inner ++ emitCid cid, c.pos + (emitCid cid).length⟩ := by
  unfold encodeCid writeTag at h
  rw [bind_ok_iff] at h
  obtain ⟨w1, hw1, h⟩ := h
  rw [bind_ok_iff] at h
  obtain ⟨w2, hw2, h⟩ := h
  rw [bind_ok_iff] at h
  obtain ⟨w3, hw3, h⟩ := h
  have e1 := writeU64_ok hpos hw1
  subst e1
  have e2 := writeU64_ok (by simp; omega) hw2
  subst e2
  have e3 := writeAll_ok_at_end (by simp; omega) hw3
  subst e3
  have e4 := writeAll_ok_at_end (by simp; omega) h
  rw [e4]
  simp [emitCid]
  omega

end SpIpld

namespace SpIpld

theorem encode_emit_all : ∀ n : Nat,
    (∀ v : Ipld, sizeOf v ≤ n → ∀ c c' : ByteCursor,
      c.pos = c.inner.length → encodeIpld v c = .ok c' →
      c' = ⟨c.inner ++ emit v, c.pos + (emit v).length⟩) ∧
    (∀ l : List Ipld, sizeOf l ≤ n → ∀ c c' : ByteCursor,
      c.pos = c.inner.length → encodeSeq l c = .ok c' →
      c' = ⟨c.inner ++ emitSeq l, c.pos + (emitSeq l).length⟩) ∧
    (∀ es : List (List Nat × Ipld), sizeOf es ≤ n → ∀ c c' : ByteCursor,
      c.pos = c.inner.length → encodeEntries es c = .ok c' →
      c' = ⟨c.inner ++ emitEntries es, c.pos + (emitEntries es).length⟩) := by
  intro n
  induction n with
  | zero =>
    refine ⟨fun v hv => ?_, fun l hl => ?_, fun es hes => ?_⟩
    · exact absurd hv (by cases v <;> simp)
    · exact absurd hl (by cases l <;> simp)
    · exact absurd hes (by cases es <;> simp)
  | succ n ih =>
    obtain ⟨ihV, ihL, ihE⟩ := ih
    refine ⟨fun v hv c c' hpos h => ?_, fun l hl c c' hpos h => ?_,
      fun es hes c c' hpos h => ?_⟩
    · cases v with
      | null =>
        unfold encodeIpld writeNull at h
        have e := writeAll_ok_at_end hpos h
        simpa [emit] using e
      | bool b =>
        unfold encodeIpld encodeBool at h
        have e := writeAll_ok_at_end hpos h
        cases b <;> simpa [emit] using e
      | integer i =>
        have e := encodeI128_ok hpos (by rw [← h]; unfold encodeIpld; rfl)
        simpa [emit] using e
      | float bits =>
        have e := encodeF64_ok hpos (by rw [← h]; unfold encodeIpld; rfl)
        simpa [emit] using e
      | string s =>
        have e := encodeStr_ok hpos (by rw [← h]; unfold encodeIpld; rfl)
        simpa [emit] using e
      | bytes b =>
        have e := encodeBytesSlice_ok hpos (by rw [← h]; unfold encodeIpld; rfl)
        simpa [emit] using e
      | link cid =>
        have e := encodeCid_ok hpos (by rw [← h]; unfold encodeIpld; rfl)
        simpa [emit] using e
      | list l =>
        unfold encodeIpld at h
        rw [bind_ok_iff] at h
        obtain ⟨w1, hw1, h2⟩ := h
        have e1 := writeU64_ok hpos hw1
        subst e1
        have hsz : sizeOf l ≤ n := by
          simp at hv
          omega
        have e2 := ihL l hsz _ c' (by simp; omega) h2
        rw [e2]
        simp only [emit, ByteCursor.mk.injEq]
        constructor
        · simp [List.append_assoc]
        · simp
          omega
      | map m =>
        unfold encodeIpld at h
        rw [bind_ok_iff] at h
        obtain ⟨w1, hw1, h2⟩ := h
        have e1 := writeU64_ok hpos hw1
        subst e1
        have hsz : sizeOf (sortEntries m) ≤ n := by
          have hperm := (List.perm_insertionSort keyLe m).sizeOf_eq_sizeOf
          simp at hv
          simp only [sortEntries]
          omega
        have e2 := ihE (sortEntries m) hsz _ c' (by simp; omega) h2
        rw [e2]
        simp only [emit, ByteCursor.mk.injEq]
        constructor
        · simp [List.append_assoc]
        · simp
          omega
    · cases l with
      | nil =>
        unfold encodeSeq at h
        cases h
        simp [emitSeq]
      | cons x xs =>
        unfold encodeSeq at h
        rw [bind_ok_iff] at h
        obtain ⟨w1, hw1, h2⟩ := h
        have hx : sizeOf x ≤ n := by simp at hl; omega
        have hxs : sizeOf xs ≤ n := by simp at hl; omega
        have e1 := ihV x hx c w1 hpos hw1
        subst e1
        have e2 := ihL xs hxs _ c' (by simp; omega) h2
        rw [e2]
        simp only [emitSeq, ByteCursor.mk.injEq]
        constructor
        · simp [List.append_assoc]
        · simp
          omega
    · cases es with
      | nil =>
        unfold encodeEntries at h
        cases h
        simp [emitEntries]
      | cons kv rest =>
        obtain ⟨k, v⟩ := kv
        unfold encodeEntries at h
        rw [bind_ok_iff] at h
        obtain ⟨w1, hw1, h⟩ := h
        rw [bind_ok_iff] at h
        obtain ⟨w2, hw2, h2⟩ := h
        have e1 := encodeStr_ok hpos hw1
        subst e1
        have hv' : sizeOf v ≤ n := by simp at hes; omega
        have hrest : sizeOf rest ≤ n := by simp at hes; omega
        have e2 := ihV v hv' _ w2 (by simp; omega) hw2
        subst e2
        have e3 := ihE rest hrest _ c' (by simp; omega) h2
        rw [e3]
        simp only [emitEntries, ByteCursor.mk.injEq]
        constructor
        · simp [List.append_assoc]
        · simp
          omega

/-- The encoder's effect: a successful `encodeIpld` at an end-positioned
cursor appends exactly `emit v`. -/
theorem encodeIpld_ok {v : Ipld} {c c' : ByteCursor}
    (hpos : c.pos = c.inner.length) (h : encodeIpld v c = .ok c') :
    c' = ⟨c.inner ++ emit v, c.pos + (emit v).length⟩ :=
  (encode_emit_all (sizeOf v)).1 v le_rfl c c' hpos h

/-- A successful façade encode of `v` produces exactly `emit v`. -/
theorem dagCborEncode_ok {v : Ipld} {bs : List Nat}
    (h : dagCborEncode v = .ok bs) : bs = emit v := by
  unfold dagCborEncode at h
  cases he : encodeIpld v (ByteCursor.new []) with
  | error e => rw [he] at h; exact absurd h (by simp [Except.map])
  | ok c' =>
    rw [he] at h
    simp only [Except.map, Except.ok.injEq] at h
    have e := encodeIpld_ok (c := ByteCursor.new []) rfl he
    subst e
    simp [ByteCursor.new] at h
    first
      | exact h
      | exact h.symm

end SpIpld

namespace SpIpld

theorem header64_length_le (major value : Nat) :
    (header64 major value).length ≤ 9 := by
  unfold header64
  split_ifs <;> simp [beBytes_length]

theorem encodeStr_fresh (k : List Nat) :
    encodeStr k (ByteCursor.new []) =
      .ok ⟨emitStr k, (emitStr k).length⟩ := by
  unfold encodeStr
  rw [writeU64_at_end 3 k.length rfl (by simp [ByteCursor.new, usizeMax])]
  simp only [bind, Except.bind, ByteCursor.new, List.nil_append, Nat.zero_add]
  rw [writeAll_at_end k (by simp) (by
    simp [usizeMax]
    have := header64_length_le 3 k.length
    omega)]
  simp [emitStr]

theorem keyEncBytes_eq (k : List Nat) : keyEncBytes k = emitStr k := by
  unfold keyEncBytes
  rw [encodeStr_fresh]

theorem bytesLe_total (a b : List Nat) :
    bytesLe a b = true ∨ bytesLe b a = true := by
  induction a generalizing b with
  | nil => left; rfl
  | cons x xs ih =>
    cases b with
    | nil => right; rfl
    | cons y ys =>
      rcases Nat.lt_trichotomy x y with h | h | h
      · left; simp [bytesLe]; omega
      · subst h
        rcases ih ys with h2 | h2
        · left; simp [bytesLe, h2]
        · right; simp [bytesLe, h2]
      · right; simp [bytesLe]; omega

theorem bytesLe_trans {a b c : List Nat} (h1 : bytesLe a b = true)
    (h2 : bytesLe b c = true) : bytesLe a c = true := by
  induction a generalizing b c with
  | nil => rfl
  | cons x xs ih =>
    cases b with
    | nil => exact absurd h1 (by simp [bytesLe])
    | cons y ys =>
      cases c with
      | nil => exact absurd h2 (by simp [bytesLe])
      | cons z zs =>
        simp only [bytesLe, Bool.or_eq_true, Bool.and_eq_true,
          decide_eq_true_eq] at h1 h2 ⊢
        rcases h1 with h1 | ⟨h1e, h1r⟩
        · rcases h2 with h2 | ⟨h2e, h2r⟩
          · left; omega
          · left; omega
        · rcases h2 with h2 | ⟨h2e, h2r⟩
          · left; omega
          · right
            exact ⟨by omega, ih h1r h2r⟩

instance : IsTotal (List Nat × Ipld) keyLe :=
  ⟨fun a b => by
    unfold keyLe
    exact bytesLe_total _ _⟩

instance : IsTrans (List Nat × Ipld) keyLe :=
  ⟨fun a b c h1 h2 => by
    unfold keyLe at *
    exact bytesLe_trans h1 h2⟩

/-- C6: a successful encoding of a `StringMap` is the definite-length map
header followed by the entries in the byte-lexicographic order of each
key's own CBOR encoding — a permutation of the in-memory entries, not
necessarily in the in-memory key order. -/
theorem map_encode_canonical (m : List (List Nat × Ipld)) (bs : List Nat)
    (h : dagCborEncode (.map m) = .ok bs) :
    bs = header64 5 m.length ++ emitEntries (sortEntries m) ∧
    (sortEntries m).Perm m ∧
    List.Sorted (fun a b => bytesLe (keyEncBytes a.1) (keyEncBytes b.1) = true)
      (sortEntries m) ∧
    ∃ ai, ai ≤ 27 ∧ bs.headI = 0xa0 + ai := by
  have hb := dagCborEncode_ok h
  have hm : emit (.map m) = header64 5 m.length ++ emitEntries (sortEntries m) := by
    simp only [emit]
  refine ⟨by rw [hb, hm], List.perm_insertionSort keyLe m,
    List.sorted_insertionSort keyLe m, ?_⟩
  rw [hb, hm]
  unfold header64
  split_ifs with h1 h2 h3 h4
  · exact ⟨m.length, by omega, by simp⟩
  · exact ⟨24, by omega, by simp⟩
  · exact ⟨25, by omega, by simp⟩
  · exact ⟨26, by omega, by simp⟩
  · exact ⟨27, by omega, by simp⟩

/-- Witness for `map_encode_canonical`: the two-entry map with keys `"aa"`
and `"b"` — in-memory order puts `"aa"` first, the canonical wire order
puts the shorter encoding `"b"` first. -/
theorem map_encode_canonical_witness :
    dagCborEncode (.map [([0x61, 0x61], .integer 1), ([0x62], .integer 2)]) =
      .ok [0xa2, 0x61, 0x62, 0x02, 0x62, 0x61, 0x61, 0x01] ∧
    (sortEntries [([0x61, 0x61], .integer 1), ([0x62], .integer 2)]).Perm
      [([0x61, 0x61], .integer 1), ([0x62], .integer 2)] ∧
    [0xa2, 0x61, 0x62, 0x02, 0x62, 0x61, 0x61, 0x01] =
      header64 5 2 ++ emitEntries
        (sortEntries [([0x61, 0x61], .integer 1), ([0x62], .integer 2)]) := by
  have h : dagCborEncode (.map [([0x61, 0x61], .integer 1), ([0x62], .integer 2)]) =
      .ok [0xa2, 0x61, 0x62, 0x02, 0x62, 0x61, 0x61, 0x01] := by
    simp [dagCborEncode, encodeIpld, encodeSeq, encodeEntries, encodeI128, encodeStr,
      sortEntries, List.insertionSort, List.orderedInsert, keyLe, keyEncBytes,
      writeU64, writeU32, writeU16, writeU8, bytesLe,
      ByteCursor.writeAll, ByteCursor.write, ByteCursor.new, usizeMax,
      Except.map, bind, Except.bind]
  have e := map_encode_canonical _ _ h
  exact ⟨h, e.2.1, e.1⟩

end SpIpld

namespace SpIpld

/-! ## Float bit-pattern lemmas -/

theorem roundHalfEven_le {num d X : Nat} (h : num ≤ X * 2 ^ d) :
    roundHalfEven num d ≤ X := by
  unfold roundHalfEven
  dsimp only
  have hden : 0 < 2 ^ d := Nat.pos_pow_of_pos d (by omega)
  have hdm : 2 ^ d * (num / 2 ^ d) + num % 2 ^ d = num := Nat.div_add_mod num (2 ^ d)
  have hr : num % 2 ^ d < 2 ^ d := Nat.mod_lt num hden
  have hq : num / 2 ^ d ≤ X := by
    calc num / 2 ^ d ≤ X * 2 ^ d / 2 ^ d := Nat.div_le_div_right h
    _ = X := Nat.mul_div_cancel X hden
  have hup : ¬ (2 * (num % 2 ^ d) < 2 ^ d) → num / 2 ^ d + 1 ≤ X := by
    intro h1
    rcases Nat.lt_or_ge (num / 2 ^ d) X with hlt | hge
    · omega
    · have he : num / 2 ^ d = X := by omega
      rw [he] at hdm
      have h2 : 2 ^ d * X = X * 2 ^ d := Nat.mul_comm _ _
      omega
  split_ifs with h1 h2 h3 <;> first | exact hq | exact hup (by omega)

theorem roundHalfEven_ge {num d X : Nat} (h : X * 2 ^ d ≤ num) :
    X ≤ roundHalfEven num d := by
  unfold roundHalfEven
  dsimp only
  have hden : 0 < 2 ^ d := Nat.pos_pow_of_pos d (by omega)
  have hq : X ≤ num / 2 ^ d := by
    calc X = X * 2 ^ d / 2 ^ d := (Nat.mul_div_cancel X hden).symm
    _ ≤ num / 2 ^ d := Nat.div_le_div_right h
  split_ifs <;> omega

theorem rheScaled_le {M : Nat} {sh : Int} {X : Nat}
    (h : ∀ dn : Nat, sh = -(dn : Int) → M ≤ X * 2 ^ dn)
    (h2 : ∀ sn : Nat, sh = (sn : Int) → M * 2 ^ sn ≤ X) :
    rheScaled M sh ≤ X := by
  unfold rheScaled
  split_ifs with hs
  · have := h2 sh.toNat (by omega)
    omega
  · exact roundHalfEven_le (h (-sh).toNat (by omega))

theorem rheScaled_ge {M : Nat} {sh : Int} {X : Nat}
    (h : ∀ dn : Nat, sh = -(dn : Int) → X * 2 ^ dn ≤ M)
    (h2 : ∀ sn : Nat, sh = (sn : Int) → X ≤ M * 2 ^ sn) :
    X ≤ rheScaled M sh := by
  unfold rheScaled
  split_ifs with hs
  · have := h2 sh.toNat (by omega)
    omega
  · exact roundHalfEven_ge (h (-sh).toNat (by omega))

theorem narrowMag_bounds (M : Nat) (E : Int) (hM : M ≠ 0) :
    (narrowMag M E).1 ≤ 255 ∧ (narrowMag M E).2 < 2 ^ 23 := by
  unfold narrowMag
  have hlog_le : 2 ^ Nat.log2 M ≤ M := Nat.log2_self_le hM
  have hlog_lt : M < 2 ^ (Nat.log2 M + 1) := Nat.lt_log2_self
  by_cases hk : (Nat.log2 M : Int) + E ≤ -127
  · rw [if_pos hk]
    dsimp only
    have hn : rheScaled M (E + 149) ≤ 2 ^ 23 := by
      apply rheScaled_le
      · intro dn hdn
        refine le_of_lt ?_
        calc M < 2 ^ (Nat.log2 M + 1) := hlog_lt
        _ ≤ 2 ^ (23 + dn) := Nat.pow_le_pow_right (by omega) (by omega)
        _ = 2 ^ 23 * 2 ^ dn := by rw [Nat.pow_add]
      · intro sn hsn
        refine le_of_lt ?_
        calc M * 2 ^ sn < 2 ^ (Nat.log2 M + 1) * 2 ^ sn :=
              mul_lt_mul_of_pos_right hlog_lt (Nat.pos_pow_of_pos sn (by omega))
        _ = 2 ^ (Nat.log2 M + 1 + sn) := by rw [← Nat.pow_add]
        _ ≤ 2 ^ 23 := Nat.pow_le_pow_right (by omega) (by omega)
    split_ifs with h1
    · exact ⟨by omega, h1⟩
    · constructor
      · omega
      · have h23 : (0 : Nat) < 2 ^ 23 := by positivity
        omega
  · rw [if_neg hk]
    dsimp only
    have hsh : E - ((Nat.log2 M : Int) + E - 23) = 23 - (Nat.log2 M : Int) := by
      ring
    rw [hsh]
    have hlo : 2 ^ 23 ≤ rheScaled M (23 - (Nat.log2 M : Int)) := by
      apply rheScaled_ge
      · intro dn hdn
        have he : Nat.log2 M = 23 + dn := by omega
        calc 2 ^ 23 * 2 ^ dn = 2 ^ (23 + dn) := by rw [Nat.pow_add]
        _ = 2 ^ Nat.log2 M := by rw [he]
        _ ≤ M := hlog_le
      · intro sn hsn
        have he : Nat.log2 M + sn = 23 := by omega
        calc (2 : Nat) ^ 23 = 2 ^ (Nat.log2 M + sn) := by rw [he]
        _ = 2 ^ Nat.log2 M * 2 ^ sn := by rw [Nat.pow_add]
        _ ≤ M * 2 ^ sn := Nat.mul_le_mul_right (2 ^ sn) hlog_le
    have hhi : rheScaled M (23 - (Nat.log2 M : Int)) ≤ 2 ^ 24 := by
      apply rheScaled_le
      · intro dn hdn
        refine le_of_lt ?_
        calc M < 2 ^ (Nat.log2 M + 1) := hlog_lt
        _ ≤ 2 ^ (24 + dn) := Nat.pow_le_pow_right (by omega) (by omega)
        _ = 2 ^ 24 * 2 ^ dn := by rw [Nat.pow_add]
      · intro sn hsn
        have h4 : M ≤ 2 ^ (Nat.log2 M + 1) - 1 := by omega
        have h5 : Nat.log2 M + 1 + sn = 24 := by omega
        have h6 : (1 : Nat) ≤ 2 ^ sn := Nat.one_le_two_pow
        calc M * 2 ^ sn ≤ (2 ^ (Nat.log2 M + 1) - 1) * 2 ^ sn :=
              Nat.mul_le_mul_right (2 ^ sn) h4
        _ = 2 ^ (Nat.log2 M + 1) * 2 ^ sn - 2 ^ sn := by
              rw [Nat.sub_mul, Nat.one_mul]
        _ = 2 ^ 24 - 2 ^ sn := by rw [← Nat.pow_add, h5]
        _ ≤ 2 ^ 24 := by omega
    split_ifs with h1 h2 h3
    · exact ⟨by omega, by positivity⟩
    · constructor
      · omega
      · have h23 : (2 : Nat) ^ 24 = 2 ^ 23 * 2 := by norm_num
        omega
    · exact ⟨by omega, by positivity⟩
    · constructor
      · omega
      · have h24 : (2 : Nat) ^ 24 = 2 ^ 23 * 2 := by norm_num
        omega

end SpIpld

namespace SpIpld

theorem sign64_le (b : Nat) : sign64 b ≤ 1 := by
  unfold sign64; omega

theorem expf64_lt (b : Nat) : expf64 b < 2 ^ 11 := by
  unfold expf64; omega

theorem mant64_lt (b : Nat) : mant64 b < 2 ^ 52 := by
  unfold mant64; omega

theorem sign32_le (b : Nat) : sign32 b ≤ 1 := by
  unfold sign32; omega

theorem expf32_lt (b : Nat) : expf32 b < 2 ^ 8 := by
  unfold expf32; omega

theorem mant32_lt (b : Nat) : mant32 b < 2 ^ 23 := by
  unfold mant32; omega

theorem f64_recompose {b : Nat} (hb : b < 2 ^ 64) :
    b = sign64 b * 2 ^ 63 + expf64 b * 2 ^ 52 + mant64 b := by
  unfold sign64 expf64 mant64; omega

theorem fields64_extract {s e m : Nat} (hs : s ≤ 1) (he : e < 2 ^ 11)
    (hm : m < 2 ^ 52) :
    sign64 (s * 2 ^ 63 + e * 2 ^ 52 + m) = s ∧
    expf64 (s * 2 ^ 63 + e * 2 ^ 52 + m) = e ∧
    mant64 (s * 2 ^ 63 + e * 2 ^ 52 + m) = m := by
  unfold sign64 expf64 mant64
  refine ⟨?_, ?_, ?_⟩ <;> omega

theorem fields32_extract {s e m : Nat} (hs : s ≤ 1) (he : e < 2 ^ 8)
    (hm : m < 2 ^ 23) :
    sign32 (s * 2 ^ 31 + e * 2 ^ 23 + m) = s ∧
    expf32 (s * 2 ^ 31 + e * 2 ^ 23 + m) = e ∧
    mant32 (s * 2 ^ 31 + e * 2 ^ 23 + m) = m := by
  unfold sign32 expf32 mant32
  refine ⟨?_, ?_, ?_⟩ <;> omega

theorem f64_unique {w b : Nat} (hw : w < 2 ^ 64) (hb : b < 2 ^ 64)
    (hfw : expf64 w ≠ 0x7ff) (hfb : expf64 b ≠ 0x7ff)
    (hs : sign64 w = sign64 b) (hm : magEq64 w b = true) : w = b := by
  have hrw := f64_recompose hw
  have hrb := f64_recompose hb
  have hmw := mant64_lt w
  have hmb := mant64_lt b
  simp only [magEq64, decide_eq_true_eq] at hm
  by_cases hew : expf64 w = 0 <;> by_cases heb : expf64 b = 0
  · -- both subnormal
    rw [show sig64 w = mant64 w from by simp [sig64, hew],
        show sig64 b = mant64 b from by simp [sig64, heb],
        show exp64 w = -1074 from by simp [exp64, hew],
        show exp64 b = -1074 from by simp [exp64, heb]] at hm
    norm_num at hm
    omega
  · -- w subnormal, b normal: impossible
    rw [show sig64 w = mant64 w from by simp [sig64, hew],
        show sig64 b = 2 ^ 52 + mant64 b from by simp [sig64, heb],
        show exp64 w = -1074 from by simp [exp64, hew],
        show exp64 b = (expf64 b : Int) - 1075 from by simp [exp64, heb]] at hm
    exfalso
    have hb1 : 1 ≤ expf64 b := by omega
    by_cases hd : (0 : Int) ≤ -1074 - ((expf64 b : Int) - 1075)
    · rw [if_pos hd] at hm
      simp only [decide_eq_true_eq] at hm
      have hd0 : ((-1074 : Int) - ((expf64 b : Int) - 1075)).toNat = 0 := by
        omega
      rw [hd0] at hm
      norm_num at hm
      omega
    · rw [if_neg hd] at hm
      simp only [decide_eq_true_eq] at hm
      set dn := (-((-1074 : Int) - ((expf64 b : Int) - 1075))).toNat with hdn
      have h1 : 1 ≤ dn := by omega
      have h2 : (2 : Nat) ^ 1 ≤ 2 ^ dn := Nat.pow_le_pow_right (by omega) h1
      have h3 : (2 ^ 52 + mant64 b) * 2 ^ 1 ≤ (2 ^ 52 + mant64 b) * 2 ^ dn :=
        Nat.mul_le_mul_left _ h2
      omega
  · -- w normal, b subnormal: impossible
    rw [show sig64 w = 2 ^ 52 + mant64 w from by simp [sig64, hew],
        show sig64 b = mant64 b from by simp [sig64, heb],
        show exp64 w = (expf64 w : Int) - 1075 from by simp [exp64, hew],
        show exp64 b = -1074 from by simp [exp64, heb]] at hm
    exfalso
    have hw1 : 1 ≤ expf64 w := by omega
    have hd : (0 : Int) ≤ ((expf64 w : Int) - 1075) - (-1074) := by omega
    rw [if_pos hd] at hm
    simp only [decide_eq_true_eq] at hm
    have h2 : (1 : Nat) ≤ 2 ^ (((expf64 w : Int) - 1075) - (-1074)).toNat :=
      Nat.one_le_two_pow
    have h3 : (2 ^ 52 + mant64 w) * 1 ≤ (2 ^ 52 + mant64 w) *
        2 ^ (((expf64 w : Int) - 1075) - (-1074)).toNat :=
      Nat.mul_le_mul_left _ h2
    omega
  · -- both normal
    rw [show sig64 w = 2 ^ 52 + mant64 w from by simp [sig64, hew],
        show sig64 b = 2 ^ 52 + mant64 b from by simp [sig64, heb],
        show exp64 w = (expf64 w : Int) - 1075 from by simp [exp64, hew],
        show exp64 b = (expf64 b : Int) - 1075 from by simp [exp64, heb]] at hm
    by_cases hd : (0 : Int) ≤ ((expf64 w : Int) - 1075) - ((expf64 b : Int) - 1075)
    · rw [if_pos hd] at hm
      simp only [decide_eq_true_eq] at hm
      set dn := (((expf64 w : Int) - 1075) - ((expf64 b : Int) - 1075)).toNat
        with hdn
      rcases Nat.eq_zero_or_pos dn with h0 | h1
      · rw [h0] at hm
        norm_num at hm
        have he : expf64 w = expf64 b := by omega
        omega
      · exfalso
        have h2 : (2 : Nat) ^ 1 ≤ 2 ^ dn := Nat.pow_le_pow_right (by omega) h1
        have h3 : (2 ^ 52 + mant64 w) * 2 ^ 1 ≤ (2 ^ 52 + mant64 w) * 2 ^ dn :=
          Nat.mul_le_mul_left _ h2
        omega
    · rw [if_neg hd] at hm
      simp only [decide_eq_true_eq] at hm
      exfalso
      set dn := (-(((expf64 w : Int) - 1075) - ((expf64 b : Int) - 1075))).toNat
        with hdn
      have h1 : 1 ≤ dn := by omega
      have h2 : (2 : Nat) ^ 1 ≤ 2 ^ dn := Nat.pow_le_pow_right (by omega) h1
      have h3 : (2 ^ 52 + mant64 b) * 2 ^ 1 ≤ (2 ^ 52 + mant64 b) * 2 ^ dn :=
        Nat.mul_le_mul_left _ h2
      omega

end SpIpld

namespace SpIpld

theorem widen_fields (x : Nat) :
    widen x < 2 ^ 64 ∧ sign64 (widen x) = sign32 x ∧
    (expf32 x = 0xff →
      expf64 (widen x) = 0x7ff ∧ mant64 (widen x) = mant32 x * 2 ^ 29) ∧
    (expf32 x ≠ 0xff → expf64 (widen x) ≠ 0x7ff) := by
  have hs := sign32_le x
  have he := expf32_lt x
  have hm := mant32_lt x
  unfold widen
  dsimp only
  by_cases h1 : expf32 x = 0xff
  · rw [if_pos h1]
    have hm29 : mant32 x * 2 ^ 29 < 2 ^ 52 := by
      have : mant32 x * 2 ^ 29 < 2 ^ 23 * 2 ^ 29 :=
        mul_lt_mul_of_pos_right hm (by positivity)
      calc mant32 x * 2 ^ 29 < 2 ^ 23 * 2 ^ 29 := this
      _ = 2 ^ 52 := by norm_num
    obtain ⟨e1, e2, e3⟩ :=
      fields64_extract (s := sign32 x) (e := 0x7ff) (m := mant32 x * 2 ^ 29)
        hs (by norm_num) hm29
    refine ⟨by omega, e1, fun _ => ⟨e2, e3⟩, fun hc => absurd h1 hc⟩
  · rw [if_neg h1]
    by_cases h2 : expf32 x = 0
    · rw [if_pos h2]
      by_cases h3 : mant32 x = 0
      · rw [if_pos h3]
        obtain ⟨e1, e2, e3⟩ :=
          fields64_extract (s := sign32 x) (e := 0) (m := 0)
            hs (by norm_num) (by norm_num)
        simp only [Nat.zero_mul, Nat.add_zero] at e1 e2 e3
        exact ⟨by omega, e1, fun hc => absurd hc h1, fun _ => by omega⟩
      · rw [if_neg h3]
        set L := Nat.log2 (mant32 x) with hL
        have hL22 : L ≤ 22 := by
          have : Nat.log2 (mant32 x) < 23 := by
            rw [Nat.log2_lt h3]
            exact hm
          omega
        have hself : 2 ^ L ≤ mant32 x := Nat.log2_self_le h3
        have hlt : mant32 x < 2 ^ (L + 1) := Nat.lt_log2_self
        have hmant : (mant32 x - 2 ^ L) * 2 ^ (52 - L) < 2 ^ 52 := by
          have hdiff : mant32 x - 2 ^ L < 2 ^ L := by
            have : (2 : Nat) ^ (L + 1) = 2 ^ L * 2 := by rw [Nat.pow_add]
            omega
          calc (mant32 x - 2 ^ L) * 2 ^ (52 - L) < 2 ^ L * 2 ^ (52 - L) :=
                mul_lt_mul_of_pos_right hdiff (by positivity)
          _ = 2 ^ (L + (52 - L)) := by rw [← Nat.pow_add]
          _ = 2 ^ 52 := by congr 1; omega
        obtain ⟨e1, e2, e3⟩ :=
          fields64_extract (s := sign32 x) (e := L + 874)
            (m := (mant32 x - 2 ^ L) * 2 ^ (52 - L)) hs (by omega) hmant
        exact ⟨by omega, e1, fun hc => absurd hc h1, fun _ => by omega⟩
    · rw [if_neg h2]
      have hm29 : mant32 x * 2 ^ 29 < 2 ^ 52 := by
        calc mant32 x * 2 ^ 29 < 2 ^ 23 * 2 ^ 29 :=
              mul_lt_mul_of_pos_right hm (by positivity)
        _ = 2 ^ 52 := by norm_num
      obtain ⟨e1, e2, e3⟩ :=
        fields64_extract (s := sign32 x) (e := expf32 x + 896)
          (m := mant32 x * 2 ^ 29) hs (by omega) hm29
      exact ⟨by omega, e1, fun hc => absurd hc h1, fun _ => by omega⟩

theorem narrow_decomp (b : Nat) (hfin : isFinite64 b = true) :
    (sig64 b = 0 ∧ narrow b = sign64 b * 2 ^ 31) ∨
    (sig64 b ≠ 0 ∧ ∃ ef mf, narrow b = sign64 b * 2 ^ 31 + ef * 2 ^ 23 + mf ∧
      ef ≤ 255 ∧ mf < 2 ^ 23) := by
  have hnan : isNan64 b = false := by
    simp only [isFinite64, decide_eq_true_eq] at hfin
    simp [isNan64, hfin]
  have hinf : isInf64 b = false := by
    simp only [isFinite64, decide_eq_true_eq] at hfin
    simp [isInf64, hfin]
  unfold narrow
  rw [hnan, hinf]
  simp only [Bool.false_eq_true, if_false]
  by_cases h0 : sig64 b = 0
  · rw [if_pos h0]
    exact Or.inl ⟨h0, rfl⟩
  · rw [if_neg h0]
    obtain ⟨b1, b2⟩ := narrowMag_bounds (sig64 b) (exp64 b) h0
    exact Or.inr ⟨h0, _, _, rfl, b1, b2⟩

theorem narrow_fields (b : Nat) (hfin : isFinite64 b = true) :
    narrow b < 2 ^ 32 ∧ sign32 (narrow b) = sign64 b := by
  have hs := sign64_le b
  rcases narrow_decomp b hfin with ⟨h0, he⟩ | ⟨h0, ef, mf, he, hef, hmf⟩
  · rw [he]
    obtain ⟨e1, _, _⟩ := fields32_extract (s := sign64 b) (e := 0) (m := 0)
      hs (by norm_num) (by norm_num)
    simp only [Nat.zero_mul, Nat.add_zero] at e1
    exact ⟨by omega, e1⟩
  · rw [he]
    obtain ⟨e1, _, _⟩ := fields32_extract (s := sign64 b) (e := ef) (m := mf)
      hs (by omega) hmf
    exact ⟨by omega, e1⟩

theorem floatEq64_refl {b : Nat} (h : isNan64 b = false) :
    floatEq64 b b = true := by
  unfold floatEq64
  rw [h]
  simp only [Bool.false_eq_true, false_or, or_self, if_false]
  by_cases hi : isInf64 b = true
  · rw [if_pos (by simp [hi])]
    simp [hi]
  · rw [if_neg (by simpa using hi)]
    simp only [magEq64, sub_self, le_refl, if_pos, Int.toNat_zero, pow_zero,
      Nat.mul_one]
    simp

theorem widen_zero {s : Nat} (hs : s ≤ 1) : widen (s * 2 ^ 31) = s * 2 ^ 63 := by
  obtain ⟨x1, x2, x3⟩ := fields32_extract (s := s) (e := 0) (m := 0) hs
    (by norm_num) (by norm_num)
  simp only [Nat.zero_mul, Nat.add_zero] at x1 x2 x3
  norm_num at x1 x2 x3
  simp [widen, x1, x2, x3]

/-- On the encoder's lossless-cast branch the decoded pattern
`widen (narrow b)` is bitwise the original: the cast guard
`f64::from(b as f32) == b` forces bit equality for finite `b`. -/
theorem widen_narrow_eq {b : Nat} (hb : b < 2 ^ 64)
    (hfin : isFinite64 b = true)
    (heq : floatEq64 (widen (narrow b)) b = true) : widen (narrow b) = b := by
  have hfb : expf64 b ≠ 0x7ff := by
    simpa [isFinite64, decide_eq_true_eq] using hfin
  have hnf := narrow_fields b hfin
  have hwf := widen_fields (narrow b)
  obtain ⟨hwlt, hwsign, _, hwfin⟩ := hwf
  rcases narrow_decomp b hfin with ⟨h0, he⟩ | ⟨h0, ef, mf, he, hef, hmf⟩
  · -- b is a signed zero: the cast and widening preserve it bitwise
    obtain ⟨he0, hm0⟩ : expf64 b = 0 ∧ mant64 b = 0 := by
      by_cases hexp : expf64 b = 0
      · refine ⟨hexp, ?_⟩
        simpa [sig64, hexp] using h0
      · exact absurd h0 (by simp [sig64, hexp])
    have hrec := f64_recompose hb
    rw [he0, hm0] at hrec
    simp only [Nat.zero_mul, Nat.add_zero] at hrec
    rw [he, widen_zero (sign64_le b)]
    omega
  · -- nonzero finite value: IEEE equality forces bit equality
    unfold floatEq64 at heq
    by_cases hnw : isNan64 (widen (narrow b)) = true
    · rw [if_pos (by simp [hnw])] at heq
      exact absurd heq (by simp)
    · have hnb : ¬ isNan64 b = true := by
        simp [isNan64, hfb]
      rw [if_neg (by simp_all)] at heq
      by_cases hiw : isInf64 (widen (narrow b)) = true
      · rw [if_pos (by simp [hiw])] at heq
        have hib : isInf64 b = false := by simp [isInf64, hfb]
        rw [hib] at heq
        simp at heq
      · have hib : isInf64 b = false := by simp [isInf64, hfb]
        rw [if_neg (by simp_all)] at heq
        simp only [Bool.and_eq_true, Bool.or_eq_true, decide_eq_true_eq] at heq
        obtain ⟨hmag, hsgn⟩ := heq
        have hsign : sign64 (widen (narrow b)) = sign64 b := by
          rw [hwsign, hnf.2]
        have hwfin2 : expf64 (widen (narrow b)) ≠ 0x7ff := by
          by_cases hc : expf32 (narrow b) = 0xff
          · exfalso
            obtain ⟨c1, c2⟩ := (widen_fields (narrow b)).2.2.1 hc
            by_cases hm0 : mant32 (narrow b) = 0
            · exact hiw (by simp [isInf64, c1, c2, hm0])
            · exact hnw (by
                simp only [isNan64, c1, c2]
                simp [hm0])
          · exact hwfin hc
        exact f64_unique hwlt hb hwfin2 hfb hsign hmag

end SpIpld

namespace SpIpld

theorem narrow_inf {b : Nat} (h : isInf64 b = true) :
    narrow b = sign64 b * 2 ^ 31 + 0xff * 2 ^ 23 := by
  have h' : expf64 b = 0x7ff ∧ mant64 b = 0 := by
    simpa [isInf64] using h
  unfold narrow
  rw [if_neg (by simp [isNan64, h'.1, h'.2]), if_pos (by simpa [isInf64] using h')]

theorem narrow_nan {b : Nat} (h : isNan64 b = true) :
    narrow b = sign64 b * 2 ^ 31 + 0xff * 2 ^ 23 + 2 ^ 22 := by
  unfold narrow
  rw [if_pos h]

theorem floatEq_finite_not_special {b : Nat} (hfin : isFinite64 b = true)
    (heq : floatEq64 (widen (narrow b)) b = true) :
    isInf32 (narrow b) = false ∧ isNan32 (narrow b) = false := by
  have hfb : expf64 b ≠ 0x7ff := by
    simpa [isFinite64] using hfin
  have hnb : isNan64 b = false := by simp [isNan64, hfb]
  have hib : isInf64 b = false := by simp [isInf64, hfb]
  unfold floatEq64 at heq
  constructor
  · by_contra hc
    have hi : isInf32 (narrow b) = true := by
      cases hx : isInf32 (narrow b) with
      | false => exact absurd hx hc
      | true => rfl
    have hi' : expf32 (narrow b) = 0xff ∧ mant32 (narrow b) = 0 := by
      simpa [isInf32] using hi
    obtain ⟨c1, c2⟩ := (widen_fields (narrow b)).2.2.1 hi'.1
    have hwn : isNan64 (widen (narrow b)) = false := by
      simp [isNan64, c1, c2, hi'.2]
    have hwi : isInf64 (widen (narrow b)) = true := by
      simp [isInf64, c1, c2, hi'.2]
    rw [if_neg (by simp [hwn, hnb]), if_pos (by simp [hwi])] at heq
    simp only [Bool.and_eq_true, decide_eq_true_eq] at heq
    rw [hib] at heq
    simp at heq
  · by_contra hc
    have hi : isNan32 (narrow b) = true := by
      cases hx : isNan32 (narrow b) with
      | false => exact absurd hx hc
      | true => rfl
    have hi' : expf32 (narrow b) = 0xff ∧ mant32 (narrow b) ≠ 0 := by
      simpa [isNan32] using hi
    obtain ⟨c1, c2⟩ := (widen_fields (narrow b)).2.2.1 hi'.1
    have hwn : isNan64 (widen (narrow b)) = true := by
      simp only [isNan64, c1, c2]
      simp [hi'.2]
    rw [if_pos (by simp [hwn])] at heq
    simp at heq

theorem emitF64_fa {b : Nat} (hfin : isFinite64 b = true)
    (heq : floatEq64 (widen (narrow b)) b = true) :
    emitF64 b = 0xfa :: beBytes 4 (narrow b) := by
  obtain ⟨h1, h2⟩ := floatEq_finite_not_special hfin heq
  unfold emitF64 emitF32
  rw [if_pos (by simp [heq]), if_neg (by simp [h1]), if_neg (by simp [h2])]

theorem emitF64_fb {b : Nat} (hfin : isFinite64 b = true)
    (heq : floatEq64 (widen (narrow b)) b = false) :
    emitF64 b = 0xfb :: beBytes 8 b := by
  unfold emitF64
  rw [if_neg (by simp [heq, hfin])]

/-- Amended C2: the float special values take the fixed 3-byte
half-precision encodings `f9 7c 00` (+∞), `f9 fc 00` (−∞) and `f9 7e 00`
(NaN). -/
theorem float_special_encode (b : Nat) (hb : b < 2 ^ 64) :
    (isInf64 b = true → isSignPositive64 b = true →
      dagCborEncode (.float b) = .ok [0xf9, 0x7c, 0x00]) ∧
    (isInf64 b = true → isSignPositive64 b = false →
      dagCborEncode (.float b) = .ok [0xf9, 0xfc, 0x00]) ∧
    (isNan64 b = true → dagCborEncode (.float b) = .ok [0xf9, 0x7e, 0x00]) := by
  have hrw : ∀ l : List Nat, (ByteCursor.new []).writeAll l =
      .ok ⟨l, l.length⟩ := by
    intro l
    have := writeAll_at_end (c := ByteCursor.new []) l rfl
      (by simp [ByteCursor.new, usizeMax])
    simpa [ByteCursor.new] using this
  have hmap : dagCborEncode (.float b) =
      (encodeF64 b (ByteCursor.new [])).map ByteCursor.inner := by
    simp [dagCborEncode, encodeIpld]
  refine ⟨fun hi hsp => ?_, fun hi hsp => ?_, fun hn => ?_⟩
  · have hfin : isFinite64 b = false := by
      have : expf64 b = 0x7ff := ((by simpa [isInf64] using hi) :
        expf64 b = 0x7ff ∧ mant64 b = 0).1
      simp [isFinite64, this]
    have hs0 : sign64 b = 0 := by simpa [isSignPositive64] using hsp
    rw [hmap]
    unfold encodeF64
    rw [if_pos (by simp [hfin])]
    unfold encodeF32
    rw [narrow_inf hi, hs0]
    simp only [Nat.zero_mul, Nat.zero_add]
    rw [if_pos (by decide), if_pos (by decide), hrw]
    simp [Except.map]
  · have hfin : isFinite64 b = false := by
      have : expf64 b = 0x7ff := ((by simpa [isInf64] using hi) :
        expf64 b = 0x7ff ∧ mant64 b = 0).1
      simp [isFinite64, this]
    have hs1 : sign64 b = 1 := by
      have := sign64_le b
      have h0 : ¬ sign64 b = 0 := by simpa [isSignPositive64] using hsp
      omega
    rw [hmap]
    unfold encodeF64
    rw [if_pos (by simp [hfin])]
    unfold encodeF32
    rw [narrow_inf hi, hs1]
    rw [if_pos (by decide), if_neg (by decide), hrw]
    simp [Except.map]
  · have hfin : isFinite64 b = false := by
      have : expf64 b = 0x7ff := ((by simpa [isNan64] using hn) :
        expf64 b = 0x7ff ∧ mant64 b ≠ 0).1
      simp [isFinite64, this]
    rw [hmap]
    unfold encodeF64
    rw [if_pos (by simp [hfin])]
    unfold encodeF32
    rw [narrow_nan hn]
    have hs := sign64_le b
    have hx := fields32_extract (s := sign64 b) (e := 0xff) (m := 2 ^ 22)
      hs (by norm_num) (by norm_num)
    rw [if_neg (by
        simp only [isInf32, hx.2.1, hx.2.2]
        decide),
      if_pos (by
        simp only [isNan32, hx.2.1, hx.2.2]
        decide), hrw]
    simp [Except.map]

/-- Witness for `float_special_encode` at the canonical +∞, −∞ and quiet-NaN
bit patterns. -/
theorem float_special_encode_witness :
    dagCborEncode (.float 0x7FF0000000000000) = .ok [0xf9, 0x7c, 0x00] ∧
    dagCborEncode (.float 0xFFF0000000000000) = .ok [0xf9, 0xfc, 0x00] ∧
    dagCborEncode (.float 0x7FF8000000000000) = .ok [0xf9, 0x7e, 0x00] :=
  ⟨(float_special_encode 0x7FF0000000000000 (by norm_num)).1
      (by decide) (by decide),
   (float_special_encode 0xFFF0000000000000 (by norm_num)).2.1
      (by decide) (by decide),
   (float_special_encode 0x7FF8000000000000 (by norm_num)).2.2 (by decide)⟩

/-- Counterexample to C2 as stated: positive infinity encodes to the 3-byte
half-precision form `f9 7c 00`, not to the 5-byte `fa 7c 00 00 00` of the
claim (and similarly for −∞ and NaN). -/
theorem float_special_encode_counterexample :
    dagCborEncode (.float 0x7FF0000000000000) = .ok [0xf9, 0x7c, 0x00] ∧
    ([0xf9, 0x7c, 0x00] : List Nat) ≠ [0xfa, 0x7c, 0x00, 0x00, 0x00] :=
  ⟨(float_special_encode 0x7FF0000000000000 (by norm_num)).1
      (by decide) (by decide),
   by decide⟩

end SpIpld

namespace SpIpld

theorem readLen_of_header {M n : Nat} {I t : List Nat} {p : Nat}
    (hn : n < 2 ^ 64) (hd : I.drop p = header64 M n ++ t) :
    ∃ b tl, header64 M n = b :: tl ∧ M * 32 ≤ b ∧ b ≤ M * 32 + 27 ∧
      readU8 ⟨I, p⟩ = .ok (b, ⟨I, p + 1⟩) ∧
      readLen ⟨I, p + 1⟩ (b - M * 32) =
        .ok (n, ⟨I, p + (header64 M n).length⟩) := by
  unfold header64 at hd ⊢
  by_cases h1 : n ≤ 0x17
  · rw [if_pos h1] at hd ⊢
    refine ⟨M * 32 + n, [], rfl, by omega, by omega, readU8_of_drop (by simpa using hd), ?_⟩
    unfold readLen
    rw [if_pos (by omega : M * 32 + n - M * 32 ≤ 0x17)]
    simp
  · rw [if_neg h1] at hd ⊢
    by_cases h2 : n ≤ 0xff
    · rw [if_pos h2] at hd ⊢
      have hd' : I.drop p = (M * 32 + 24) :: (n :: t) := by simpa using hd
      refine ⟨M * 32 + 24, [n], rfl, by omega, by omega, readU8_of_drop hd', ?_⟩
      unfold readLen
      rw [if_neg (by first | omega), if_pos (by omega : M * 32 + 24 - M * 32 = 0x18)]
      have hd2 : I.drop (p + 1) = n :: t := by
        have := drop_append_of_drop (show I.drop p = [M * 32 + 24] ++ (n :: t) by simpa using hd')
        simpa using this
      have := readU8_of_drop hd2
      rw [this]
      simp
    · rw [if_neg h2] at hd ⊢
      by_cases h3 : n ≤ 0xffff
      · rw [if_pos h3] at hd ⊢
        have hd' : I.drop p = (M * 32 + 25) :: (beBytes 2 n ++ t) := by
          simpa using hd
        refine ⟨M * 32 + 25, beBytes 2 n, rfl, by omega, by omega,
          readU8_of_drop hd', ?_⟩
        unfold readLen
        rw [if_neg (by first | omega), if_neg (by first | omega),
          if_pos (by omega : M * 32 + 25 - M * 32 = 0x19)]
        have hd2 : I.drop (p + 1) = beBytes 2 n ++ t := by
          have := drop_append_of_drop (show I.drop p = [M * 32 + 25] ++ (beBytes 2 n ++ t) by simpa using hd')
          simpa using this
        have := readU16_of_drop hd2 (by omega)
        rw [this]
        simp [beBytes_length]
      · rw [if_neg h3] at hd ⊢
        by_cases h4 : n ≤ 0xffffffff
        · rw [if_pos h4] at hd ⊢
          have hd' : I.drop p = (M * 32 + 26) :: (beBytes 4 n ++ t) := by
            simpa using hd
          refine ⟨M * 32 + 26, beBytes 4 n, rfl, by omega, by omega,
            readU8_of_drop hd', ?_⟩
          unfold readLen
          rw [if_neg (by first | omega), if_neg (by first | omega), if_neg (by first | omega),
            if_pos (by omega : M * 32 + 26 - M * 32 = 0x1a)]
          have hd2 : I.drop (p + 1) = beBytes 4 n ++ t := by
            have := drop_append_of_drop (show I.drop p = [M * 32 + 26] ++ (beBytes 4 n ++ t) by simpa using hd')
            simpa using this
          have := readU32_of_drop hd2 (by omega)
          rw [this]
          simp [beBytes_length]
        · rw [if_neg h4] at hd ⊢
          have hd' : I.drop p = (M * 32 + 27) :: (beBytes 8 n ++ t) := by
            simpa using hd
          refine ⟨M * 32 + 27, beBytes 8 n, rfl, by omega, by omega,
            readU8_of_drop hd', ?_⟩
          unfold readLen
          rw [if_neg (by first | omega), if_neg (by first | omega), if_neg (by first | omega),
            if_neg (by first | omega), if_pos (by omega : M * 32 + 27 - M * 32 = 0x1b)]
          have hd2 : I.drop (p + 1) = beBytes 8 n ++ t := by
            have := drop_append_of_drop (show I.drop p = [M * 32 + 27] ++ (beBytes 8 n ++ t) by simpa using hd')
            simpa using this
          have := readU64_of_drop hd2 (by omega)
          rw [this]
          simp only [bind, Except.bind]
          rw [if_neg (by simp [usizeMax]; omega)]
          simp [beBytes_length]

end SpIpld


namespace SpIpld

/-! ## Decoder lemmas: reading back what `emit` wrote -/

theorem readBytes_of_drop {I xs t : List Nat} {p : Nat}
    (hd : I.drop p = xs ++ t) :
    readBytes ⟨I, p⟩ xs.length = .ok (xs, ⟨I, p + xs.length⟩) :=
  readExactE_of_drop hd rfl

theorem readStr_of_drop {I xs t : List Nat} {p : Nat}
    (hd : I.drop p = xs ++ t) (hu : validUtf8 xs = true) :
    readStr ⟨I, p⟩ xs.length = .ok (xs, ⟨I, p + xs.length⟩) := by
  have := readBytes_of_drop hd
  simp [readStr, this, bind, Except.bind, hu]

theorem decodeIpld_succ (f : Nat) (r : ByteCursor) :
    decodeIpld (f + 1) r = decodeStep (fun r' => decodeIpld f r') f r := rfl

theorem bindE_ok {a b : Type} (x : a) (f : a → Except String b) :
    (bind (Except.ok x) f : Except String b) = f x := rfl

/-! Per-branch dispatch lemmas for `decodeStep`: given the initial byte and
the outcomes of the branch's subsequent reads, the step's result. -/

set_option maxRecDepth 4096 in
theorem decodeStep_small (dec : ByteCursor → Except String (Ipld × ByteCursor))
    (lf : Nat) {r r1 : ByteCursor} {b : Nat} (h : readU8 r = .ok (b, r1))
    (hb : b ≤ 0x17) :
    decodeStep dec lf r = .ok (.integer b, r1) := by
  unfold decodeStep
  rw [h, bindE_ok]
  dsimp only
  rw [if_pos hb]

set_option maxRecDepth 4096 in
theorem decodeStep_int8 (dec : ByteCursor → Except String (Ipld × ByteCursor))
    (lf : Nat) {r r1 r2 : ByteCursor} {b v : Nat} (h : readU8 r = .ok (b, r1))
    (hb : b = 0x18) (h2 : readU8 r1 = .ok (v, r2)) :
    decodeStep dec lf r = .ok (.integer v, r2) := by
  unfold decodeStep
  rw [h, bindE_ok]
  dsimp only
  rw [if_neg (by first | omega), if_pos hb, h2, bindE_ok]

set_option maxRecDepth 4096 in
theorem decodeStep_int16 (dec : ByteCursor → Except String (Ipld × ByteCursor))
    (lf : Nat) {r r1 r2 : ByteCursor} {b v : Nat} (h : readU8 r = .ok (b, r1))
    (hb : b = 0x19) (h2 : readU16 r1 = .ok (v, r2)) :
    decodeStep dec lf r = .ok (.integer v, r2) := by
  unfold decodeStep
  rw [h, bindE_ok]
  dsimp only
  rw [if_neg (by first | omega), if_neg (by first | omega), if_pos hb, h2, bindE_ok]

set_option maxRecDepth 4096 in
theorem decodeStep_int32 (dec : ByteCursor → Except String (Ipld × ByteCursor))
    (lf : Nat) {r r1 r2 : ByteCursor} {b v : Nat} (h : readU8 r = .ok (b, r1))
    (hb : b = 0x1a) (h2 : readU32 r1 = .ok (v, r2)) :
    decodeStep dec lf r = .ok (.integer v, r2) := by
  unfold decodeStep
  rw [h, bindE_ok]
  dsimp only
  rw [if_neg (by first | omega), if_neg (by first | omega), if_neg (by first | omega), if_pos hb, h2,
    bindE_ok]

set_option maxRecDepth 4096 in
theorem decodeStep_int64 (dec : ByteCursor → Except String (Ipld × ByteCursor))
    (lf : Nat) {r r1 r2 : ByteCursor} {b v : Nat} (h : readU8 r = .ok (b, r1))
    (hb : b = 0x1b) (h2 : readU64 r1 = .ok (v, r2)) :
    decodeStep dec lf r = .ok (.integer v, r2) := by
  unfold decodeStep
  rw [h, bindE_ok]
  dsimp only
  rw [if_neg (by first | omega), if_neg (by first | omega), if_neg (by first | omega),
    if_neg (by first | omega), if_pos hb, h2, bindE_ok]

set_option maxRecDepth 4096 in
theorem decodeStep_negSmall
    (dec : ByteCursor → Except String (Ipld × ByteCursor))
    (lf : Nat) {r r1 : ByteCursor} {b : Nat} (h : readU8 r = .ok (b, r1))
    (hb : 0x20 ≤ b ∧ b ≤ 0x37) :
    decodeStep dec lf r =
      .ok (.integer (-1 - ((b - 0x20 : Nat) : Int)), r1) := by
  unfold decodeStep
  rw [h, bindE_ok]
  dsimp only
  rw [if_neg (by first | omega), if_neg (by first | omega), if_neg (by first | omega),
    if_neg (by first | omega), if_neg (by first | omega), if_pos hb]

set_option maxRecDepth 4096 in
theorem decodeStep_neg8 (dec : ByteCursor → Except String (Ipld × ByteCursor))
    (lf : Nat) {r r1 r2 : ByteCursor} {b v : Nat} (h : readU8 r = .ok (b, r1))
    (hb : b = 0x38) (h2 : readU8 r1 = .ok (v, r2)) :
    decodeStep dec lf r = .ok (.integer (-1 - (v : Int)), r2) := by
  unfold decodeStep
  rw [h, bindE_ok]
  dsimp only
  rw [if_neg (by first | omega), if_neg (by first | omega), if_neg (by first | omega),
    if_neg (by first | omega), if_neg (by first | omega), if_neg (by first | omega), if_pos hb, h2,
    bindE_ok]

set_option maxRecDepth 4096 in
theorem decodeStep_neg16 (dec : ByteCursor → Except String (Ipld × ByteCursor))
    (lf : Nat) {r r1 r2 : ByteCursor} {b v : Nat} (h : readU8 r = .ok (b, r1))
    (hb : b = 0x39) (h2 : readU16 r1 = .ok (v, r2)) :
    decodeStep dec lf r = .ok (.integer (-1 - (v : Int)), r2) := by
  unfold decodeStep
  rw [h, bindE_ok]
  dsimp only
  rw [if_neg (by first | omega), if_neg (by first | omega), if_neg (by first | omega),
    if_neg (by first | omega), if_neg (by first | omega), if_neg (by first | omega),
    if_neg (by first | omega), if_pos hb, h2, bindE_ok]

set_option maxRecDepth 4096 in
theorem decodeStep_neg32 (dec : ByteCursor → Except String (Ipld × ByteCursor))
    (lf : Nat) {r r1 r2 : ByteCursor} {b v : Nat} (h : readU8 r = .ok (b, r1))
    (hb : b = 0x3a) (h2 : readU32 r1 = .ok (v, r2)) :
    decodeStep dec lf r = .ok (.integer (-1 - (v : Int)), r2) := by
  unfold decodeStep
  rw [h, bindE_ok]
  dsimp only
  rw [if_neg (by first | omega), if_neg (by first | omega), if_neg (by first | omega),
    if_neg (by first | omega), if_neg (by first | omega), if_neg (by first | omega),
    if_neg (by first | omega), if_neg (by first | omega), if_pos hb, h2, bindE_ok]

set_option maxRecDepth 4096 in
theorem decodeStep_neg64 (dec : ByteCursor → Except String (Ipld × ByteCursor))
    (lf : Nat) {r r1 r2 : ByteCursor} {b v : Nat} (h : readU8 r = .ok (b, r1))
    (hb : b = 0x3b) (h2 : readU64 r1 = .ok (v, r2)) :
    decodeStep dec lf r = .ok (.integer (-1 - (v : Int)), r2) := by
  unfold decodeStep
  rw [h, bindE_ok]
  dsimp only
  rw [if_neg (by first | omega), if_neg (by first | omega), if_neg (by first | omega),
    if_neg (by first | omega), if_neg (by first | omega), if_neg (by first | omega),
    if_neg (by first | omega), if_neg (by first | omega), if_neg (by first | omega), if_pos hb, h2,
    bindE_ok]

set_option maxRecDepth 4096 in
theorem decodeStep_bytes (dec : ByteCursor → Except String (Ipld × ByteCursor))
    (lf : Nat) {r r1 r2 r3 : ByteCursor} {b len : Nat} {bs : List Nat}
    (h : readU8 r = .ok (b, r1)) (hb : 0x40 ≤ b ∧ b ≤ 0x5b)
    (h2 : readLen r1 (b - 0x40) = .ok (len, r2))
    (h3 : readBytes r2 len = .ok (bs, r3)) :
    decodeStep dec lf r = .ok (.bytes bs, r3) := by
  unfold decodeStep
  rw [h, bindE_ok]
  dsimp only
  rw [if_neg (by first | omega), if_neg (by first | omega), if_neg (by first | omega),
    if_neg (by first | omega), if_neg (by first | omega), if_neg (by first | omega),
    if_neg (by first | omega), if_neg (by first | omega), if_neg (by first | omega),
    if_neg (by first | omega), if_pos hb, h2, bindE_ok]
  dsimp only
  rw [h3, bindE_ok]

set_option maxRecDepth 4096 in
theorem decodeStep_string
    (dec : ByteCursor → Except String (Ipld × ByteCursor))
    (lf : Nat) {r r1 r2 r3 : ByteCursor} {b len : Nat} {s : List Nat}
    (h : readU8 r = .ok (b, r1)) (hb : 0x60 ≤ b ∧ b ≤ 0x7b)
    (h2 : readLen r1 (b - 0x60) = .ok (len, r2))
    (h3 : readStr r2 len = .ok (s, r3)) :
    decodeStep dec lf r = .ok (.string s, r3) := by
  unfold decodeStep
  rw [h, bindE_ok]
  dsimp only
  rw [if_neg (by first | omega), if_neg (by first | omega), if_neg (by first | omega),
    if_neg (by first | omega), if_neg (by first | omega), if_neg (by first | omega),
    if_neg (by first | omega), if_neg (by first | omega), if_neg (by first | omega),
    if_neg (by first | omega), if_neg (by first | omega), if_pos hb, h2, bindE_ok]
  dsimp only
  rw [h3, bindE_ok]

set_option maxRecDepth 4096 in
theorem decodeStep_list (dec : ByteCursor → Except String (Ipld × ByteCursor))
    (lf : Nat) {r r1 r2 r3 : ByteCursor} {b len : Nat} {l : List Ipld}
    (h : readU8 r = .ok (b, r1)) (hb : 0x80 ≤ b ∧ b ≤ 0x9b)
    (h2 : readLen r1 (b - 0x80) = .ok (len, r2))
    (h3 : readListN dec len r2 = .ok (l, r3)) :
    decodeStep dec lf r = .ok (.list l, r3) := by
  unfold decodeStep
  rw [h, bindE_ok]
  dsimp only
  rw [if_neg (by first | omega), if_neg (by first | omega), if_neg (by first | omega),
    if_neg (by first | omega), if_neg (by first | omega), if_neg (by first | omega),
    if_neg (by first | omega), if_neg (by first | omega), if_neg (by first | omega),
    if_neg (by first | omega), if_neg (by first | omega), if_neg (by first | omega), if_pos hb, h2,
    bindE_ok]
  dsimp only
  rw [h3, bindE_ok]

set_option maxRecDepth 4096 in
theorem decodeStep_listIl
    (dec : ByteCursor → Except String (Ipld × ByteCursor))
    (lf : Nat) {r r1 r2 : ByteCursor} {b : Nat} {l : List Ipld}
    (h : readU8 r = .ok (b, r1)) (hb : b = 0x9f)
    (h2 : readListIl dec lf r1 = .ok (l, r2)) :
    decodeStep dec lf r = .ok (.list l, r2) := by
  unfold decodeStep
  rw [h, bindE_ok]
  dsimp only
  rw [if_neg (by first | omega), if_neg (by first | omega), if_neg (by first | omega),
    if_neg (by first | omega), if_neg (by first | omega), if_neg (by first | omega),
    if_neg (by first | omega), if_neg (by first | omega), if_neg (by first | omega),
    if_neg (by first | omega), if_neg (by first | omega), if_neg (by first | omega),
    if_neg (by first | omega), if_pos hb, h2, bindE_ok]

set_option maxRecDepth 4096 in
theorem decodeStep_map (dec : ByteCursor → Except String (Ipld × ByteCursor))
    (lf : Nat) {r r1 r2 r3 : ByteCursor} {b len : Nat}
    {m : List (List Nat × Ipld)}
    (h : readU8 r = .ok (b, r1)) (hb : 0xa0 ≤ b ∧ b ≤ 0xbb)
    (h2 : readLen r1 (b - 0xa0) = .ok (len, r2))
    (h3 : readMapN dec len [] r2 = .ok (m, r3)) :
    decodeStep dec lf r = .ok (.map m, r3) := by
  unfold decodeStep
  rw [h, bindE_ok]
  dsimp only
  rw [if_neg (by first | omega), if_neg (by first | omega), if_neg (by first | omega),
    if_neg (by first | omega), if_neg (by first | omega), if_neg (by first | omega),
    if_neg (by first | omega), if_neg (by first | omega), if_neg (by first | omega),
    if_neg (by first | omega), if_neg (by first | omega), if_neg (by first | omega),
    if_neg (by first | omega), if_neg (by first | omega), if_pos hb, h2, bindE_ok]
  dsimp only
  rw [h3, bindE_ok]

set_option maxRecDepth 4096 in
theorem decodeStep_mapIl
    (dec : ByteCursor → Except String (Ipld × ByteCursor))
    (lf : Nat) {r r1 r2 r3 r4 : ByteCursor} {b pos q : Nat}
    {m : List (List Nat × Ipld)}
    (h : readU8 r = .ok (b, r1)) (hb : b = 0xbf)
    (h2 : r1.seek (.current 0) = .ok (pos, r2))
    (h3 : r2.seek (.start pos) = .ok (q, r3))
    (h4 : readMapIl dec lf [] r3 = .ok (m, r4)) :
    decodeStep dec lf r = .ok (.map m, r4) := by
  unfold decodeStep
  rw [h, bindE_ok]
  dsimp only
  rw [if_neg (by first | omega), if_neg (by first | omega), if_neg (by first | omega),
    if_neg (by first | omega), if_neg (by first | omega), if_neg (by first | omega),
    if_neg (by first | omega), if_neg (by first | omega), if_neg (by first | omega),
    if_neg (by first | omega), if_neg (by first | omega), if_neg (by first | omega),
    if_neg (by first | omega), if_neg (by first | omega), if_neg (by first | omega), if_pos hb, h2,
    bindE_ok]
  dsimp only
  rw [h3, bindE_ok]
  dsimp only
  rw [h4, bindE_ok]

set_option maxRecDepth 4096 in
theorem decodeStep_link (dec : ByteCursor → Except String (Ipld × ByteCursor))
    (lf : Nat) {r r1 r2 r3 : ByteCursor} {b : Nat} {cid : List Nat}
    (h : readU8 r = .ok (b, r1)) (hb : b = 0xd8)
    (h2 : readU8 r1 = .ok (42, r2))
    (h3 : readLink r2 = .ok (cid, r3)) :
    decodeStep dec lf r = .ok (.link cid, r3) := by
  unfold decodeStep
  rw [h, bindE_ok]
  dsimp only
  rw [if_neg (by first | omega), if_neg (by first | omega), if_neg (by first | omega),
    if_neg (by first | omega), if_neg (by first | omega), if_neg (by first | omega),
    if_neg (by first | omega), if_neg (by first | omega), if_neg (by first | omega),
    if_neg (by first | omega), if_neg (by first | omega), if_neg (by first | omega),
    if_neg (by first | omega), if_neg (by first | omega), if_neg (by first | omega),
    if_neg (by first | omega), if_pos hb, h2, bindE_ok]
  dsimp only
  rw [if_pos rfl, h3, bindE_ok]

set_option maxRecDepth 4096 in
theorem decodeStep_bool_false
    (dec : ByteCursor → Except String (Ipld × ByteCursor))
    (lf : Nat) {r r1 : ByteCursor} {b : Nat}
    (h : readU8 r = .ok (b, r1)) (hb : b = 0xf4) :
    decodeStep dec lf r = .ok (.bool false, r1) := by
  unfold decodeStep
  rw [h, bindE_ok]
  dsimp only
  rw [if_neg (by first | omega), if_neg (by first | omega), if_neg (by first | omega),
    if_neg (by first | omega), if_neg (by first | omega), if_neg (by first | omega),
    if_neg (by first | omega), if_neg (by first | omega), if_neg (by first | omega),
    if_neg (by first | omega), if_neg (by first | omega), if_neg (by first | omega),
    if_neg (by first | omega), if_neg (by first | omega), if_neg (by first | omega),
    if_neg (by first | omega), if_neg (by first | omega), if_pos hb]

set_option maxRecDepth 4096 in
theorem decodeStep_bool_true
    (dec : ByteCursor → Except String (Ipld × ByteCursor))
    (lf : Nat) {r r1 : ByteCursor} {b : Nat}
    (h : readU8 r = .ok (b, r1)) (hb : b = 0xf5) :
    decodeStep dec lf r = .ok (.bool true, r1) := by
  unfold decodeStep
  rw [h, bindE_ok]
  dsimp only
  rw [if_neg (by first | omega), if_neg (by first | omega), if_neg (by first | omega),
    if_neg (by first | omega), if_neg (by first | omega), if_neg (by first | omega),
    if_neg (by first | omega), if_neg (by first | omega), if_neg (by first | omega),
    if_neg (by first | omega), if_neg (by first | omega), if_neg (by first | omega),
    if_neg (by first | omega), if_neg (by first | omega), if_neg (by first | omega),
    if_neg (by first | omega), if_neg (by first | omega), if_neg (by first | omega), if_pos hb]

set_option maxRecDepth 4096 in
theorem decodeStep_null (dec : ByteCursor → Except String (Ipld × ByteCursor))
    (lf : Nat) {r r1 : ByteCursor} {b : Nat}
    (h : readU8 r = .ok (b, r1)) (hb : b = 0xf6 ∨ b = 0xf7) :
    decodeStep dec lf r = .ok (.null, r1) := by
  unfold decodeStep
  rw [h, bindE_ok]
  dsimp only
  rw [if_neg (by first | omega), if_neg (by first | omega), if_neg (by first | omega),
    if_neg (by first | omega), if_neg (by first | omega), if_neg (by first | omega),
    if_neg (by first | omega), if_neg (by first | omega), if_neg (by first | omega),
    if_neg (by first | omega), if_neg (by first | omega), if_neg (by first | omega),
    if_neg (by first | omega), if_neg (by first | omega), if_neg (by first | omega),
    if_neg (by first | omega), if_neg (by first | omega), if_neg (by first | omega),
    if_neg (by first | omega), if_pos hb]

set_option maxRecDepth 4096 in
theorem decodeStep_f32 (dec : ByteCursor → Except String (Ipld × ByteCursor))
    (lf : Nat) {r r1 r2 : ByteCursor} {b bits : Nat}
    (h : readU8 r = .ok (b, r1)) (hb : b = 0xfa)
    (h2 : readF32 r1 = .ok (bits, r2)) :
    decodeStep dec lf r = .ok (.float (widen bits), r2) := by
  unfold decodeStep
  rw [h, bindE_ok]
  dsimp only
  rw [if_neg (by first | omega), if_neg (by first | omega), if_neg (by first | omega),
    if_neg (by first | omega), if_neg (by first | omega), if_neg (by first | omega),
    if_neg (by first | omega), if_neg (by first | omega), if_neg (by first | omega),
    if_neg (by first | omega), if_neg (by first | omega), if_neg (by first | omega),
    if_neg (by first | omega), if_neg (by first | omega), if_neg (by first | omega),
    if_neg (by first | omega), if_neg (by first | omega), if_neg (by first | omega),
    if_neg (by first | omega), if_neg (by first | omega), if_pos hb, h2, bindE_ok]

set_option maxRecDepth 4096 in
theorem decodeStep_f64 (dec : ByteCursor → Except String (Ipld × ByteCursor))
    (lf : Nat) {r r1 r2 : ByteCursor} {b bits : Nat}
    (h : readU8 r = .ok (b, r1)) (hb : b = 0xfb)
    (h2 : readF64 r1 = .ok (bits, r2)) :
    decodeStep dec lf r = .ok (.float bits, r2) := by
  unfold decodeStep
  rw [h, bindE_ok]
  dsimp only
  rw [if_neg (by first | omega), if_neg (by first | omega), if_neg (by first | omega),
    if_neg (by first | omega), if_neg (by first | omega), if_neg (by first | omega),
    if_neg (by first | omega), if_neg (by first | omega), if_neg (by first | omega),
    if_neg (by first | omega), if_neg (by first | omega), if_neg (by first | omega),
    if_neg (by first | omega), if_neg (by first | omega), if_neg (by first | omega),
    if_neg (by first | omega), if_neg (by first | omega), if_neg (by first | omega),
    if_neg (by first | omega), if_neg (by first | omega), if_neg (by first | omega), if_pos hb, h2,
    bindE_ok]

/-- Decoding an unsigned-integer header (`write_u64` major 0) yields the
value back. -/
theorem decodeStep_header0 (dec : ByteCursor → Except String (Ipld × ByteCursor))
    (lf : Nat) {I t : List Nat} {p n : Nat} (hn : n < 2 ^ 64)
    (hd : I.drop p = header64 0 n ++ t) :
    decodeStep dec lf ⟨I, p⟩ =
      .ok (.integer n, ⟨I, p + (header64 0 n).length⟩) := by
  unfold header64 at hd ⊢
  by_cases h1 : n ≤ 0x17
  · rw [if_pos h1] at hd ⊢
    exact decodeStep_small dec lf
      (readU8_of_drop (by simpa using hd)) (by omega)
  · rw [if_neg h1] at hd ⊢
    by_cases h2 : n ≤ 0xff
    · rw [if_pos h2] at hd ⊢
      have hd' : I.drop p = (0 * 32 + 24) :: (n :: t) := by simpa using hd
      have hd2 : I.drop (p + 1) = n :: t := by
        simpa using drop_append_of_drop (show I.drop p = [0 * 32 + 24] ++ (n :: t) by simpa using hd')
      have := decodeStep_int8 dec lf (readU8_of_drop hd') (by omega)
        (readU8_of_drop hd2)
      rw [this]
      norm_num
    · rw [if_neg h2] at hd ⊢
      by_cases h3 : n ≤ 0xffff
      · rw [if_pos h3] at hd ⊢
        have hd' : I.drop p = (0 * 32 + 25) :: (beBytes 2 n ++ t) := by
          simpa using hd
        have hd2 : I.drop (p + 1) = beBytes 2 n ++ t := by
          simpa using drop_append_of_drop (show I.drop p = [0 * 32 + 25] ++ (beBytes 2 n ++ t) by simpa using hd')
        have := decodeStep_int16 dec lf (readU8_of_drop hd') (by omega)
          (readU16_of_drop hd2 (by omega))
        rw [this]
        norm_num [beBytes_length]
      · rw [if_neg h3] at hd ⊢
        by_cases h4 : n ≤ 0xffffffff
        · rw [if_pos h4] at hd ⊢
          have hd' : I.drop p = (0 * 32 + 26) :: (beBytes 4 n ++ t) := by
            simpa using hd
          have hd2 : I.drop (p + 1) = beBytes 4 n ++ t := by
            simpa using drop_append_of_drop (show I.drop p = [0 * 32 + 26] ++ (beBytes 4 n ++ t) by simpa using hd')
          have := decodeStep_int32 dec lf (readU8_of_drop hd') (by omega)
            (readU32_of_drop hd2 (by omega))
          rw [this]
          norm_num [beBytes_length]
        · rw [if_neg h4] at hd ⊢
          have hd' : I.drop p = (0 * 32 + 27) :: (beBytes 8 n ++ t) := by
            simpa using hd
          have hd2 : I.drop (p + 1) = beBytes 8 n ++ t := by
            simpa using drop_append_of_drop (show I.drop p = [0 * 32 + 27] ++ (beBytes 8 n ++ t) by simpa using hd')
          have := decodeStep_int64 dec lf (readU8_of_drop hd') (by omega)
            (readU64_of_drop hd2 (by omega))
          rw [this]
          norm_num [beBytes_length]

/-- Decoding a negative-integer header (`write_u64` major 1 on `-1 - i`)
yields `-1 - n`. -/
theorem decodeStep_header1 (dec : ByteCursor → Except String (Ipld × ByteCursor))
    (lf : Nat) {I t : List Nat} {p n : Nat} (hn : n < 2 ^ 64)
    (hd : I.drop p = header64 1 n ++ t) :
    decodeStep dec lf ⟨I, p⟩ =
      .ok (.integer (-1 - (n : Int)), ⟨I, p + (header64 1 n).length⟩) := by
  unfold header64 at hd ⊢
  by_cases h1 : n ≤ 0x17
  · rw [if_pos h1] at hd ⊢
    have hd' : I.drop p = (1 * 32 + n) :: t := by simpa using hd
    have := decodeStep_negSmall dec lf (readU8_of_drop hd') (by omega)
    rw [this]
    have e : (1 * 32 + n - 0x20 : Nat) = n := by omega
    rw [e]
    norm_num
  · rw [if_neg h1] at hd ⊢
    by_cases h2 : n ≤ 0xff
    · rw [if_pos h2] at hd ⊢
      have hd' : I.drop p = (1 * 32 + 24) :: (n :: t) := by simpa using hd
      have hd2 : I.drop (p + 1) = n :: t := by
        simpa using drop_append_of_drop (show I.drop p = [1 * 32 + 24] ++ (n :: t) by simpa using hd')
      have := decodeStep_neg8 dec lf (readU8_of_drop hd') (by omega)
        (readU8_of_drop hd2)
      rw [this]
      norm_num
    · rw [if_neg h2] at hd ⊢
      by_cases h3 : n ≤ 0xffff
      · rw [if_pos h3] at hd ⊢
        have hd' : I.drop p = (1 * 32 + 25) :: (beBytes 2 n ++ t) := by
          simpa using hd
        have hd2 : I.drop (p + 1) = beBytes 2 n ++ t := by
          simpa using drop_append_of_drop (show I.drop p = [1 * 32 + 25] ++ (beBytes 2 n ++ t) by simpa using hd')
        have := decodeStep_neg16 dec lf (readU8_of_drop hd') (by omega)
          (readU16_of_drop hd2 (by omega))
        rw [this]
        norm_num [beBytes_length]
      · rw [if_neg h3] at hd ⊢
        by_cases h4 : n ≤ 0xffffffff
        · rw [if_pos h4] at hd ⊢
          have hd' : I.drop p = (1 * 32 + 26) :: (beBytes 4 n ++ t) := by
            simpa using hd
          have hd2 : I.drop (p + 1) = beBytes 4 n ++ t := by
            simpa using drop_append_of_drop (show I.drop p = [1 * 32 + 26] ++ (beBytes 4 n ++ t) by simpa using hd')
          have := decodeStep_neg32 dec lf (readU8_of_drop hd') (by omega)
            (readU32_of_drop hd2 (by omega))
          rw [this]
          norm_num [beBytes_length]
        · rw [if_neg h4] at hd ⊢
          have hd' : I.drop p = (1 * 32 + 27) :: (beBytes 8 n ++ t) := by
            simpa using hd
          have hd2 : I.drop (p + 1) = beBytes 8 n ++ t := by
            simpa using drop_append_of_drop (show I.drop p = [1 * 32 + 27] ++ (beBytes 8 n ++ t) by simpa using hd')
          have := decodeStep_neg64 dec lf (readU8_of_drop hd') (by omega)
            (readU64_of_drop hd2 (by omega))
          rw [this]
          norm_num [beBytes_length]

/-- Decoding what the `i128` encoder wrote yields the integer back. -/
theorem decode_of_emit_integer
    (dec : ByteCursor → Except String (Ipld × ByteCursor))
    (lf : Nat) {I t : List Nat} {p : Nat} {i : Int}
    (hlo : -(2 ^ 64 : Int) ≤ i) (hhi : i ≤ 2 ^ 64 - 1)
    (hd : I.drop p = emitInt i ++ t) :
    decodeStep dec lf ⟨I, p⟩ =
      .ok (.integer i, ⟨I, p + (emitInt i).length⟩) := by
  unfold emitInt at hd ⊢
  by_cases hneg : i < 0
  · rw [if_pos hneg] at hd ⊢
    have hn64 : (-(i + 1)).toNat < 2 ^ 64 := by omega
    have hin : i = -1 - ((-(i + 1)).toNat : Int) := by omega
    rw [decodeStep_header1 dec lf hn64 hd, ← hin]
  · rw [if_neg hneg] at hd ⊢
    have hn64 : i.toNat < 2 ^ 64 := by omega
    have hin : i = (i.toNat : Int) := by omega
    rw [decodeStep_header0 dec lf hn64 hd, ← hin]

/-- `read_link` over the wire form the `Cid` encoder produced with a
one-byte length (23-to-254-byte identifiers). -/
theorem readLink_of_drop {I t cid : List Nat} {p : Nat}
    (hwf : cidWf cid = true)
    (hd : I.drop p = 0x58 :: (cid.length + 1) :: 0 :: cid ++ t) :
    readLink ⟨I, p⟩ = .ok (cid, ⟨I, p + 2 + (cid.length + 1)⟩) := by
  have h1 : readU8 ⟨I, p⟩ = .ok (0x58, ⟨I, p + 1⟩) := readU8_of_drop hd
  have hd2 : I.drop (p + 1) = (cid.length + 1) :: 0 :: cid ++ t := by
    simpa using drop_append_of_drop (show I.drop p = [0x58] ++ ((cid.length + 1) :: 0 :: cid ++ t) by simpa using hd)
  have h2 : readU8 ⟨I, p + 1⟩ = .ok (cid.length + 1, ⟨I, p + 2⟩) := by
    simpa [Nat.add_assoc] using readU8_of_drop hd2
  have hd3 : I.drop (p + 2) = (0 :: cid) ++ t := by
    have := drop_append_of_drop (show I.drop p = [0x58, cid.length + 1] ++ ((0 :: cid) ++ t) by simpa using hd)
    simpa [Nat.add_assoc] using this
  have h3 : readBytes ⟨I, p + 2⟩ (cid.length + 1) =
      .ok (0 :: cid, ⟨I, p + 2 + (cid.length + 1)⟩) := by
    have := readBytes_of_drop hd3
    simpa using this
  unfold readLink
  rw [h1, bindE_ok]
  dsimp only
  rw [if_neg (by norm_num), h2, bindE_ok]
  dsimp only
  rw [if_neg (by first | omega), h3, bindE_ok]
  dsimp only
  rw [if_neg (by simp)]
  have h4 : cidTryFrom ((0 :: cid).drop 1) = .ok cid := by
    simp [cidTryFrom, hwf]
  rw [h4, bindE_ok]

/-- Decoding what the string encoder wrote yields the string back. -/
theorem decode_of_emitStr
    (dec : ByteCursor → Except String (Ipld × ByteCursor))
    (lf : Nat) {I t s : List Nat} {p : Nat}
    (hu : validUtf8 s = true) (hlen : s.length < 2 ^ 64)
    (hd : I.drop p = emitStr s ++ t) :
    decodeStep dec lf ⟨I, p⟩ =
      .ok (.string s, ⟨I, p + (emitStr s).length⟩) := by
  have hd' : I.drop p = header64 3 s.length ++ (s ++ t) := by
    simpa [emitStr, List.append_assoc] using hd
  obtain ⟨b, tl, hh, hb1, hb2, hread, hrl⟩ := readLen_of_header hlen hd'
  have hrl' : readLen ⟨I, p + 1⟩ (b - 0x60) =
      .ok (s.length, ⟨I, p + (header64 3 s.length).length⟩) := by
    have e : b - 3 * 32 = b - 0x60 := by norm_num
    rwa [e] at hrl
  have hd2 : I.drop (p + (header64 3 s.length).length) = s ++ t :=
    drop_append_of_drop hd'
  have h3 := readStr_of_drop hd2 hu
  have := decodeStep_string dec lf hread (by omega) hrl' h3
  rw [this]
  simp [emitStr, List.length_append, Nat.add_assoc]

/-- Decoding what the byte-string encoder wrote yields the bytes back. -/
theorem decode_of_emit_bytes
    (dec : ByteCursor → Except String (Ipld × ByteCursor))
    (lf : Nat) {I t bs : List Nat} {p : Nat} (hlen : bs.length < 2 ^ 64)
    (hd : I.drop p = (header64 2 bs.length ++ bs) ++ t) :
    decodeStep dec lf ⟨I, p⟩ =
      .ok (.bytes bs, ⟨I, p + (header64 2 bs.length ++ bs).length⟩) := by
  have hd' : I.drop p = header64 2 bs.length ++ (bs ++ t) := by
    simpa [List.append_assoc] using hd
  obtain ⟨b, tl, hh, hb1, hb2, hread, hrl⟩ := readLen_of_header hlen hd'
  have hrl' : readLen ⟨I, p + 1⟩ (b - 0x40) =
      .ok (bs.length, ⟨I, p + (header64 2 bs.length).length⟩) := by
    have e : b - 2 * 32 = b - 0x40 := by norm_num
    rwa [e] at hrl
  have hd2 : I.drop (p + (header64 2 bs.length).length) = bs ++ t :=
    drop_append_of_drop hd'
  have h3 := readBytes_of_drop hd2
  have := decodeStep_bytes dec lf hread (by omega) hrl' h3
  rw [this]
  simp [List.length_append, Nat.add_assoc]

/-- Decoding what the `Cid` encoder wrote yields the link back, provided the
identifier takes 23 to 254 bytes (so its byte string uses the `0x58` form
`read_link` demands). -/
theorem decode_of_emitCid
    (dec : ByteCursor → Except String (Ipld × ByteCursor))
    (lf : Nat) {I t cid : List Nat} {p : Nat}
    (hwf : cidWf cid = true) (hsz : 23 ≤ cid.length ∧ cid.length ≤ 254)
    (hd : I.drop p = emitCid cid ++ t) :
    decodeStep dec lf ⟨I, p⟩ =
      .ok (.link cid, ⟨I, p + (emitCid cid).length⟩) := by
  have h642 : header64 6 42 = [0xd8, 0x2a] := by decide
  have h2c : header64 2 (cid.length + 1) = [0x58, cid.length + 1] := by
    unfold header64
    rw [if_neg (by first | omega), if_pos (by omega)]
  have hd' : I.drop p =
      0xd8 :: 0x2a :: 0x58 :: (cid.length + 1) :: 0 :: cid ++ t := by
    rw [emitCid, h642, h2c] at hd
    simpa using hd
  have h1 : readU8 ⟨I, p⟩ = .ok (0xd8, ⟨I, p + 1⟩) := readU8_of_drop hd'
  have hd2 : I.drop (p + 1) =
      0x2a :: 0x58 :: (cid.length + 1) :: 0 :: cid ++ t := by
    simpa using drop_append_of_drop (show I.drop p = [0xd8] ++ (0x2a :: 0x58 :: (cid.length + 1) :: 0 :: cid ++ t) by simpa using hd')
  have h2 : readU8 ⟨I, p + 1⟩ = .ok (42, ⟨I, p + 2⟩) := by
    simpa [Nat.add_assoc] using readU8_of_drop hd2
  have hd3 : I.drop (p + 2) = 0x58 :: (cid.length + 1) :: 0 :: cid ++ t := by
    have := drop_append_of_drop (show I.drop p = [0xd8, 0x2a] ++ (0x58 :: (cid.length + 1) :: 0 :: cid ++ t) by simpa using hd')
    simpa [Nat.add_assoc] using this
  have h3 := readLink_of_drop hwf hd3
  have := decodeStep_link dec lf h1 rfl h2 h3
  rw [this]
  have hlen : (emitCid cid).length = 5 + cid.length := by
    rw [emitCid, h642, h2c]
    simp
    omega
  rw [hlen]
  have e : p + 2 + 2 + (cid.length + 1) = p + (5 + cid.length) := by omega
  rw [e]

/-- Decoding what the `f64` encoder wrote for a finite float yields the
same bit pattern back (through the lossless `f32` cast on the narrow
branch). -/
theorem decode_of_emitF64
    (dec : ByteCursor → Except String (Ipld × ByteCursor))
    (lf : Nat) {I t : List Nat} {p b : Nat}
    (hfin : isFinite64 b = true) (hb64 : b < 2 ^ 64)
    (hd : I.drop p = emitF64 b ++ t) :
    decodeStep dec lf ⟨I, p⟩ =
      .ok (.float b, ⟨I, p + (emitF64 b).length⟩) := by
  by_cases heq : floatEq64 (widen (narrow b)) b = true
  · have hfa := emitF64_fa hfin heq
    rw [hfa] at hd ⊢
    have h1 : readU8 ⟨I, p⟩ = .ok (0xfa, ⟨I, p + 1⟩) := readU8_of_drop hd
    have hd2 : I.drop (p + 1) = beBytes 4 (narrow b) ++ t := by
      simpa using drop_append_of_drop (show I.drop p = [0xfa] ++ (beBytes 4 (narrow b) ++ t) by simpa using hd)
    have h2 : readF32 ⟨I, p + 1⟩ = .ok (narrow b, ⟨I, p + 1 + 4⟩) := by
      unfold readF32
      exact readU32_of_drop hd2 (narrow_fields b hfin).1
    have := decodeStep_f32 dec lf h1 rfl h2
    rw [this, widen_narrow_eq hb64 hfin heq]
    norm_num [beBytes_length, Nat.add_assoc]
  · have hfb := emitF64_fb hfin (by simpa using heq)
    rw [hfb] at hd ⊢
    have h1 : readU8 ⟨I, p⟩ = .ok (0xfb, ⟨I, p + 1⟩) := readU8_of_drop hd
    have hd2 : I.drop (p + 1) = beBytes 8 b ++ t := by
      simpa using drop_append_of_drop (show I.drop p = [0xfb] ++ (beBytes 8 b ++ t) by simpa using hd)
    have h2 : readF64 ⟨I, p + 1⟩ = .ok (b, ⟨I, p + 1 + 8⟩) := by
      unfold readF64
      exact readU64_of_drop hd2 hb64
    have := decodeStep_f64 dec lf h1 rfl h2
    rw [this]
    norm_num [beBytes_length, Nat.add_assoc]

/-! ## The strict byte order and `BTreeMap` insertion -/

theorem bytesLt_irrefl : ∀ a : List Nat, bytesLt a a = false := by
  intro a
  induction a with
  | nil => rfl
  | cons x xs ih => simp [bytesLt, ih]

theorem bytesLt_trans : ∀ {a b c : List Nat}, bytesLt a b = true →
    bytesLt b c = true → bytesLt a c = true := by
  intro a
  induction a with
  | nil =>
    intro b c h1 h2
    cases b with
    | nil => exact absurd h1 (by simp [bytesLt])
    | cons y ys =>
      cases c with
      | nil => exact absurd h2 (by simp [bytesLt])
      | cons z zs => simp [bytesLt]
  | cons x xs ih =>
    intro b c h1 h2
    cases b with
    | nil => exact absurd h1 (by simp [bytesLt])
    | cons y ys =>
      cases c with
      | nil => exact absurd h2 (by simp [bytesLt])
      | cons z zs =>
        simp only [bytesLt, Bool.or_eq_true, Bool.and_eq_true,
          decide_eq_true_eq] at h1 h2 ⊢
        rcases h1 with h1 | ⟨he1, h1⟩
        · rcases h2 with h2 | ⟨he2, h2⟩
          · exact Or.inl (by omega)
          · exact Or.inl (by omega)
        · rcases h2 with h2 | ⟨he2, h2⟩
          · exact Or.inl (by omega)
          · exact Or.inr ⟨by omega, ih h1 h2⟩

theorem bytesLt_trichotomy : ∀ a b : List Nat,
    bytesLt a b = true ∨ a = b ∨ bytesLt b a = true := by
  intro a
  induction a with
  | nil =>
    intro b
    cases b with
    | nil => exact Or.inr (Or.inl rfl)
    | cons y ys => exact Or.inl (by simp [bytesLt])
  | cons x xs ih =>
    intro b
    cases b with
    | nil => exact Or.inr (Or.inr (by simp [bytesLt]))
    | cons y ys =>
      rcases Nat.lt_trichotomy x y with hlt | heq | hgt
      · exact Or.inl (by simp [bytesLt, hlt])
      · rcases ih ys with h | h | h
        · exact Or.inl (by simp [bytesLt, heq, h])
        · exact Or.inr (Or.inl (by rw [heq, h]))
        · exact Or.inr (Or.inr (by simp [bytesLt, heq, h]))
      · exact Or.inr (Or.inr (by simp [bytesLt, hgt]))

theorem bytesLt_asymm {a b : List Nat} (h : bytesLt a b = true) :
    bytesLt b a = false := by
  cases hx : bytesLt b a with
  | false => rfl
  | true =>
    have := bytesLt_trans h hx
    rw [bytesLt_irrefl a] at this
    exact absurd this (by simp)

theorem bytesLt_ne {a b : List Nat} (h : bytesLt a b = true) : a ≠ b := by
  intro he
  rw [he, bytesLt_irrefl b] at h
  exact absurd h (by simp)

/-- Every element of `mapInsert k v m` is the new entry or an old one. -/
theorem mapInsert_mem : ∀ {m : List (List Nat × Ipld)}
    {k : List Nat} {v : Ipld} {x : List Nat × Ipld},
    x ∈ mapInsert k v m → x = (k, v) ∨ x ∈ m := by
  intro m
  induction m with
  | nil =>
    intro k v x hx
    simpa [mapInsert] using hx
  | cons e rest ih =>
    intro k v x hx
    obtain ⟨k', v'⟩ := e
    unfold mapInsert at hx
    split_ifs at hx with h1 h2
    · simp only [List.mem_cons] at hx
      rcases hx with hx | hx | hx
      · exact Or.inl hx
      · exact Or.inr (by simp [hx])
      · exact Or.inr (List.mem_cons_of_mem _ hx)
    · simp only [List.mem_cons] at hx
      rcases hx with hx | hx
      · exact Or.inl hx
      · exact Or.inr (List.mem_cons_of_mem _ hx)
    · simp only [List.mem_cons] at hx
      rcases hx with hx | hx
      · exact Or.inr (by simp [hx])
      · rcases ih hx with h | h
        · exact Or.inl h
        · exact Or.inr (List.mem_cons_of_mem _ h)

/-- `BTreeMap::insert` keeps the strict key order. -/
theorem mapInsert_pairwise {m : List (List Nat × Ipld)}
    {k : List Nat} {v : Ipld}
    (hm : m.Pairwise (fun a b => bytesLt a.1 b.1 = true)) :
    (mapInsert k v m).Pairwise (fun a b => bytesLt a.1 b.1 = true) := by
  induction m with
  | nil => simp [mapInsert]
  | cons e rest ih =>
    obtain ⟨k', v'⟩ := e
    rw [List.pairwise_cons] at hm
    obtain ⟨hk', hrest⟩ := hm
    unfold mapInsert
    split_ifs with h1 h2
    · rw [List.pairwise_cons]
      refine ⟨?_, List.pairwise_cons.mpr ⟨hk', hrest⟩⟩
      intro x hx
      simp only [List.mem_cons] at hx
      rcases hx with hx | hx
      · simpa [hx] using h1
      · exact bytesLt_trans h1 (hk' x hx)
    · rw [List.pairwise_cons]
      refine ⟨?_, hrest⟩
      intro x hx
      have := hk' x hx
      simpa [h2] using this
    · rw [List.pairwise_cons]
      refine ⟨?_, ih hrest⟩
      intro x hx
      rcases mapInsert_mem hx with hx' | hx'
      · rcases bytesLt_trichotomy k' k with h | h | h
        · simpa [hx'] using h
        · exact absurd h.symm h2
        · exact absurd h (by simp [h1])
      · exact hk' x hx'

/-- Inserting a fresh key is, up to permutation, consing the entry. -/
theorem mapInsert_perm_fresh : ∀ {m : List (List Nat × Ipld)}
    {k : List Nat} {v : Ipld}, k ∉ m.map Prod.fst →
    List.Perm (mapInsert k v m) ((k, v) :: m) := by
  intro m
  induction m with
  | nil => intro k v _; simp [mapInsert]
  | cons e rest ih =>
    intro k v hk
    obtain ⟨k', v'⟩ := e
    simp only [List.map_cons, List.mem_cons] at hk
    push_neg at hk
    unfold mapInsert
    split_ifs with h1 h2
    · exact List.Perm.refl _
    · exact absurd h2 hk.1
    · exact (List.Perm.cons _ (ih hk.2)).trans
        (List.Perm.swap (k, v) (k', v') rest)

theorem pairwise_keys_nodup {m : List (List Nat × Ipld)}
    (hm : m.Pairwise (fun a b => bytesLt a.1 b.1 = true)) :
    (m.map Prod.fst).Nodup :=
  List.pairwise_map.mpr (hm.imp fun h => bytesLt_ne h)

/-- Folding `BTreeMap::insert` over entries with globally fresh keys is, up
to permutation, appending them. -/
theorem foldl_mapInsert_perm : ∀ (es acc : List (List Nat × Ipld)),
    ((acc ++ es).map Prod.fst).Nodup →
    List.Perm (List.foldl (fun a kv => mapInsert kv.1 kv.2 a) acc es)
      (acc ++ es) := by
  intro es
  induction es with
  | nil => intro acc _; simp
  | cons e es ih =>
    intro acc hno
    rw [List.foldl_cons]
    have hfresh : e.1 ∉ acc.map Prod.fst := by
      intro hmem
      have hd := List.disjoint_of_nodup_append (by simpa using hno)
      exact hd hmem (by simp)
    have hperm1 : List.Perm (mapInsert e.1 e.2 acc) (e :: acc) :=
      mapInsert_perm_fresh hfresh
    have hmapperm : List.Perm ((mapInsert e.1 e.2 acc ++ es).map Prod.fst)
        ((acc ++ e :: es).map Prod.fst) := by
      refine List.Perm.map _ ?_
      exact (hperm1.append_right es).trans
        (show List.Perm (e :: (acc ++ es)) (acc ++ e :: es) from
          List.perm_middle.symm)
    have hno2 : ((mapInsert e.1 e.2 acc ++ es).map Prod.fst).Nodup :=
      (hmapperm.nodup_iff).mpr (by simpa using hno)
    have := ih (mapInsert e.1 e.2 acc) hno2
    refine this.trans ?_
    exact (hperm1.append_right es).trans
      (show List.Perm (e :: (acc ++ es)) (acc ++ e :: es) from
        List.perm_middle.symm)

/-- Folding `BTreeMap::insert` keeps the strict key order. -/
theorem foldl_mapInsert_pairwise : ∀ (es acc : List (List Nat × Ipld)),
    acc.Pairwise (fun a b => bytesLt a.1 b.1 = true) →
    (List.foldl (fun a kv => mapInsert kv.1 kv.2 a) acc es).Pairwise
      (fun a b => bytesLt a.1 b.1 = true) := by
  intro es
  induction es with
  | nil => intro acc h; simpa using h
  | cons e es ih =>
    intro acc h
    rw [List.foldl_cons]
    exact ih _ (mapInsert_pairwise h)

/-- Folding `BTreeMap::insert` over any permutation of a strictly sorted
entry list rebuilds exactly that list: the decoder's map accumulation undoes
the encoder's canonical reordering. -/
theorem foldl_mapInsert_of_perm_sorted {es m : List (List Nat × Ipld)}
    (hperm : List.Perm es m)
    (hm : m.Pairwise (fun a b => bytesLt a.1 b.1 = true)) :
    List.foldl (fun a kv => mapInsert kv.1 kv.2 a) [] es = m := by
  have hnodup_m : (m.map Prod.fst).Nodup := pairwise_keys_nodup hm
  have hnodup_es : (es.map Prod.fst).Nodup :=
    ((hperm.map Prod.fst).nodup_iff).mpr hnodup_m
  have hp := foldl_mapInsert_perm es [] (by simpa using hnodup_es)
  have hpw := foldl_mapInsert_pairwise es [] (by simp)
  have hptot : List.Perm
      (List.foldl (fun a kv => mapInsert kv.1 kv.2 a) [] es) m :=
    hp.trans ((List.nil_append es) ▸ hperm)
  haveI : IsAntisymm (List Nat × Ipld)
      (fun a b => bytesLt a.1 b.1 = true) := by
    refine ⟨fun a b hab hba => ?_⟩
    have := bytesLt_asymm hab
    rw [this] at hba
    exact absurd hba (by simp)
  exact List.eq_of_perm_of_sorted hptot hpw hm

/-- `wfEntries` makes the entry list strictly sorted pairwise. -/
theorem wfEntries_pairwise : ∀ {m : List (List Nat × Ipld)},
    wfEntries m = true →
    m.Pairwise (fun a b => bytesLt a.1 b.1 = true) := by
  intro m
  induction m with
  | nil => simp
  | cons e rest ih =>
    intro h
    obtain ⟨k, v⟩ := e
    simp only [wfEntries, Bool.and_eq_true] at h
    obtain ⟨⟨⟨⟨hu, hl⟩, hw⟩, hadj⟩, hrest⟩ := h
    have hpw := ih hrest
    rw [List.pairwise_cons]
    refine ⟨?_, hpw⟩
    intro x hx
    cases rest with
    | nil => simp at hx
    | cons e2 rest2 =>
      obtain ⟨k2, v2⟩ := e2
      simp only [List.mem_cons] at hx
      rcases hx with hx | hx
      · rw [hx]
        exact hadj
      · exact bytesLt_trans hadj ((List.pairwise_cons.mp hpw).1 x hx)

/-! ## Member-wise consequences of the structural predicates -/

theorem wfSeq_mem : ∀ {l : List Ipld} {x : Ipld}, wfSeq l = true → x ∈ l →
    wfIpld x = true := by
  intro l
  induction l with
  | nil => intro x _ hx; simp at hx
  | cons y ys ih =>
    intro x h hx
    simp only [wfSeq, Bool.and_eq_true] at h
    simp only [List.mem_cons] at hx
    rcases hx with hx | hx
    · rw [hx]; exact h.1
    · exact ih h.2 hx

theorem floatsFiniteSeq_mem : ∀ {l : List Ipld} {x : Ipld},
    floatsFiniteSeq l = true → x ∈ l → floatsFinite x = true := by
  intro l
  induction l with
  | nil => intro x _ hx; simp at hx
  | cons y ys ih =>
    intro x h hx
    simp only [floatsFiniteSeq, Bool.and_eq_true] at h
    simp only [List.mem_cons] at hx
    rcases hx with hx | hx
    · rw [hx]; exact h.1
    · exact ih h.2 hx

theorem cidsSizedSeq_mem : ∀ {l : List Ipld} {x : Ipld},
    cidsSizedSeq l = true → x ∈ l → cidsSized x = true := by
  intro l
  induction l with
  | nil => intro x _ hx; simp at hx
  | cons y ys ih =>
    intro x h hx
    simp only [cidsSizedSeq, Bool.and_eq_true] at h
    simp only [List.mem_cons] at hx
    rcases hx with hx | hx
    · rw [hx]; exact h.1
    · exact ih h.2 hx

theorem ipldFuelSeq_le : ∀ {l : List Ipld} {x : Ipld}, x ∈ l →
    ipldFuel x ≤ ipldFuelSeq l := by
  intro l
  induction l with
  | nil => intro x hx; simp at hx
  | cons y ys ih =>
    intro x hx
    simp only [List.mem_cons] at hx
    rw [ipldFuelSeq]
    rcases hx with hx | hx
    · rw [hx]; exact le_max_left _ _
    · exact le_trans (ih hx) (le_max_right _ _)

theorem wfEntries_mem : ∀ {m : List (List Nat × Ipld)}
    {kv : List Nat × Ipld}, wfEntries m = true → kv ∈ m →
    validUtf8 kv.1 = true ∧ kv.1.length < 2 ^ 64 ∧ wfIpld kv.2 = true := by
  intro m
  induction m with
  | nil => intro kv _ hkv; simp at hkv
  | cons e rest ih =>
    intro kv h hkv
    obtain ⟨k, v⟩ := e
    simp only [wfEntries, Bool.and_eq_true] at h
    obtain ⟨⟨⟨⟨hu, hl⟩, hw⟩, _⟩, hrest⟩ := h
    simp only [List.mem_cons] at hkv
    rcases hkv with hkv | hkv
    · rw [hkv]
      exact ⟨hu, by simpa using hl, hw⟩
    · exact ih hrest hkv

theorem floatsFiniteEntries_mem : ∀ {m : List (List Nat × Ipld)}
    {kv : List Nat × Ipld}, floatsFiniteEntries m = true → kv ∈ m →
    floatsFinite kv.2 = true := by
  intro m
  induction m with
  | nil => intro kv _ hkv; simp at hkv
  | cons e rest ih =>
    intro kv h hkv
    obtain ⟨k, v⟩ := e
    simp only [floatsFiniteEntries, Bool.and_eq_true] at h
    simp only [List.mem_cons] at hkv
    rcases hkv with hkv | hkv
    · rw [hkv]; exact h.1
    · exact ih h.2 hkv

theorem cidsSizedEntries_mem : ∀ {m : List (List Nat × Ipld)}
    {kv : List Nat × Ipld}, cidsSizedEntries m = true → kv ∈ m →
    cidsSized kv.2 = true := by
  intro m
  induction m with
  | nil => intro kv _ hkv; simp at hkv
  | cons e rest ih =>
    intro kv h hkv
    obtain ⟨k, v⟩ := e
    simp only [cidsSizedEntries, Bool.and_eq_true] at h
    simp only [List.mem_cons] at hkv
    rcases hkv with hkv | hkv
    · rw [hkv]; exact h.1
    · exact ih h.2 hkv

theorem ipldFuelEntries_le : ∀ {m : List (List Nat × Ipld)}
    {kv : List Nat × Ipld}, kv ∈ m → ipldFuel kv.2 ≤ ipldFuelEntries m := by
  intro m
  induction m with
  | nil => intro kv hkv; simp at hkv
  | cons e rest ih =>
    intro kv hkv
    obtain ⟨k, v⟩ := e
    simp only [List.mem_cons] at hkv
    rw [ipldFuelEntries]
    rcases hkv with hkv | hkv
    · rw [hkv]; exact le_max_left _ _
    · exact le_trans (ih hkv) (le_max_right _ _)

theorem ipldFuel_pos (v : Ipld) : 1 ≤ ipldFuel v := by
  cases v <;> simp [ipldFuel]

/-- `String::decode` over what the string encoder wrote. -/
theorem decodeString_of_emitStr {I t s : List Nat} {p : Nat}
    (hu : validUtf8 s = true) (hlen : s.length < 2 ^ 64)
    (hd : I.drop p = emitStr s ++ t) :
    decodeString ⟨I, p⟩ = .ok (s, ⟨I, p + (emitStr s).length⟩) := by
  have hd' : I.drop p = header64 3 s.length ++ (s ++ t) := by
    simpa [emitStr, List.append_assoc] using hd
  obtain ⟨b, tl, hh, hb1, hb2, hread, hrl⟩ := readLen_of_header hlen hd'
  have hrl' : readLen ⟨I, p + 1⟩ (b - 0x60) =
      .ok (s.length, ⟨I, p + (header64 3 s.length).length⟩) := by
    have e : b - 3 * 32 = b - 0x60 := by norm_num
    rwa [e] at hrl
  have hd2 : I.drop (p + (header64 3 s.length).length) = s ++ t :=
    drop_append_of_drop hd'
  have h3 := readStr_of_drop hd2 hu
  unfold decodeString
  rw [hread, bindE_ok]
  dsimp only
  rw [if_pos (by omega : 0x60 ≤ b ∧ b ≤ 0x7b), hrl', bindE_ok]
  dsimp only
  rw [h3]
  simp [emitStr, List.length_append, Nat.add_assoc]

/-- The decoder reads back exactly what the encoder wrote: mutual strong
induction for values, list elements and map entries. The fuel bounds the
nesting depth; floats must be finite (the half-precision specials have no
decode path) and links must take 23 to 254 bytes (`read_link` demands the
one-byte-length form). -/
theorem decode_emit_all : ∀ n : Nat,
    (∀ v : Ipld, sizeOf v ≤ n → wfIpld v = true → floatsFinite v = true →
      cidsSized v = true → ∀ f : Nat, ipldFuel v ≤ f →
      ∀ (I t : List Nat) (p : Nat), I.drop p = emit v ++ t →
      decodeIpld f ⟨I, p⟩ = .ok (v, ⟨I, p + (emit v).length⟩)) ∧
    (∀ l : List Ipld, sizeOf l ≤ n → ∀ f : Nat,
      (∀ x ∈ l, wfIpld x = true ∧ floatsFinite x = true ∧
        cidsSized x = true ∧ ipldFuel x ≤ f) →
      ∀ (I t : List Nat) (p : Nat), I.drop p = emitSeq l ++ t →
      readListN (fun r => decodeIpld f r) l.length ⟨I, p⟩ =
        .ok (l, ⟨I, p + (emitSeq l).length⟩)) ∧
    (∀ es : List (List Nat × Ipld), sizeOf es ≤ n → ∀ f : Nat,
      (∀ kv ∈ es, validUtf8 kv.1 = true ∧ kv.1.length < 2 ^ 64 ∧
        wfIpld kv.2 = true ∧ floatsFinite kv.2 = true ∧
        cidsSized kv.2 = true ∧ ipldFuel kv.2 ≤ f) →
      ∀ (acc : List (List Nat × Ipld)) (I t : List Nat) (p : Nat),
      I.drop p = emitEntries es ++ t →
      readMapN (fun r => decodeIpld f r) es.length acc ⟨I, p⟩ =
        .ok (List.foldl (fun a kv => mapInsert kv.1 kv.2 a) acc es,
          ⟨I, p + (emitEntries es).length⟩)) := by
  intro n
  induction n with
  | zero =>
    refine ⟨fun v hv => ?_, fun l hl => ?_, fun es hes => ?_⟩
    · exact absurd hv (by cases v <;> simp)
    · exact absurd hl (by cases l <;> simp)
    · exact absurd hes (by cases es <;> simp)
  | succ n ih =>
    obtain ⟨ihV, ihL, ihE⟩ := ih
    refine ⟨fun v hv hwf hff hcs f hfuel I t p hd => ?_,
      fun l hl f hcond I t p hd => ?_,
      fun es hes f hcond acc I t p hd => ?_⟩
    · have hf1 : 1 ≤ f := le_trans (ipldFuel_pos v) hfuel
      obtain ⟨f', rfl⟩ : ∃ f', f = f' + 1 := ⟨f - 1, by omega⟩
      rw [decodeIpld_succ]
      cases v with
      | null =>
        have h := readU8_of_drop (show I.drop p = 0xf6 :: t by
          simpa [emit] using hd)
        rw [decodeStep_null _ _ h (Or.inl rfl)]
        simp [emit]
      | bool b =>
        cases b with
        | false =>
          have h := readU8_of_drop (show I.drop p = 0xf4 :: t by
            simpa [emit] using hd)
          rw [decodeStep_bool_false _ _ h rfl]
          simp [emit]
        | true =>
          have h := readU8_of_drop (show I.drop p = 0xf5 :: t by
            simpa [emit] using hd)
          rw [decodeStep_bool_true _ _ h rfl]
          simp [emit]
      | integer i =>
        have hr : -(2 ^ 64 : Int) ≤ i ∧ i ≤ 2 ^ 64 - 1 := by
          simpa [wfIpld] using hwf
        rw [decode_of_emit_integer _ _ hr.1 hr.2 (by simpa [emit] using hd)]
        simp [emit]
      | float bits =>
        have hb64 : bits < 2 ^ 64 := by simpa [wfIpld] using hwf
        have hfin : isFinite64 bits = true := by
          simpa [floatsFinite] using hff
        rw [decode_of_emitF64 _ _ hfin hb64 (by simpa [emit] using hd)]
        simp [emit]
      | string s =>
        have hws : validUtf8 s = true ∧ s.length < 2 ^ 64 := by
          simpa [wfIpld] using hwf
        rw [decode_of_emitStr _ _ hws.1 hws.2 (by simpa [emit] using hd)]
        simp [emit]
      | bytes b =>
        have hlen : b.length < 2 ^ 64 := by simpa [wfIpld] using hwf
        rw [decode_of_emit_bytes _ _ hlen (by simpa [emit] using hd)]
        simp [emit]
      | link cid =>
        have hws : cidWf cid = true ∧ cid.length + 1 < 2 ^ 64 := by
          simpa [wfIpld] using hwf
        have hsz : 23 ≤ cid.length ∧ cid.length ≤ 254 := by
          simpa [cidsSized] using hcs
        rw [decode_of_emitCid _ _ hws.1 hsz (by simpa [emit] using hd)]
        simp [emit]
      | list l =>
        have hwl : l.length < 2 ^ 64 ∧ wfSeq l = true := by
          simpa [wfIpld] using hwf
        have hd' : I.drop p = header64 4 l.length ++ (emitSeq l ++ t) := by
          simpa [emit, List.append_assoc] using hd
        obtain ⟨b, tl, hh, hb1, hb2, hread, hrl⟩ :=
          readLen_of_header hwl.1 hd'
        have hrl' : readLen ⟨I, p + 1⟩ (b - 0x80) =
            .ok (l.length, ⟨I, p + (header64 4 l.length).length⟩) := by
          have e : b - 4 * 32 = b - 0x80 := by norm_num
          rw [e] at hrl
          exact hrl
        have hd2 : I.drop (p + (header64 4 l.length).length) =
            emitSeq l ++ t := drop_append_of_drop hd'
        have hsz : sizeOf l ≤ n := by simp at hv; omega
        have hfs : ipldFuelSeq l ≤ f' := by
          have : ipldFuel (.list l) = ipldFuelSeq l + 1 := by rw [ipldFuel]
          omega
        have hcond : ∀ x ∈ l, wfIpld x = true ∧ floatsFinite x = true ∧
            cidsSized x = true ∧ ipldFuel x ≤ f' := by
          intro x hx
          refine ⟨wfSeq_mem hwl.2 hx, ?_, ?_, ?_⟩
          · exact floatsFiniteSeq_mem (by simpa [floatsFinite] using hff) hx
          · exact cidsSizedSeq_mem (by simpa [cidsSized] using hcs) hx
          · exact le_trans (ipldFuelSeq_le hx) hfs
        have h3 := ihL l hsz f' hcond I t _ hd2
        rw [decodeStep_list _ _ hread (by omega) hrl' h3]
        simp [emit, List.length_append, Nat.add_assoc]
      | map m =>
        have hwm : m.length < 2 ^ 64 ∧ wfEntries m = true := by
          simpa [wfIpld] using hwf
        have hd' : I.drop p = header64 5 m.length ++
            (emitEntries (sortEntries m) ++ t) := by
          simpa [emit, List.append_assoc] using hd
        obtain ⟨b, tl, hh, hb1, hb2, hread, hrl⟩ :=
          readLen_of_header hwm.1 hd'
        have hrl' : readLen ⟨I, p + 1⟩ (b - 0xa0) =
            .ok (m.length, ⟨I, p + (header64 5 m.length).length⟩) := by
          have e : b - 5 * 32 = b - 0xa0 := by norm_num
          rw [e] at hrl
          exact hrl
        have hd2 : I.drop (p + (header64 5 m.length).length) =
            emitEntries (sortEntries m) ++ t := drop_append_of_drop hd'
        have hperm : List.Perm (sortEntries m) m := by
          simpa [sortEntries] using List.perm_insertionSort keyLe m
        have hsz : sizeOf (sortEntries m) ≤ n := by
          have hpe := hperm.sizeOf_eq_sizeOf
          simp at hv
          omega
        have hfe : ipldFuelEntries m ≤ f' := by
          have : ipldFuel (.map m) = ipldFuelEntries m + 1 := by
            rw [ipldFuel]
          omega
        have hcond : ∀ kv ∈ sortEntries m, validUtf8 kv.1 = true ∧
            kv.1.length < 2 ^ 64 ∧ wfIpld kv.2 = true ∧
            floatsFinite kv.2 = true ∧ cidsSized kv.2 = true ∧
            ipldFuel kv.2 ≤ f' := by
          intro kv hkv
          have hkm : kv ∈ m := hperm.mem_iff.mp hkv
          obtain ⟨h1, h2, h3⟩ := wfEntries_mem hwm.2 hkm
          refine ⟨h1, h2, h3, ?_, ?_, ?_⟩
          · exact floatsFiniteEntries_mem
              (by simpa [floatsFinite] using hff) hkm
          · exact cidsSizedEntries_mem (by simpa [cidsSized] using hcs) hkm
          · exact le_trans (ipldFuelEntries_le hkm) hfe
        have h3 := ihE (sortEntries m) hsz f' hcond [] I t _ hd2
        have hleq : (sortEntries m).length = m.length := hperm.length_eq
        have hfold : List.foldl (fun a kv => mapInsert kv.1 kv.2 a) []
            (sortEntries m) = m :=
          foldl_mapInsert_of_perm_sorted hperm (wfEntries_pairwise hwm.2)
        rw [hleq, hfold] at h3
        rw [decodeStep_map _ _ hread (by omega) hrl' h3]
        simp [emit, List.length_append, Nat.add_assoc]
    · cases l with
      | nil =>
        simp only [List.length_nil, readListN]
        simp [emitSeq]
      | cons x xs =>
        have hx := hcond x (by simp)
        have hd' : I.drop p = emit x ++ (emitSeq xs ++ t) := by
          simpa [emitSeq, List.append_assoc] using hd
        have hszx : sizeOf x ≤ n := by simp at hl; omega
        have hszxs : sizeOf xs ≤ n := by simp at hl; omega
        have h1 := ihV x hszx hx.1 hx.2.1 hx.2.2.1 f hx.2.2.2 I _ p hd'
        have hd2 : I.drop (p + (emit x).length) = emitSeq xs ++ t :=
          drop_append_of_drop hd'
        have h2 := ihL xs hszxs f (fun y hy => hcond y (by simp [hy])) I t _
          hd2
        simp only [List.length_cons, readListN]
        rw [h1, bindE_ok]
        dsimp only
        rw [h2, bindE_ok]
        dsimp only
        simp [emitSeq, List.length_append, Nat.add_assoc]
    · cases es with
      | nil =>
        simp only [List.length_nil, readMapN]
        simp [emitEntries]
      | cons kv rest =>
        obtain ⟨k, v⟩ := kv
        have hkv := hcond (k, v) (by simp)
        have hd' : I.drop p =
            emitStr k ++ (emit v ++ (emitEntries rest ++ t)) := by
          simpa [emitEntries, List.append_assoc] using hd
        have h1 := decodeString_of_emitStr hkv.1 hkv.2.1 hd'
        have hd2 : I.drop (p + (emitStr k).length) =
            emit v ++ (emitEntries rest ++ t) := drop_append_of_drop hd'
        have hszv : sizeOf v ≤ n := by simp at hes; omega
        have hszr : sizeOf rest ≤ n := by simp at hes; omega
        have h2 := ihV v hszv hkv.2.2.1 hkv.2.2.2.1 hkv.2.2.2.2.1 f
          hkv.2.2.2.2.2 I _ _ hd2
        have hd3 : I.drop (p + (emitStr k).length + (emit v).length) =
            emitEntries rest ++ t := drop_append_of_drop hd2
        have h3 := ihE rest hszr f (fun y hy => hcond y (by simp [hy]))
          (mapInsert k v acc) I t _ hd3
        simp only [List.length_cons, readMapN]
        rw [h1, bindE_ok]
        dsimp only
        rw [h2, bindE_ok]
        dsimp only
        rw [h3]
        simp [emitEntries, List.length_append, Nat.add_assoc,
          List.foldl_cons]

/-! ## Fuel sufficiency: the encoding is at least as long as the depth -/

theorem header64_length_pos (M n : Nat) : 1 ≤ (header64 M n).length := by
  unfold header64
  split_ifs <;> simp [beBytes_length]

theorem emit_length_pos (v : Ipld) : 1 ≤ (emit v).length := by
  cases v with
  | null => simp [emit]
  | bool b => cases b <;> simp [emit]
  | integer i =>
    simp only [emit, emitInt]
    split_ifs <;> exact header64_length_pos _ _
  | float bits =>
    simp only [emit, emitF64, emitF32]
    split_ifs <;> simp [beBytes_length]
  | string s => simp [emit, emitStr]; have := header64_length_pos 3 s.length; omega
  | bytes b => simp [emit]; have := header64_length_pos 2 b.length; omega
  | list l => simp [emit]; have := header64_length_pos 4 l.length; omega
  | map m => simp [emit]; have := header64_length_pos 5 m.length; omega
  | link cid => simp [emit, emitCid]; have := header64_length_pos 6 42; omega

theorem ipldFuelEntries_perm : ∀ {l l' : List (List Nat × Ipld)},
    List.Perm l l' → ipldFuelEntries l = ipldFuelEntries l' := by
  intro l l' h
  induction h with
  | nil => rfl
  | cons x h ih =>
    obtain ⟨k, v⟩ := x
    simp [ipldFuelEntries, ih]
  | swap x y l =>
    obtain ⟨k1, v1⟩ := x
    obtain ⟨k2, v2⟩ := y
    simp only [ipldFuelEntries]
    rw [← Nat.max_assoc, ← Nat.max_assoc, Nat.max_comm (ipldFuel v1)]
  | trans h1 h2 ih1 ih2 => exact ih1.trans ih2

/-- The nesting depth of a value never exceeds the length of its encoding,
so `bytes.length + 1` fuel suffices for the decoder. -/
theorem ipldFuel_le_emit : ∀ n : Nat,
    (∀ v : Ipld, sizeOf v ≤ n → ipldFuel v ≤ (emit v).length) ∧
    (∀ l : List Ipld, sizeOf l ≤ n → ipldFuelSeq l ≤ (emitSeq l).length) ∧
    (∀ es : List (List Nat × Ipld), sizeOf es ≤ n →
      ipldFuelEntries es ≤ (emitEntries es).length) := by
  intro n
  induction n with
  | zero =>
    refine ⟨fun v hv => ?_, fun l hl => ?_, fun es hes => ?_⟩
    · exact absurd hv (by cases v <;> simp)
    · exact absurd hl (by cases l <;> simp)
    · exact absurd hes (by cases es <;> simp)
  | succ n ih =>
    obtain ⟨ihV, ihL, ihE⟩ := ih
    refine ⟨fun v hv => ?_, fun l hl => ?_, fun es hes => ?_⟩
    · cases v with
      | list l =>
        have hsz : sizeOf l ≤ n := by simp at hv; omega
        have h1 := ihL l hsz
        have h2 := header64_length_pos 4 l.length
        simp only [emit, ipldFuel, List.length_append]
        omega
      | map m =>
        have hperm : List.Perm (sortEntries m) m := by
          simpa [sortEntries] using List.perm_insertionSort keyLe m
        have hsz : sizeOf (sortEntries m) ≤ n := by
          have hpe := hperm.sizeOf_eq_sizeOf
          simp at hv
          omega
        have h1 := ihE (sortEntries m) hsz
        have h2 := header64_length_pos 5 m.length
        have h3 := ipldFuelEntries_perm hperm
        simp only [emit, ipldFuel, List.length_append]
        omega
      | null => have := emit_length_pos .null; simp only [ipldFuel]; omega
      | bool b =>
        have := emit_length_pos (.bool b)
        simp only [ipldFuel]
        omega
      | integer i =>
        have := emit_length_pos (.integer i)
        simp only [ipldFuel]
        omega
      | float bits =>
        have := emit_length_pos (.float bits)
        simp only [ipldFuel]
        omega
      | string s =>
        have := emit_length_pos (.string s)
        simp only [ipldFuel]
        omega
      | bytes b =>
        have := emit_length_pos (.bytes b)
        simp only [ipldFuel]
        omega
      | link cid =>
        have := emit_length_pos (.link cid)
        simp only [ipldFuel]
        omega
    · cases l with
      | nil => simp [ipldFuelSeq]
      | cons x xs =>
        have h1 := ihV x (by simp at hl; omega)
        have h2 := ihL xs (by simp at hl; omega)
        simp only [ipldFuelSeq, emitSeq, List.length_append]
        omega
    · cases es with
      | nil => simp [ipldFuelEntries]
      | cons kv rest =>
        obtain ⟨k, v⟩ := kv
        have h1 := ihV v (by simp at hes; omega)
        have h2 := ihE rest (by simp at hes; omega)
        simp only [ipldFuelEntries, emitEntries, List.length_append]
        omega

theorem ipldFuel_le_emit_length (v : Ipld) : ipldFuel v ≤ (emit v).length :=
  (ipldFuel_le_emit (sizeOf v)).1 v le_rfl

/-! ## C1: round-trip identity -/

/-- Counterexample to C1 as stated: `Float(+∞)` is not NaN, yet its encoding
`f9 7c 00` (half-precision) has no decode path — the decoder accepts only
`0xfa`/`0xfb` floats — so `decode(encode(+∞))` fails rather than returning
the value. -/
theorem round_trip_identity_counterexample :
    dagCborEncode (.float 0x7FF0000000000000) = .ok [0xf9, 0x7c, 0x00] ∧
    dagCborDecode [0xf9, 0x7c, 0x00] =
      .error "Unexpected cbor code `0x249` when decoding Ipld." := by
  constructor
  · simp [dagCborEncode, encodeIpld, encodeF64, encodeF32, narrow, isNan64,
      isInf64, isFinite64, expf64, mant64, sign64, isInf32, isNan32,
      isSignPositive32, expf32, mant32, sign32,
      ByteCursor.writeAll, ByteCursor.write, ByteCursor.new, usizeMax,
      Except.map, bind, Except.bind]
  · rfl

/-- Amended C1: a well-formed value — floats all finite (the non-finite
specials are written in half-precision, which the decoder rejects) and link
identifiers of 23 to 254 bytes (so their byte strings take the `0x58` form
`read_link` demands) — decodes from its own encoding back to exactly
itself. -/
theorem round_trip_identity (v : Ipld) (hwf : wfIpld v = true)
    (hff : floatsFinite v = true) (hcs : cidsSized v = true)
    (bs : List Nat) (henc : dagCborEncode v = .ok bs) :
    dagCborDecode bs = .ok v := by
  have hbs : bs = emit v := by
    unfold dagCborEncode at henc
    cases he : encodeIpld v (ByteCursor.new []) with
    | error e =>
      rw [he] at henc
      exact absurd henc (by simp [Except.map])
    | ok c =>
      rw [he] at henc
      have hc := encodeIpld_ok
        (show (ByteCursor.new []).pos = (ByteCursor.new []).inner.length
          from rfl) he
      simp only [Except.map, Except.ok.injEq] at henc
      rw [← henc, hc]
      simp [ByteCursor.new]
  subst hbs
  unfold dagCborDecode
  have hfuel : ipldFuel v ≤ (emit v).length + 1 :=
    le_trans (ipldFuel_le_emit_length v) (by omega)
  have h := (decode_emit_all (sizeOf v)).1 v le_rfl hwf hff hcs
    ((emit v).length + 1) hfuel (emit v) [] 0 (by simp)
  rw [show ByteCursor.new (emit v) = ⟨emit v, 0⟩ from rfl, h]
  simp [Except.map]

/-- Witness for `round_trip_identity` at the list `[1, null]`. -/
theorem round_trip_identity_witness :
    dagCborEncode (.list [.integer 1, .null]) = .ok [0x82, 0x01, 0xf6] ∧
    dagCborDecode [0x82, 0x01, 0xf6] = .ok (.list [.integer 1, .null]) := by
  have henc : dagCborEncode (.list [.integer 1, .null]) =
      .ok [0x82, 0x01, 0xf6] := by
    simp [dagCborEncode, encodeIpld, encodeSeq, encodeI128, writeNull,
      writeU64, writeU32, writeU16, writeU8, ByteCursor.writeAll,
      ByteCursor.write, ByteCursor.new, usizeMax, Except.map, bind,
      Except.bind]
  refine ⟨henc, round_trip_identity _ ?_ ?_ ?_ _ henc⟩
  · simp [wfIpld, wfSeq]
  · simp [floatsFinite, floatsFiniteSeq]
  · simp [cidsSized, cidsSizedSeq]

/-! ## Skipper lemmas -/

theorem seek_current_to {c : ByteCursor} {n : Int} {q : Nat}
    (hq : (c.pos : Int) + n = q) (hlt : q < 2 ^ 64) :
    c.seek (.current n) = .ok (q, ⟨c.inner, q⟩) := by
  simp only [ByteCursor.seek]
  rw [if_pos (by constructor <;> omega)]
  have h2 : ((c.pos : Int) + n).toNat = q := by omega
  rw [h2]

set_option maxRecDepth 4096 in
theorem skipStep_imm (skp : ByteCursor → Except String ByteCursor) (lf : Nat)
    {I t : List Nat} {p b : Nat} (hd : I.drop p = b :: t)
    (hb : b ≤ 0x17 ∨ (0x20 ≤ b ∧ b ≤ 0x37) ∨ (0xf4 ≤ b ∧ b ≤ 0xf7)) :
    skipStep skp lf ⟨I, p⟩ = .ok ⟨I, p + 1⟩ := by
  unfold skipStep
  rw [readU8_of_drop hd, bindE_ok]
  dsimp only
  rw [if_pos hb]

set_option maxRecDepth 4096 in
theorem skipStep_seek1 (skp : ByteCursor → Except String ByteCursor)
    (lf : Nat) {I t : List Nat} {p b : Nat} (hd : I.drop p = b :: t)
    (hb : b = 0x18 ∨ b = 0x38 ∨ b = 0xf8) (hlt : p + 2 < 2 ^ 64) :
    skipStep skp lf ⟨I, p⟩ = .ok ⟨I, p + 2⟩ := by
  unfold skipStep
  rw [readU8_of_drop hd, bindE_ok]
  dsimp only
  rw [if_neg (by first | omega), if_pos hb,
    seek_current_to (c := ⟨I, p + 1⟩) (by push_cast; omega) hlt, bindE_ok]

set_option maxRecDepth 4096 in
theorem skipStep_seek2 (skp : ByteCursor → Except String ByteCursor)
    (lf : Nat) {I t : List Nat} {p b : Nat} (hd : I.drop p = b :: t)
    (hb : b = 0x19 ∨ b = 0x39 ∨ b = 0xf9) (hlt : p + 3 < 2 ^ 64) :
    skipStep skp lf ⟨I, p⟩ = .ok ⟨I, p + 3⟩ := by
  unfold skipStep
  rw [readU8_of_drop hd, bindE_ok]
  dsimp only
  rw [if_neg (by first | omega), if_neg (by first | omega), if_pos hb,
    seek_current_to (c := ⟨I, p + 1⟩) (by push_cast; omega) hlt, bindE_ok]

set_option maxRecDepth 4096 in
theorem skipStep_seek4 (skp : ByteCursor → Except String ByteCursor)
    (lf : Nat) {I t : List Nat} {p b : Nat} (hd : I.drop p = b :: t)
    (hb : b = 0x1a ∨ b = 0x3a ∨ b = 0xfa) (hlt : p + 5 < 2 ^ 64) :
    skipStep skp lf ⟨I, p⟩ = .ok ⟨I, p + 5⟩ := by
  unfold skipStep
  rw [readU8_of_drop hd, bindE_ok]
  dsimp only
  rw [if_neg (by first | omega), if_neg (by first | omega), if_neg (by first | omega), if_pos hb,
    seek_current_to (c := ⟨I, p + 1⟩) (by push_cast; omega) hlt, bindE_ok]

set_option maxRecDepth 4096 in
theorem skipStep_seek8 (skp : ByteCursor → Except String ByteCursor)
    (lf : Nat) {I t : List Nat} {p b : Nat} (hd : I.drop p = b :: t)
    (hb : b = 0x1b ∨ b = 0x3b ∨ b = 0xfb) (hlt : p + 9 < 2 ^ 64) :
    skipStep skp lf ⟨I, p⟩ = .ok ⟨I, p + 9⟩ := by
  unfold skipStep
  rw [readU8_of_drop hd, bindE_ok]
  dsimp only
  rw [if_neg (by first | omega), if_neg (by first | omega), if_neg (by first | omega),
    if_neg (by first | omega), if_pos hb,
    seek_current_to (c := ⟨I, p + 1⟩) (by push_cast; omega) hlt, bindE_ok]

set_option maxRecDepth 4096 in
theorem skipStep_sized (skp : ByteCursor → Except String ByteCursor)
    (lf : Nat) {I s t : List Nat} {p M : Nat} (hM : M = 2 ∨ M = 3)
    (hlen : s.length < 2 ^ 64)
    (hbound : p + (header64 M s.length).length + s.length < 2 ^ 64)
    (hd : I.drop p = header64 M s.length ++ (s ++ t)) :
    skipStep skp lf ⟨I, p⟩ =
      .ok ⟨I, p + (header64 M s.length).length + s.length⟩ := by
  obtain ⟨b, tl, hh, hb1, hb2, hread, hrl⟩ := readLen_of_header hlen hd
  unfold skipStep
  rw [hread, bindE_ok]
  dsimp only
  rcases hM with hM | hM
  · subst hM
    rw [if_neg (by first | omega), if_neg (by first | omega), if_neg (by first | omega),
      if_neg (by first | omega), if_neg (by first | omega), if_pos (by omega)]
    have e : b - 2 * 32 = b - 0x40 := by norm_num
    rw [e] at hrl
    rw [hrl, bindE_ok]
    dsimp only
    rw [seek_current_to (c := ⟨I, p + (header64 2 s.length).length⟩)
      (by push_cast; omega) hbound, bindE_ok]
  · subst hM
    rw [if_neg (by first | omega), if_neg (by first | omega), if_neg (by first | omega),
      if_neg (by first | omega), if_neg (by first | omega), if_neg (by first | omega),
      if_pos (by omega)]
    have e : b - 3 * 32 = b - 0x60 := by norm_num
    rw [e] at hrl
    rw [hrl, bindE_ok]
    dsimp only
    rw [seek_current_to (c := ⟨I, p + (header64 3 s.length).length⟩)
      (by push_cast; omega) hbound, bindE_ok]

set_option maxRecDepth 4096 in
theorem skipStep_list (skp : ByteCursor → Except String ByteCursor)
    (lf : Nat) {I : List Nat} {p b len : Nat} {r2 : ByteCursor}
    {res : Except String ByteCursor}
    (h : readU8 ⟨I, p⟩ = .ok (b, ⟨I, p + 1⟩)) (hb : 0x80 ≤ b ∧ b ≤ 0x9b)
    (h2 : readLen ⟨I, p + 1⟩ (b - 0x80) = .ok (len, r2))
    (h3 : skipSeqN skp len r2 = res) :
    skipStep skp lf ⟨I, p⟩ = res := by
  unfold skipStep
  rw [h, bindE_ok]
  dsimp only
  rw [if_neg (by first | omega), if_neg (by first | omega), if_neg (by first | omega),
    if_neg (by first | omega), if_neg (by first | omega), if_neg (by first | omega),
    if_neg (by first | omega), if_pos hb, h2, bindE_ok]
  dsimp only
  exact h3

set_option maxRecDepth 4096 in
theorem skipStep_map (skp : ByteCursor → Except String ByteCursor)
    (lf : Nat) {I : List Nat} {p b len : Nat} {r2 : ByteCursor}
    {res : Except String ByteCursor}
    (h : readU8 ⟨I, p⟩ = .ok (b, ⟨I, p + 1⟩)) (hb : 0xa0 ≤ b ∧ b ≤ 0xbb)
    (h2 : readLen ⟨I, p + 1⟩ (b - 0xa0) = .ok (len, r2))
    (h3 : skipMapN skp len r2 = res) :
    skipStep skp lf ⟨I, p⟩ = res := by
  unfold skipStep
  rw [h, bindE_ok]
  dsimp only
  rw [if_neg (by first | omega), if_neg (by first | omega), if_neg (by first | omega),
    if_neg (by first | omega), if_neg (by first | omega), if_neg (by first | omega),
    if_neg (by first | omega), if_neg (by first | omega), if_neg (by first | omega),
    if_pos hb, h2, bindE_ok]
  dsimp only
  exact h3

set_option maxRecDepth 4096 in
theorem skipStep_tag (skp : ByteCursor → Except String ByteCursor)
    (lf : Nat) {I t : List Nat} {p b tag : Nat}
    (hd : I.drop p = b :: tag :: t) (hb : b = 0xd8) :
    skipStep skp lf ⟨I, p⟩ = skp ⟨I, p + 2⟩ := by
  have h2 : readU8 ⟨I, p + 1⟩ = .ok (tag, ⟨I, p + 2⟩) := by
    have hd2 : I.drop (p + 1) = tag :: t := by
      simpa using drop_append_of_drop (show I.drop p = [b] ++ (tag :: t) by simpa using hd)
    simpa [Nat.add_assoc] using readU8_of_drop hd2
  unfold skipStep
  rw [readU8_of_drop hd, bindE_ok]
  dsimp only
  rw [if_neg (by first | omega), if_neg (by first | omega), if_neg (by first | omega),
    if_neg (by first | omega), if_neg (by first | omega), if_neg (by first | omega),
    if_neg (by first | omega), if_neg (by first | omega), if_neg (by first | omega),
    if_neg (by first | omega), if_neg (by first | omega), if_pos hb, h2, bindE_ok]

set_option maxRecDepth 4096 in
theorem skipStep_of_emitF64 (skp : ByteCursor → Except String ByteCursor)
    (lf : Nat) {I t : List Nat} {p b : Nat}
    (hbound : p + (emitF64 b).length < 2 ^ 64)
    (hd : I.drop p = emitF64 b ++ t) :
    skipStep skp lf ⟨I, p⟩ = .ok ⟨I, p + (emitF64 b).length⟩ := by
  unfold emitF64 emitF32 at hbound hd ⊢
  split_ifs at hbound hd ⊢ with h1 h2 h3 h4
  · simp only [List.cons_append, List.nil_append] at hd
    rw [skipStep_seek2 skp lf hd (by omega) (by simpa using hbound)]
    norm_num
  · simp only [List.cons_append, List.nil_append] at hd
    rw [skipStep_seek2 skp lf hd (by omega) (by simpa using hbound)]
    norm_num
  · simp only [List.cons_append, List.nil_append] at hd
    rw [skipStep_seek2 skp lf hd (by omega) (by simpa using hbound)]
    norm_num
  · simp only [List.cons_append, List.nil_append] at hd
    rw [skipStep_seek4 skp lf hd (by omega)
      (by simpa [beBytes_length] using hbound)]
    simp [beBytes_length]
  · simp only [List.cons_append, List.nil_append] at hd
    rw [skipStep_seek8 skp lf hd (by omega)
      (by simpa [beBytes_length] using hbound)]
    simp [beBytes_length]

set_option maxRecDepth 4096 in
theorem skipStep_of_header01 (skp : ByteCursor → Except String ByteCursor)
    (lf : Nat) {I t : List Nat} {p M n : Nat} (hM : M ≤ 1)
    (hn : n < 2 ^ 64) (hbound : p + (header64 M n).length < 2 ^ 64)
    (hd : I.drop p = header64 M n ++ t) :
    skipStep skp lf ⟨I, p⟩ = .ok ⟨I, p + (header64 M n).length⟩ := by
  unfold header64 at hbound hd ⊢
  by_cases h1 : n ≤ 0x17
  · rw [if_pos h1] at hbound hd ⊢
    have hd' : I.drop p = (M * 32 + n) :: t := by simpa using hd
    rw [skipStep_imm skp lf hd' (by omega)]
    norm_num
  · rw [if_neg h1] at hbound hd ⊢
    by_cases h2 : n ≤ 0xff
    · rw [if_pos h2] at hbound hd ⊢
      have hd' : I.drop p = (M * 32 + 24) :: (n :: t) := by simpa using hd
      rw [skipStep_seek1 skp lf hd' (by omega) (by simpa using hbound)]
      norm_num
    · rw [if_neg h2] at hbound hd ⊢
      by_cases h3 : n ≤ 0xffff
      · rw [if_pos h3] at hbound hd ⊢
        have hd' : I.drop p = (M * 32 + 25) :: (beBytes 2 n ++ t) := by
          simpa using hd
        rw [skipStep_seek2 skp lf hd' (by omega)
          (by simpa [beBytes_length] using hbound)]
        simp [beBytes_length]
      · rw [if_neg h3] at hbound hd ⊢
        by_cases h4 : n ≤ 0xffffffff
        · rw [if_pos h4] at hbound hd ⊢
          have hd' : I.drop p = (M * 32 + 26) :: (beBytes 4 n ++ t) := by
            simpa using hd
          rw [skipStep_seek4 skp lf hd' (by omega)
            (by simpa [beBytes_length] using hbound)]
          simp [beBytes_length]
        · rw [if_neg h4] at hbound hd ⊢
          have hd' : I.drop p = (M * 32 + 27) :: (beBytes 8 n ++ t) := by
            simpa using hd
          rw [skipStep_seek8 skp lf hd' (by omega)
            (by simpa [beBytes_length] using hbound)]
          simp [beBytes_length]

theorem skipOne_succ (f : Nat) (r : ByteCursor) :
    skipOne (f + 1) r = skipStep (fun r' => skipOne f r') f r := rfl

/-- The skipper advances past exactly the bytes the encoder wrote: mutual
strong induction for values, list elements and map entries. Unlike
decoding, skipping needs neither finite floats (the half-precision specials
have a fixed-width skip path) nor sized links (the wrapped byte string is
skipped by its own header). -/
theorem skip_emit_all : ∀ n : Nat,
    (∀ v : Ipld, sizeOf v ≤ n → wfIpld v = true → ∀ f : Nat,
      ipldFuel v + 1 ≤ f → ∀ (I t : List Nat) (p : Nat),
      I.drop p = emit v ++ t → p + (emit v).length < 2 ^ 64 →
      skipOne f ⟨I, p⟩ = .ok ⟨I, p + (emit v).length⟩) ∧
    (∀ l : List Ipld, sizeOf l ≤ n → ∀ f : Nat,
      (∀ x ∈ l, wfIpld x = true ∧ ipldFuel x + 1 ≤ f) →
      ∀ (I t : List Nat) (p : Nat), I.drop p = emitSeq l ++ t →
      p + (emitSeq l).length < 2 ^ 64 →
      skipSeqN (fun r => skipOne f r) l.length ⟨I, p⟩ =
        .ok ⟨I, p + (emitSeq l).length⟩) ∧
    (∀ es : List (List Nat × Ipld), sizeOf es ≤ n → ∀ f : Nat, 1 ≤ f →
      (∀ kv ∈ es, kv.1.length < 2 ^ 64 ∧ wfIpld kv.2 = true ∧
        ipldFuel kv.2 + 1 ≤ f) →
      ∀ (I t : List Nat) (p : Nat), I.drop p = emitEntries es ++ t →
      p + (emitEntries es).length < 2 ^ 64 →
      skipMapN (fun r => skipOne f r) es.length ⟨I, p⟩ =
        .ok ⟨I, p + (emitEntries es).length⟩) := by
  intro n
  induction n with
  | zero =>
    refine ⟨fun v hv => ?_, fun l hl => ?_, fun es hes => ?_⟩
    · exact absurd hv (by cases v <;> simp)
    · exact absurd hl (by cases l <;> simp)
    · exact absurd hes (by cases es <;> simp)
  | succ n ih =>
    obtain ⟨ihV, ihL, ihE⟩ := ih
    refine ⟨fun v hv hwf f hfuel I t p hd hbound => ?_,
      fun l hl f hcond I t p hd hbound => ?_,
      fun es hes f hf1 hcond I t p hd hbound => ?_⟩
    · have hf2 : 2 ≤ f := le_trans (by have := ipldFuel_pos v; omega) hfuel
      obtain ⟨f', rfl⟩ : ∃ f', f = f' + 1 := ⟨f - 1, by omega⟩
      rw [skipOne_succ]
      cases v with
      | null =>
        have hd' : I.drop p = 0xf6 :: t := by simpa [emit] using hd
        rw [skipStep_imm _ _ hd' (by omega)]
        simp [emit]
      | bool b =>
        cases b with
        | false =>
          have hd' : I.drop p = 0xf4 :: t := by simpa [emit] using hd
          rw [skipStep_imm _ _ hd' (by omega)]
          simp [emit]
        | true =>
          have hd' : I.drop p = 0xf5 :: t := by simpa [emit] using hd
          rw [skipStep_imm _ _ hd' (by omega)]
          simp [emit]
      | integer i =>
        have hr : -(2 ^ 64 : Int) ≤ i ∧ i ≤ 2 ^ 64 - 1 := by
          simpa [wfIpld] using hwf
        simp only [emit, emitInt] at hd hbound ⊢
        split_ifs at hd hbound ⊢ with hneg
        · rw [skipStep_of_header01 _ _ (by omega) (by omega) hbound hd]
        · rw [skipStep_of_header01 _ _ (by omega) (by omega) hbound hd]
      | float bits =>
        simp only [emit] at hd hbound ⊢
        rw [skipStep_of_emitF64 _ _ hbound hd]
      | string s =>
        have hws : validUtf8 s = true ∧ s.length < 2 ^ 64 := by
          simpa [wfIpld] using hwf
        have hd' : I.drop p = header64 3 s.length ++ (s ++ t) := by
          simpa [emit, emitStr, List.append_assoc] using hd
        have hbound' : p + (header64 3 s.length).length + s.length <
            2 ^ 64 := by
          simp only [emit, emitStr, List.length_append] at hbound
          omega
        rw [skipStep_sized _ _ (Or.inr rfl) hws.2 hbound' hd']
        simp [emit, emitStr, List.length_append, Nat.add_assoc]
      | bytes bs =>
        have hlen : bs.length < 2 ^ 64 := by simpa [wfIpld] using hwf
        have hd' : I.drop p = header64 2 bs.length ++ (bs ++ t) := by
          simpa [emit, List.append_assoc] using hd
        have hbound' : p + (header64 2 bs.length).length + bs.length <
            2 ^ 64 := by
          simp only [emit, List.length_append] at hbound
          omega
        rw [skipStep_sized _ _ (Or.inl rfl) hlen hbound' hd']
        simp [emit, List.length_append, Nat.add_assoc]
      | link cid =>
        have hwl : cidWf cid = true ∧ cid.length + 1 < 2 ^ 64 := by
          simpa [wfIpld] using hwf
        have h642 : header64 6 42 = [0xd8, 0x2a] := by decide
        have hd' : I.drop p = 0xd8 :: 0x2a ::
            (header64 2 (cid.length + 1) ++ ((0 :: cid) ++ t)) := by
          simp only [emit, emitCid, h642] at hd
          simpa [List.append_assoc] using hd
        rw [skipStep_tag _ _ hd' rfl]
        obtain ⟨f'', rfl⟩ : ∃ f'', f' = f'' + 1 := ⟨f' - 1, by omega⟩
        rw [skipOne_succ]
        have hd2 : I.drop (p + 2) = header64 2 ((0 :: cid).length) ++
            ((0 :: cid) ++ t) := by
          have := drop_append_of_drop (show I.drop p = [0xd8, 0x2a] ++ (header64 2 (cid.length + 1) ++ ((0 :: cid) ++ t)) by simpa using hd')
          simpa [Nat.add_assoc, List.length_cons] using this
        have hbound2 : p + 2 + (header64 2 ((0 :: cid).length)).length +
            (0 :: cid).length < 2 ^ 64 := by
          simp only [emit, emitCid, h642, List.length_append,
            List.length_cons, List.length_nil] at hbound
          simp only [List.length_cons]
          omega
        rw [skipStep_sized _ _ (Or.inl rfl)
          (by simp only [List.length_cons]; omega) hbound2 hd2]
        have e : p + 2 + (header64 2 ((0 :: cid).length)).length +
            (0 :: cid).length = p + (emit (.link cid)).length := by
          simp only [emit, emitCid, h642, List.length_append,
            List.length_cons, List.length_nil]
          omega
        rw [e]
      | list l =>
        have hwl : l.length < 2 ^ 64 ∧ wfSeq l = true := by
          simpa [wfIpld] using hwf
        have hd' : I.drop p = header64 4 l.length ++ (emitSeq l ++ t) := by
          simpa [emit, List.append_assoc] using hd
        obtain ⟨b, tl, hh, hb1, hb2, hread, hrl⟩ :=
          readLen_of_header hwl.1 hd'
        have hrl' : readLen ⟨I, p + 1⟩ (b - 0x80) =
            .ok (l.length, ⟨I, p + (header64 4 l.length).length⟩) := by
          have e : b - 4 * 32 = b - 0x80 := by norm_num
          rw [e] at hrl
          exact hrl
        have hd2 : I.drop (p + (header64 4 l.length).length) =
            emitSeq l ++ t := drop_append_of_drop hd'
        have hbound2 : p + (header64 4 l.length).length +
            (emitSeq l).length < 2 ^ 64 := by
          simp only [emit, List.length_append] at hbound
          omega
        have hfs : ipldFuelSeq l + 2 ≤ f' + 1 := by
          have : ipldFuel (.list l) = ipldFuelSeq l + 1 := by rw [ipldFuel]
          omega
        have hcond : ∀ x ∈ l, wfIpld x = true ∧ ipldFuel x + 1 ≤ f' := by
          intro x hx
          refine ⟨wfSeq_mem hwl.2 hx, ?_⟩
          have := ipldFuelSeq_le hx
          omega
        have h3 := ihL l (by simp at hv; omega) f' hcond I t _ hd2 hbound2
        rw [skipStep_list _ _ hread (by omega) hrl' h3]
        simp [emit, List.length_append, Nat.add_assoc]
      | map m =>
        have hwm : m.length < 2 ^ 64 ∧ wfEntries m = true := by
          simpa [wfIpld] using hwf
        have hd' : I.drop p = header64 5 m.length ++
            (emitEntries (sortEntries m) ++ t) := by
          simpa [emit, List.append_assoc] using hd
        obtain ⟨b, tl, hh, hb1, hb2, hread, hrl⟩ :=
          readLen_of_header hwm.1 hd'
        have hrl' : readLen ⟨I, p + 1⟩ (b - 0xa0) =
            .ok (m.length, ⟨I, p + (header64 5 m.length).length⟩) := by
          have e : b - 5 * 32 = b - 0xa0 := by norm_num
          rw [e] at hrl
          exact hrl
        have hd2 : I.drop (p + (header64 5 m.length).length) =
            emitEntries (sortEntries m) ++ t := drop_append_of_drop hd'
        have hbound2 : p + (header64 5 m.length).length +
            (emitEntries (sortEntries m)).length < 2 ^ 64 := by
          simp only [emit, List.length_append] at hbound
          omega
        have hperm : List.Perm (sortEntries m) m := by
          simpa [sortEntries] using List.perm_insertionSort keyLe m
        have hfe : ipldFuelEntries m + 2 ≤ f' + 1 := by
          have : ipldFuel (.map m) = ipldFuelEntries m + 1 := by
            rw [ipldFuel]
          omega
        have hcond : ∀ kv ∈ sortEntries m, kv.1.length < 2 ^ 64 ∧
            wfIpld kv.2 = true ∧ ipldFuel kv.2 + 1 ≤ f' := by
          intro kv hkv
          have hkm : kv ∈ m := hperm.mem_iff.mp hkv
          obtain ⟨h1, h2, h3⟩ := wfEntries_mem hwm.2 hkm
          refine ⟨h2, h3, ?_⟩
          have := ipldFuelEntries_le hkm
          omega
        have hsz : sizeOf (sortEntries m) ≤ n := by
          have hpe := hperm.sizeOf_eq_sizeOf
          simp at hv
          omega
        have h3 := ihE (sortEntries m) hsz f' (by omega) hcond I t _ hd2
          hbound2
        have hleq : (sortEntries m).length = m.length := hperm.length_eq
        rw [hleq] at h3
        rw [skipStep_map _ _ hread (by omega) hrl' h3]
        simp [emit, List.length_append, Nat.add_assoc]
    · cases l with
      | nil =>
        simp only [List.length_nil, skipSeqN]
        simp [emitSeq]
      | cons x xs =>
        have hx := hcond x (by simp)
        have hd' : I.drop p = emit x ++ (emitSeq xs ++ t) := by
          simpa [emitSeq, List.append_assoc] using hd
        have hb1 : p + (emit x).length < 2 ^ 64 := by
          simp only [emitSeq, List.length_append] at hbound
          omega
        have h1 := ihV x (by simp at hl; omega) hx.1 f hx.2 I _ p hd' hb1
        have hd2 : I.drop (p + (emit x).length) = emitSeq xs ++ t :=
          drop_append_of_drop hd'
        have hb2 : p + (emit x).length + (emitSeq xs).length < 2 ^ 64 := by
          simp only [emitSeq, List.length_append] at hbound
          omega
        have h2 := ihL xs (by simp at hl; omega) f
          (fun y hy => hcond y (by simp [hy])) I t _ hd2 hb2
        simp only [List.length_cons, skipSeqN]
        rw [h1, bindE_ok]
        rw [h2]
        simp [emitSeq, List.length_append, Nat.add_assoc]
    · cases es with
      | nil =>
        simp only [List.length_nil, skipMapN]
        simp [emitEntries]
      | cons kv rest =>
        obtain ⟨k, v⟩ := kv
        have hkv := hcond (k, v) (by simp)
        have hd' : I.drop p =
            emitStr k ++ (emit v ++ (emitEntries rest ++ t)) := by
          simpa [emitEntries, List.append_assoc] using hd
        have hdk : I.drop p = header64 3 k.length ++
            (k ++ (emit v ++ (emitEntries rest ++ t))) := by
          simpa [emitStr, List.append_assoc] using hd'
        obtain ⟨f₀, rfl⟩ : ∃ f₀, f = f₀ + 1 := ⟨f - 1, by omega⟩
        have hbk : p + (header64 3 k.length).length + k.length < 2 ^ 64 := by
          simp only [emitEntries, emitStr, List.length_append] at hbound
          omega
        have h1 : skipOne (f₀ + 1) ⟨I, p⟩ =
            .ok ⟨I, p + (header64 3 k.length).length + k.length⟩ := by
          rw [skipOne_succ]
          exact skipStep_sized _ _ (Or.inr rfl) hkv.1 hbk hdk
        have hd2 : I.drop (p + (emitStr k).length) =
            emit v ++ (emitEntries rest ++ t) := drop_append_of_drop hd'
        have hb2 : p + (emitStr k).length + (emit v).length < 2 ^ 64 := by
          simp only [emitEntries, List.length_append] at hbound
          omega
        have h2 := ihV v (by simp at hes; omega) hkv.2.1 (f₀ + 1) hkv.2.2
          I _ _ hd2 hb2
        have hd3 : I.drop (p + (emitStr k).length + (emit v).length) =
            emitEntries rest ++ t := drop_append_of_drop hd2
        have hb3 : p + (emitStr k).length + (emit v).length +
            (emitEntries rest).length < 2 ^ 64 := by
          simp only [emitEntries, List.length_append] at hbound
          omega
        have h3 := ihE rest (by simp at hes; omega) (f₀ + 1) hf1
          (fun y hy => hcond y (by simp [hy])) I t _ hd3 hb3
        simp only [List.length_cons, skipMapN]
        have h1' : skipOne (f₀ + 1) ⟨I, p⟩ =
            .ok ⟨I, p + (emitStr k).length⟩ := by
          rw [h1]
          simp [emitStr, List.length_append, Nat.add_assoc]
        rw [h1', bindE_ok]
        rw [h2, bindE_ok]
        rw [h3]
        simp [emitEntries, List.length_append, Nat.add_assoc]

/-- A successful `DagCborCodec::encode` returns exactly `emit v`. -/
theorem dagCborEncode_eq_emit {v : Ipld} {bs : List Nat}
    (henc : dagCborEncode v = .ok bs) : bs = emit v := by
  unfold dagCborEncode at henc
  cases he : encodeIpld v (ByteCursor.new []) with
  | error e =>
    rw [he] at henc
    exact absurd henc (by simp [Except.map])
  | ok c =>
    rw [he] at henc
    have hc := encodeIpld_ok
      (show (ByteCursor.new []).pos = (ByteCursor.new []).inner.length
        from rfl) he
    simp only [Except.map, Except.ok.injEq] at henc
    rw [← henc, hc]
    simp [ByteCursor.new]

/-- C5: `skip` on a well-formed encoded value of `L` bytes at offset `p`
succeeds and leaves the cursor at `p + L`, for any surrounding buffer that
fits in the 64-bit position space. -/
theorem skip_advances_by_length (v : Ipld) (hwf : wfIpld v = true)
    (bs : List Nat) (henc : dagCborEncode v = .ok bs)
    (I t : List Nat) (p : Nat) (hd : I.drop p = bs ++ t)
    (hI : I.length < 2 ^ 64) :
    dagCborSkip ⟨I, p⟩ = .ok ⟨I, p + bs.length⟩ := by
  have hbs : bs = emit v := dagCborEncode_eq_emit henc
  subst hbs
  have hlen : (emit v).length + t.length = I.length - p := by
    have h1 : (I.drop p).length = I.length - p := by simp
    rw [hd] at h1
    simpa [List.length_append] using h1
  have hple : p + (emit v).length ≤ I.length := by
    have := emit_length_pos v
    omega
  have hfl := ipldFuel_le_emit_length v
  have h := (skip_emit_all (sizeOf v)).1 v le_rfl hwf
    ((⟨I, p⟩ : ByteCursor).inner.length + 1) (by simp; omega) I t p hd
    (by omega)
  unfold dagCborSkip
  exact h

/-- Witness for `skip_advances_by_length`: skipping the 3-byte encoding of
`[1, null]` inside a 4-byte buffer lands at position 3. -/
theorem skip_advances_by_length_witness :
    dagCborEncode (.list [.integer 1, .null]) = .ok [0x82, 0x01, 0xf6] ∧
    dagCborSkip ⟨[0x82, 0x01, 0xf6, 0x07], 0⟩ =
      .ok ⟨[0x82, 0x01, 0xf6, 0x07], 3⟩ := by
  have henc : dagCborEncode (.list [.integer 1, .null]) =
      .ok [0x82, 0x01, 0xf6] := by
    simp [dagCborEncode, encodeIpld, encodeSeq, encodeI128, writeNull,
      writeU64, writeU32, writeU16, writeU8, ByteCursor.writeAll,
      ByteCursor.write, ByteCursor.new, usizeMax, Except.map, bind,
      Except.bind]
  refine ⟨henc, ?_⟩
  have h := skip_advances_by_length (.list [.integer 1, .null])
    (by simp [wfIpld, wfSeq]) [0x82, 0x01, 0xf6] henc
    [0x82, 0x01, 0xf6, 0x07] [0x07] 0 rfl (by norm_num)
  simpa using h

/-! ## Link-scanner lemmas -/

set_option maxRecDepth 4096 in
theorem refsStep_imm
    (ref : ByteCursor → List (List Nat) →
      Except String (List (List Nat) × ByteCursor))
    (lf : Nat) {I t : List Nat} {p b : Nat} {set : List (List Nat)}
    (hd : I.drop p = b :: t)
    (hb : b ≤ 0x17 ∨ (0x20 ≤ b ∧ b ≤ 0x37) ∨ (0xf4 ≤ b ∧ b ≤ 0xf7)) :
    refsStep ref lf ⟨I, p⟩ set = .ok (set, ⟨I, p + 1⟩) := by
  unfold refsStep
  rw [readU8_of_drop hd, bindE_ok]
  dsimp only
  rw [if_pos hb]

set_option maxRecDepth 4096 in
theorem refsStep_seek1
    (ref : ByteCursor → List (List Nat) →
      Except String (List (List Nat) × ByteCursor))
    (lf : Nat) {I t : List Nat} {p b : Nat} {set : List (List Nat)}
    (hd : I.drop p = b :: t)
    (hb : b = 0x18 ∨ b = 0x38 ∨ b = 0xf8) (hlt : p + 2 < 2 ^ 64) :
    refsStep ref lf ⟨I, p⟩ set = .ok (set, ⟨I, p + 2⟩) := by
  unfold refsStep
  rw [readU8_of_drop hd, bindE_ok]
  dsimp only
  rw [if_neg (by first | omega), if_pos hb,
    seek_current_to (c := ⟨I, p + 1⟩) (by push_cast; omega) hlt, bindE_ok]

set_option maxRecDepth 4096 in
theorem refsStep_seek2
    (ref : ByteCursor → List (List Nat) →
      Except String (List (List Nat) × ByteCursor))
    (lf : Nat) {I t : List Nat} {p b : Nat} {set : List (List Nat)}
    (hd : I.drop p = b :: t)
    (hb : b = 0x19 ∨ b = 0x39 ∨ b = 0xf9) (hlt : p + 3 < 2 ^ 64) :
    refsStep ref lf ⟨I, p⟩ set = .ok (set, ⟨I, p + 3⟩) := by
  unfold refsStep
  rw [readU8_of_drop hd, bindE_ok]
  dsimp only
  rw [if_neg (by first | omega), if_neg (by first | omega), if_pos hb,
    seek_current_to (c := ⟨I, p + 1⟩) (by push_cast; omega) hlt, bindE_ok]

set_option maxRecDepth 4096 in
theorem refsStep_seek4
    (ref : ByteCursor → List (List Nat) →
      Except String (List (List Nat) × ByteCursor))
    (lf : Nat) {I t : List Nat} {p b : Nat} {set : List (List Nat)}
    (hd : I.drop p = b :: t)
    (hb : b = 0x1a ∨ b = 0x3a ∨ b = 0xfa) (hlt : p + 5 < 2 ^ 64) :
    refsStep ref lf ⟨I, p⟩ set = .ok (set, ⟨I, p + 5⟩) := by
  unfold refsStep
  rw [readU8_of_drop hd, bindE_ok]
  dsimp only
  rw [if_neg (by first | omega), if_neg (by first | omega), if_neg (by first | omega), if_pos hb,
    seek_current_to (c := ⟨I, p + 1⟩) (by push_cast; omega) hlt, bindE_ok]

set_option maxRecDepth 4096 in
theorem refsStep_seek8
    (ref : ByteCursor → List (List Nat) →
      Except String (List (List Nat) × ByteCursor))
    (lf : Nat) {I t : List Nat} {p b : Nat} {set : List (List Nat)}
    (hd : I.drop p = b :: t)
    (hb : b = 0x1b ∨ b = 0x3b ∨ b = 0xfb) (hlt : p + 9 < 2 ^ 64) :
    refsStep ref lf ⟨I, p⟩ set = .ok (set, ⟨I, p + 9⟩) := by
  unfold refsStep
  rw [readU8_of_drop hd, bindE_ok]
  dsimp only
  rw [if_neg (by first | omega), if_neg (by first | omega), if_neg (by first | omega),
    if_neg (by first | omega), if_pos hb,
    seek_current_to (c := ⟨I, p + 1⟩) (by push_cast; omega) hlt, bindE_ok]

set_option maxRecDepth 4096 in
theorem refsStep_sized
    (ref : ByteCursor → List (List Nat) →
      Except String (List (List Nat) × ByteCursor))
    (lf : Nat) {I s t : List Nat} {p M : Nat} {set : List (List Nat)}
    (hM : M = 2 ∨ M = 3) (hlen : s.length < 2 ^ 64)
    (hbound : p + (header64 M s.length).length + s.length < 2 ^ 64)
    (hd : I.drop p = header64 M s.length ++ (s ++ t)) :
    refsStep ref lf ⟨I, p⟩ set =
      .ok (set, ⟨I, p + (header64 M s.length).length + s.length⟩) := by
  obtain ⟨b, tl, hh, hb1, hb2, hread, hrl⟩ := readLen_of_header hlen hd
  unfold refsStep
  rw [hread, bindE_ok]
  dsimp only
  rcases hM with hM | hM
  · subst hM
    rw [if_neg (by first | omega), if_neg (by first | omega), if_neg (by first | omega),
      if_neg (by first | omega), if_neg (by first | omega), if_pos (by omega)]
    have e : b - 2 * 32 = b - 0x40 := by norm_num
    rw [e] at hrl
    rw [hrl, bindE_ok]
    dsimp only
    rw [seek_current_to (c := ⟨I, p + (header64 2 s.length).length⟩)
      (by push_cast; omega) hbound, bindE_ok]
  · subst hM
    rw [if_neg (by first | omega), if_neg (by first | omega), if_neg (by first | omega),
      if_neg (by first | omega), if_neg (by first | omega), if_neg (by first | omega),
      if_pos (by omega)]
    have e : b - 3 * 32 = b - 0x60 := by norm_num
    rw [e] at hrl
    rw [hrl, bindE_ok]
    dsimp only
    rw [seek_current_to (c := ⟨I, p + (header64 3 s.length).length⟩)
      (by push_cast; omega) hbound, bindE_ok]

set_option maxRecDepth 4096 in
theorem refsStep_list
    (ref : ByteCursor → List (List Nat) →
      Except String (List (List Nat) × ByteCursor))
    (lf : Nat) {I : List Nat} {p b len : Nat} {r2 : ByteCursor}
    {set : List (List Nat)}
    {res : Except String (List (List Nat) × ByteCursor)}
    (h : readU8 ⟨I, p⟩ = .ok (b, ⟨I, p + 1⟩)) (hb : 0x80 ≤ b ∧ b ≤ 0x9b)
    (h2 : readLen ⟨I, p + 1⟩ (b - 0x80) = .ok (len, r2))
    (h3 : refsSeqN ref len r2 set = res) :
    refsStep ref lf ⟨I, p⟩ set = res := by
  unfold refsStep
  rw [h, bindE_ok]
  dsimp only
  rw [if_neg (by first | omega), if_neg (by first | omega), if_neg (by first | omega),
    if_neg (by first | omega), if_neg (by first | omega), if_neg (by first | omega),
    if_neg (by first | omega), if_pos hb, h2, bindE_ok]
  dsimp only
  exact h3

set_option maxRecDepth 4096 in
theorem refsStep_map
    (ref : ByteCursor → List (List Nat) →
      Except String (List (List Nat) × ByteCursor))
    (lf : Nat) {I : List Nat} {p b len : Nat} {r2 : ByteCursor}
    {set : List (List Nat)}
    {res : Except String (List (List Nat) × ByteCursor)}
    (h : readU8 ⟨I, p⟩ = .ok (b, ⟨I, p + 1⟩)) (hb : 0xa0 ≤ b ∧ b ≤ 0xbb)
    (h2 : readLen ⟨I, p + 1⟩ (b - 0xa0) = .ok (len, r2))
    (h3 : refsMapN ref len r2 set = res) :
    refsStep ref lf ⟨I, p⟩ set = res := by
  unfold refsStep
  rw [h, bindE_ok]
  dsimp only
  rw [if_neg (by first | omega), if_neg (by first | omega), if_neg (by first | omega),
    if_neg (by first | omega), if_neg (by first | omega), if_neg (by first | omega),
    if_neg (by first | omega), if_neg (by first | omega), if_neg (by first | omega),
    if_pos hb, h2, bindE_ok]
  dsimp only
  exact h3

set_option maxRecDepth 4096 in
theorem refsStep_link
    (ref : ByteCursor → List (List Nat) →
      Except String (List (List Nat) × ByteCursor))
    (lf : Nat) {I : List Nat} {p b : Nat} {r3 : ByteCursor}
    {set : List (List Nat)} {cid : List Nat}
    (h : readU8 ⟨I, p⟩ = .ok (b, ⟨I, p + 1⟩)) (hb : b = 0xd8)
    (h2 : readU8 ⟨I, p + 1⟩ = .ok (42, ⟨I, p + 2⟩))
    (h3 : readLink ⟨I, p + 2⟩ = .ok (cid, r3)) :
    refsStep ref lf ⟨I, p⟩ set = .ok (set ++ [cid], r3) := by
  unfold refsStep
  rw [h, bindE_ok]
  dsimp only
  rw [if_neg (by first | omega), if_neg (by first | omega), if_neg (by first | omega),
    if_neg (by first | omega), if_neg (by first | omega), if_neg (by first | omega),
    if_neg (by first | omega), if_neg (by first | omega), if_neg (by first | omega),
    if_neg (by first | omega), if_neg (by first | omega), if_pos hb, h2, bindE_ok]
  dsimp only
  rw [if_pos rfl, h3, bindE_ok]

set_option maxRecDepth 4096 in
theorem refsStep_of_header01
    (ref : ByteCursor → List (List Nat) →
      Except String (List (List Nat) × ByteCursor))
    (lf : Nat) {I t : List Nat} {p M n : Nat} {set : List (List Nat)}
    (hM : M ≤ 1) (hn : n < 2 ^ 64)
    (hbound : p + (header64 M n).length < 2 ^ 64)
    (hd : I.drop p = header64 M n ++ t) :
    refsStep ref lf ⟨I, p⟩ set =
      .ok (set, ⟨I, p + (header64 M n).length⟩) := by
  unfold header64 at hbound hd ⊢
  by_cases h1 : n ≤ 0x17
  · rw [if_pos h1] at hbound hd ⊢
    have hd' : I.drop p = (M * 32 + n) :: t := by simpa using hd
    rw [refsStep_imm ref lf hd' (by omega)]
    norm_num
  · rw [if_neg h1] at hbound hd ⊢
    by_cases h2 : n ≤ 0xff
    · rw [if_pos h2] at hbound hd ⊢
      have hd' : I.drop p = (M * 32 + 24) :: (n :: t) := by simpa using hd
      rw [refsStep_seek1 ref lf hd' (by omega) (by simpa using hbound)]
      norm_num
    · rw [if_neg h2] at hbound hd ⊢
      by_cases h3 : n ≤ 0xffff
      · rw [if_pos h3] at hbound hd ⊢
        have hd' : I.drop p = (M * 32 + 25) :: (beBytes 2 n ++ t) := by
          simpa using hd
        rw [refsStep_seek2 ref lf hd' (by omega)
          (by simpa [beBytes_length] using hbound)]
        simp [beBytes_length]
      · rw [if_neg h3] at hbound hd ⊢
        by_cases h4 : n ≤ 0xffffffff
        · rw [if_pos h4] at hbound hd ⊢
          have hd' : I.drop p = (M * 32 + 26) :: (beBytes 4 n ++ t) := by
            simpa using hd
          rw [refsStep_seek4 ref lf hd' (by omega)
            (by simpa [beBytes_length] using hbound)]
          simp [beBytes_length]
        · rw [if_neg h4] at hbound hd ⊢
          have hd' : I.drop p = (M * 32 + 27) :: (beBytes 8 n ++ t) := by
            simpa using hd
          rw [refsStep_seek8 ref lf hd' (by omega)
            (by simpa [beBytes_length] using hbound)]
          simp [beBytes_length]

set_option maxRecDepth 4096 in
theorem refsStep_of_emitF64
    (ref : ByteCursor → List (List Nat) →
      Except String (List (List Nat) × ByteCursor))
    (lf : Nat) {I t : List Nat} {p b : Nat} {set : List (List Nat)}
    (hbound : p + (emitF64 b).length < 2 ^ 64)
    (hd : I.drop p = emitF64 b ++ t) :
    refsStep ref lf ⟨I, p⟩ set =
      .ok (set, ⟨I, p + (emitF64 b).length⟩) := by
  unfold emitF64 emitF32 at hbound hd ⊢
  split_ifs at hbound hd ⊢ with h1 h2 h3 h4
  · simp only [List.cons_append, List.nil_append] at hd
    rw [refsStep_seek2 ref lf hd (by omega) (by simpa using hbound)]
    norm_num
  · simp only [List.cons_append, List.nil_append] at hd
    rw [refsStep_seek2 ref lf hd (by omega) (by simpa using hbound)]
    norm_num
  · simp only [List.cons_append, List.nil_append] at hd
    rw [refsStep_seek2 ref lf hd (by omega) (by simpa using hbound)]
    norm_num
  · simp only [List.cons_append, List.nil_append] at hd
    rw [refsStep_seek4 ref lf hd (by omega)
      (by simpa [beBytes_length] using hbound)]
    simp [beBytes_length]
  · simp only [List.cons_append, List.nil_append] at hd
    rw [refsStep_seek8 ref lf hd (by omega)
      (by simpa [beBytes_length] using hbound)]
    simp [beBytes_length]

theorem refsOne_succ (f : Nat) (r : ByteCursor) (set : List (List Nat)) :
    refsOne (f + 1) r set =
      refsStep (fun r' set' => refsOne f r' set') f r set := rfl

theorem ipldLinksEntries_perm : ∀ {l l' : List (List Nat × Ipld)},
    List.Perm l l' →
    List.Perm (ipldLinksEntries l) (ipldLinksEntries l') := by
  intro l l' h
  induction h with
  | nil => exact List.Perm.refl _
  | cons x h ih =>
    obtain ⟨k, v⟩ := x
    simp only [ipldLinksEntries]
    exact ih.append_left _
  | swap x y l =>
    obtain ⟨k1, v1⟩ := x
    obtain ⟨k2, v2⟩ := y
    simp only [ipldLinksEntries]
    rw [← List.append_assoc, ← List.append_assoc]
    exact (List.perm_append_comm).append_right _
  | trans h1 h2 ih1 ih2 => exact ih1.trans ih2

/-- The link scanner collects, in wire order, exactly the identifiers of the
value's `Link` variants (up to the permutation the canonical map reordering
introduces), while advancing like `skip`. -/
theorem refs_emit_all : ∀ n : Nat,
    (∀ v : Ipld, sizeOf v ≤ n → wfIpld v = true → cidsSized v = true →
      ∀ f : Nat, ipldFuel v + 1 ≤ f →
      ∀ (I t : List Nat) (p : Nat) (set : List (List Nat)),
      I.drop p = emit v ++ t → p + (emit v).length < 2 ^ 64 →
      ∃ ls, refsOne f ⟨I, p⟩ set =
          .ok (set ++ ls, ⟨I, p + (emit v).length⟩) ∧
        List.Perm ls (ipldLinks v)) ∧
    (∀ l : List Ipld, sizeOf l ≤ n → ∀ f : Nat,
      (∀ x ∈ l, wfIpld x = true ∧ cidsSized x = true ∧
        ipldFuel x + 1 ≤ f) →
      ∀ (I t : List Nat) (p : Nat) (set : List (List Nat)),
      I.drop p = emitSeq l ++ t → p + (emitSeq l).length < 2 ^ 64 →
      ∃ ls, refsSeqN (fun r set' => refsOne f r set') l.length ⟨I, p⟩ set =
          .ok (set ++ ls, ⟨I, p + (emitSeq l).length⟩) ∧
        List.Perm ls (ipldLinksSeq l)) ∧
    (∀ es : List (List Nat × Ipld), sizeOf es ≤ n → ∀ f : Nat, 1 ≤ f →
      (∀ kv ∈ es, kv.1.length < 2 ^ 64 ∧ wfIpld kv.2 = true ∧
        cidsSized kv.2 = true ∧ ipldFuel kv.2 + 1 ≤ f) →
      ∀ (I t : List Nat) (p : Nat) (set : List (List Nat)),
      I.drop p = emitEntries es ++ t →
      p + (emitEntries es).length < 2 ^ 64 →
      ∃ ls, refsMapN (fun r set' => refsOne f r set') es.length ⟨I, p⟩ set =
          .ok (set ++ ls, ⟨I, p + (emitEntries es).length⟩) ∧
        List.Perm ls (ipldLinksEntries es)) := by
  intro n
  induction n with
  | zero =>
    refine ⟨fun v hv => ?_, fun l hl => ?_, fun es hes => ?_⟩
    · exact absurd hv (by cases v <;> simp)
    · exact absurd hl (by cases l <;> simp)
    · exact absurd hes (by cases es <;> simp)
  | succ n ih =>
    obtain ⟨ihV, ihL, ihE⟩ := ih
    refine ⟨fun v hv hwf hcs f hfuel I t p set hd hbound => ?_,
      fun l hl f hcond I t p set hd hbound => ?_,
      fun es hes f hf1 hcond I t p set hd hbound => ?_⟩
    · have hf2 : 2 ≤ f := le_trans (by have := ipldFuel_pos v; omega) hfuel
      obtain ⟨f', rfl⟩ : ∃ f', f = f' + 1 := ⟨f - 1, by omega⟩
      rw [refsOne_succ]
      cases v with
      | null =>
        refine ⟨[], ?_, List.Perm.refl _⟩
        have hd' : I.drop p = 0xf6 :: t := by simpa [emit] using hd
        rw [refsStep_imm _ _ hd' (by omega)]
        simp [emit, ipldLinks]
      | bool b =>
        refine ⟨[], ?_, List.Perm.refl _⟩
        cases b with
        | false =>
          have hd' : I.drop p = 0xf4 :: t := by simpa [emit] using hd
          rw [refsStep_imm _ _ hd' (by omega)]
          simp [emit, ipldLinks]
        | true =>
          have hd' : I.drop p = 0xf5 :: t := by simpa [emit] using hd
          rw [refsStep_imm _ _ hd' (by omega)]
          simp [emit, ipldLinks]
      | integer i =>
        refine ⟨[], ?_, List.Perm.refl _⟩
        have hr : -(2 ^ 64 : Int) ≤ i ∧ i ≤ 2 ^ 64 - 1 := by
          simpa [wfIpld] using hwf
        simp only [emit, emitInt] at hd hbound ⊢
        split_ifs at hd hbound ⊢ with hneg
        · rw [refsStep_of_header01 _ _ (by omega) (by omega) hbound hd]
          simp [ipldLinks]
        · rw [refsStep_of_header01 _ _ (by omega) (by omega) hbound hd]
          simp [ipldLinks]
      | float bits =>
        refine ⟨[], ?_, List.Perm.refl _⟩
        simp only [emit] at hd hbound ⊢
        rw [refsStep_of_emitF64 _ _ hbound hd]
        simp [ipldLinks]
      | string s =>
        refine ⟨[], ?_, List.Perm.refl _⟩
        have hws : validUtf8 s = true ∧ s.length < 2 ^ 64 := by
          simpa [wfIpld] using hwf
        have hd' : I.drop p = header64 3 s.length ++ (s ++ t) := by
          simpa [emit, emitStr, List.append_assoc] using hd
        have hbound' : p + (header64 3 s.length).length + s.length <
            2 ^ 64 := by
          simp only [emit, emitStr, List.length_append] at hbound
          omega
        rw [refsStep_sized _ _ (Or.inr rfl) hws.2 hbound' hd']
        simp [emit, emitStr, ipldLinks, List.length_append, Nat.add_assoc]
      | bytes bs =>
        refine ⟨[], ?_, List.Perm.refl _⟩
        have hlen : bs.length < 2 ^ 64 := by simpa [wfIpld] using hwf
        have hd' : I.drop p = header64 2 bs.length ++ (bs ++ t) := by
          simpa [emit, List.append_assoc] using hd
        have hbound' : p + (header64 2 bs.length).length + bs.length <
            2 ^ 64 := by
          simp only [emit, List.length_append] at hbound
          omega
        rw [refsStep_sized _ _ (Or.inl rfl) hlen hbound' hd']
        simp [emit, ipldLinks, List.length_append, Nat.add_assoc]
      | link cid =>
        refine ⟨[cid], ?_, List.Perm.refl _⟩
        have hwl : cidWf cid = true ∧ cid.length + 1 < 2 ^ 64 := by
          simpa [wfIpld] using hwf
        have hsz : 23 ≤ cid.length ∧ cid.length ≤ 254 := by
          simpa [cidsSized] using hcs
        have h642 : header64 6 42 = [0xd8, 0x2a] := by decide
        have h2c : header64 2 (cid.length + 1) = [0x58, cid.length + 1] := by
          unfold header64
          rw [if_neg (by first | omega), if_pos (by omega)]
        have hd' : I.drop p =
            0xd8 :: 0x2a :: 0x58 :: (cid.length + 1) :: 0 :: cid ++ t := by
          simp only [emit, emitCid, h642, h2c] at hd
          simpa using hd
        have h1 : readU8 ⟨I, p⟩ = .ok (0xd8, ⟨I, p + 1⟩) :=
          readU8_of_drop hd'
        have hd2 : I.drop (p + 1) =
            0x2a :: 0x58 :: (cid.length + 1) :: 0 :: cid ++ t := by
          simpa using drop_append_of_drop (show I.drop p = [0xd8] ++ (0x2a :: 0x58 :: (cid.length + 1) :: 0 :: cid ++ t) by simpa using hd')
        have h2 : readU8 ⟨I, p + 1⟩ = .ok (42, ⟨I, p + 2⟩) := by
          simpa [Nat.add_assoc] using readU8_of_drop hd2
        have hd3 : I.drop (p + 2) =
            0x58 :: (cid.length + 1) :: 0 :: cid ++ t := by
          have := drop_append_of_drop (show I.drop p = [0xd8, 0x2a] ++ (0x58 :: (cid.length + 1) :: 0 :: cid ++ t) by simpa using hd')
          simpa [Nat.add_assoc] using this
        have h3 := readLink_of_drop hwl.1 hd3
        rw [refsStep_link _ _ h1 rfl h2 h3]
        have e : p + 2 + 2 + (cid.length + 1) =
            p + (emit (.link cid)).length := by
          simp only [emit, emitCid, h642, h2c, List.length_append,
            List.length_cons, List.length_nil]
          omega
        rw [e]
      | list l =>
        have hwl : l.length < 2 ^ 64 ∧ wfSeq l = true := by
          simpa [wfIpld] using hwf
        have hd' : I.drop p = header64 4 l.length ++ (emitSeq l ++ t) := by
          simpa [emit, List.append_assoc] using hd
        obtain ⟨b, tl, hh, hb1, hb2, hread, hrl⟩ :=
          readLen_of_header hwl.1 hd'
        have hrl' : readLen ⟨I, p + 1⟩ (b - 0x80) =
            .ok (l.length, ⟨I, p + (header64 4 l.length).length⟩) := by
          have e : b - 4 * 32 = b - 0x80 := by norm_num
          rw [e] at hrl
          exact hrl
        have hd2 : I.drop (p + (header64 4 l.length).length) =
            emitSeq l ++ t := drop_append_of_drop hd'
        have hbound2 : p + (header64 4 l.length).length +
            (emitSeq l).length < 2 ^ 64 := by
          simp only [emit, List.length_append] at hbound
          omega
        have hfs : ipldFuelSeq l + 2 ≤ f' + 1 := by
          have : ipldFuel (.list l) = ipldFuelSeq l + 1 := by rw [ipldFuel]
          omega
        have hcond : ∀ x ∈ l, wfIpld x = true ∧ cidsSized x = true ∧
            ipldFuel x + 1 ≤ f' := by
          intro x hx
          refine ⟨wfSeq_mem hwl.2 hx,
            cidsSizedSeq_mem (by simpa [cidsSized] using hcs) hx, ?_⟩
          have := ipldFuelSeq_le hx
          omega
        obtain ⟨ls, h3, hp3⟩ := ihL l (by simp at hv; omega) f' hcond I t _
          set hd2 hbound2
        refine ⟨ls, ?_, by simpa [ipldLinks] using hp3⟩
        rw [refsStep_list _ _ hread (by omega) hrl' h3]
        simp [emit, List.length_append, Nat.add_assoc]
      | map m =>
        have hwm : m.length < 2 ^ 64 ∧ wfEntries m = true := by
          simpa [wfIpld] using hwf
        have hd' : I.drop p = header64 5 m.length ++
            (emitEntries (sortEntries m) ++ t) := by
          simpa [emit, List.append_assoc] using hd
        obtain ⟨b, tl, hh, hb1, hb2, hread, hrl⟩ :=
          readLen_of_header hwm.1 hd'
        have hrl' : readLen ⟨I, p + 1⟩ (b - 0xa0) =
            .ok (m.length, ⟨I, p + (header64 5 m.length).length⟩) := by
          have e : b - 5 * 32 = b - 0xa0 := by norm_num
          rw [e] at hrl
          exact hrl
        have hd2 : I.drop (p + (header64 5 m.length).length) =
            emitEntries (sortEntries m) ++ t := drop_append_of_drop hd'
        have hbound2 : p + (header64 5 m.length).length +
            (emitEntries (sortEntries m)).length < 2 ^ 64 := by
          simp only [emit, List.length_append] at hbound
          omega
        have hperm : List.Perm (sortEntries m) m := by
          simpa [sortEntries] using List.perm_insertionSort keyLe m
        have hfe : ipldFuelEntries m + 2 ≤ f' + 1 := by
          have : ipldFuel (.map m) = ipldFuelEntries m + 1 := by
            rw [ipldFuel]
          omega
        have hcond : ∀ kv ∈ sortEntries m, kv.1.length < 2 ^ 64 ∧
            wfIpld kv.2 = true ∧ cidsSized kv.2 = true ∧
            ipldFuel kv.2 + 1 ≤ f' := by
          intro kv hkv
          have hkm : kv ∈ m := hperm.mem_iff.mp hkv
          obtain ⟨h1, h2, h3⟩ := wfEntries_mem hwm.2 hkm
          refine ⟨h2, h3,
            cidsSizedEntries_mem (by simpa [cidsSized] using hcs) hkm, ?_⟩
          have := ipldFuelEntries_le hkm
          omega
        have hsz : sizeOf (sortEntries m) ≤ n := by
          have hpe := hperm.sizeOf_eq_sizeOf
          simp at hv
          omega
        obtain ⟨ls, h3, hp3⟩ := ihE (sortEntries m) hsz f' (by omega) hcond
          I t _ set hd2 hbound2
        have hleq : (sortEntries m).length = m.length := hperm.length_eq
        rw [hleq] at h3
        refine ⟨ls, ?_, ?_⟩
        · rw [refsStep_map _ _ hread (by omega) hrl' h3]
          simp [emit, List.length_append, Nat.add_assoc]
        · exact hp3.trans (by simpa [ipldLinks] using
            ipldLinksEntries_perm hperm)
    · cases l with
      | nil =>
        refine ⟨[], ?_, List.Perm.refl _⟩
        simp only [List.length_nil, refsSeqN]
        simp [emitSeq, ipldLinksSeq]
      | cons x xs =>
        have hx := hcond x (by simp)
        have hd' : I.drop p = emit x ++ (emitSeq xs ++ t) := by
          simpa [emitSeq, List.append_assoc] using hd
        have hb1 : p + (emit x).length < 2 ^ 64 := by
          simp only [emitSeq, List.length_append] at hbound
          omega
        obtain ⟨ls1, h1, hp1⟩ := ihV x (by simp at hl; omega) hx.1 hx.2.1 f
          hx.2.2 I _ p set hd' hb1
        have hd2 : I.drop (p + (emit x).length) = emitSeq xs ++ t :=
          drop_append_of_drop hd'
        have hb2 : p + (emit x).length + (emitSeq xs).length < 2 ^ 64 := by
          simp only [emitSeq, List.length_append] at hbound
          omega
        obtain ⟨ls2, h2, hp2⟩ := ihL xs (by simp at hl; omega) f
          (fun y hy => hcond y (by simp [hy])) I t _ (set ++ ls1) hd2 hb2
        refine ⟨ls1 ++ ls2, ?_, ?_⟩
        · simp only [List.length_cons, refsSeqN]
          rw [h1, bindE_ok]
          dsimp only
          rw [h2]
          simp [emitSeq, List.length_append, Nat.add_assoc,
            List.append_assoc]
        · simpa [ipldLinksSeq] using hp1.append hp2
    · cases es with
      | nil =>
        refine ⟨[], ?_, List.Perm.refl _⟩
        simp only [List.length_nil, refsMapN]
        simp [emitEntries, ipldLinksEntries]
      | cons kv rest =>
        obtain ⟨k, v⟩ := kv
        have hkv := hcond (k, v) (by simp)
        have hd' : I.drop p =
            emitStr k ++ (emit v ++ (emitEntries rest ++ t)) := by
          simpa [emitEntries, List.append_assoc] using hd
        have hdk : I.drop p = header64 3 k.length ++
            (k ++ (emit v ++ (emitEntries rest ++ t))) := by
          simpa [emitStr, List.append_assoc] using hd'
        obtain ⟨f₀, rfl⟩ : ∃ f₀, f = f₀ + 1 := ⟨f - 1, by omega⟩
        have hbk : p + (header64 3 k.length).length + k.length <
            2 ^ 64 := by
          simp only [emitEntries, emitStr, List.length_append] at hbound
          omega
        have h1 : refsOne (f₀ + 1) ⟨I, p⟩ set =
            .ok (set, ⟨I, p + (emitStr k).length⟩) := by
          rw [refsOne_succ]
          rw [refsStep_sized _ _ (Or.inr rfl) hkv.1 hbk hdk]
          simp [emitStr, List.length_append, Nat.add_assoc]
        have hd2 : I.drop (p + (emitStr k).length) =
            emit v ++ (emitEntries rest ++ t) := drop_append_of_drop hd'
        have hb2 : p + (emitStr k).length + (emit v).length < 2 ^ 64 := by
          simp only [emitEntries, List.length_append] at hbound
          omega
        obtain ⟨ls1, h2, hp1⟩ := ihV v (by simp at hes; omega) hkv.2.1
          hkv.2.2.1 (f₀ + 1) hkv.2.2.2 I _ _ set hd2 hb2
        have hd3 : I.drop (p + (emitStr k).length + (emit v).length) =
            emitEntries rest ++ t := drop_append_of_drop hd2
        have hb3 : p + (emitStr k).length + (emit v).length +
            (emitEntries rest).length < 2 ^ 64 := by
          simp only [emitEntries, List.length_append] at hbound
          omega
        obtain ⟨ls2, h3, hp2⟩ := ihE rest (by simp at hes; omega) (f₀ + 1)
          hf1 (fun y hy => hcond y (by simp [hy])) I t _ (set ++ ls1) hd3
          hb3
        refine ⟨ls1 ++ ls2, ?_, ?_⟩
        · simp only [List.length_cons, refsMapN]
          rw [h1, bindE_ok]
          rw [h2, bindE_ok]
          rw [h3]
          simp [emitEntries, List.length_append, Nat.add_assoc,
            List.append_assoc]
        · simpa [ipldLinksEntries] using hp1.append hp2

/-! ## C4: references soundness -/

/-- Counterexample to C4 as stated: a 4-byte content identifier is valid
(version-1, codec `0x55`, identity multihash of size 0), its link encodes
with the short byte-string form `0x45` — not `0x58` — and `references` then
fails on its own encoder's output instead of collecting the link. -/
theorem references_sound_counterexample :
    cidWf [0x01, 0x55, 0x00, 0x00] = true ∧
    dagCborEncode (.link [0x01, 0x55, 0x00, 0x00]) =
      .ok [0xd8, 0x2a, 0x45, 0x00, 0x01, 0x55, 0x00, 0x00] ∧
    dagCborReferences [0xd8, 0x2a, 0x45, 0x00, 0x01, 0x55, 0x00, 0x00] [] =
      .error "Unknown cbor tag `69`" := by
  refine ⟨by decide, ?_, by rfl⟩
  simp [dagCborEncode, encodeIpld, encodeCid, writeTag, writeU64, writeU32,
    writeU16, writeU8, ByteCursor.writeAll, ByteCursor.write,
    ByteCursor.new, usizeMax, Except.map, bind, Except.bind]

/-- Amended C4: for a well-formed value whose link identifiers take 23 to
254 bytes, `references` over its encoding succeeds and extends the sink
with exactly the multiset of reachable link identifiers (a permutation of
the structural-descent order, the canonical map reordering permuting the
entries of maps). -/
theorem references_sound (v : Ipld) (hwf : wfIpld v = true)
    (hcs : cidsSized v = true) (bs : List Nat)
    (henc : dagCborEncode v = .ok bs) (set : List (List Nat))
    (hI : bs.length < 2 ^ 64) :
    ∃ ls, dagCborReferences bs set = .ok (set ++ ls) ∧
      List.Perm ls (ipldLinks v) := by
  have hbs : bs = emit v := dagCborEncode_eq_emit henc
  subst hbs
  have hfl := ipldFuel_le_emit_length v
  obtain ⟨ls, h, hp⟩ := (refs_emit_all (sizeOf v)).1 v le_rfl hwf hcs
    ((emit v).length + 1) (by omega) (emit v) [] 0 set (by simp)
    (by omega)
  refine ⟨ls, ?_, hp⟩
  unfold dagCborReferences
  rw [show ByteCursor.new (emit v) = ⟨emit v, 0⟩ from rfl, h]
  simp [Except.map]

/-- Witness for `references_sound`: a single link with a 23-byte
identifier is encoded with the `0x58` form and scanned back as exactly that
identifier. -/
theorem references_sound_witness :
    dagCborEncode (.link [0x01, 0x71, 0x12, 0x13, 7, 7, 7, 7, 7, 7, 7, 7,
        7, 7, 7, 7, 7, 7, 7, 7, 7, 7, 7]) =
      .ok [0xd8, 0x2a, 0x58, 24, 0x00, 0x01, 0x71, 0x12, 0x13, 7, 7, 7, 7,
        7, 7, 7, 7, 7, 7, 7, 7, 7, 7, 7, 7, 7, 7, 7] ∧
    dagCborReferences [0xd8, 0x2a, 0x58, 24, 0x00, 0x01, 0x71, 0x12, 0x13,
        7, 7, 7, 7, 7, 7, 7, 7, 7, 7, 7, 7, 7, 7, 7, 7, 7, 7, 7] [] =
      .ok [[0x01, 0x71, 0x12, 0x13, 7, 7, 7, 7, 7, 7, 7, 7, 7, 7, 7, 7, 7,
        7, 7, 7, 7, 7, 7]] := by
  have henc : dagCborEncode (.link [0x01, 0x71, 0x12, 0x13, 7, 7, 7, 7, 7,
      7, 7, 7, 7, 7, 7, 7, 7, 7, 7, 7, 7, 7, 7]) =
      .ok [0xd8, 0x2a, 0x58, 24, 0x00, 0x01, 0x71, 0x12, 0x13, 7, 7, 7, 7,
        7, 7, 7, 7, 7, 7, 7, 7, 7, 7, 7, 7, 7, 7, 7] := by
    simp [dagCborEncode, encodeIpld, encodeCid, writeTag, writeU64,
      writeU32, writeU16, writeU8, ByteCursor.writeAll, ByteCursor.write,
      ByteCursor.new, usizeMax, Except.map, bind, Except.bind]
  refine ⟨henc, ?_⟩
  obtain ⟨ls, h, hp⟩ := references_sound _ (by simp only [wfIpld]; decide)
    (by simp only [cidsSized]; decide) _ henc [] (by norm_num)
  have hls : ls = [[0x01, 0x71, 0x12, 0x13, 7, 7, 7, 7, 7, 7, 7, 7, 7, 7,
      7, 7, 7, 7, 7, 7, 7, 7, 7]] :=
    List.perm_singleton.mp (by simpa [ipldLinks] using hp)
  rw [hls] at h
  simpa using h

/-! ## C9: duplicate map keys -/

/-- `BTreeMap::insert` of the same key twice keeps only the last value. -/
theorem mapInsert_override : ∀ (m : List (List Nat × Ipld)) (k : List Nat)
    (v1 v2 : Ipld),
    mapInsert k v2 (mapInsert k v1 m) = mapInsert k v2 m := by
  intro m
  induction m with
  | nil =>
    intro k v1 v2
    simp [mapInsert, bytesLt_irrefl]
  | cons e rest ih =>
    intro k v1 v2
    obtain ⟨k', v'⟩ := e
    by_cases h1 : bytesLt k k' = true
    · rw [show mapInsert k v1 ((k', v') ::rest) =
          (k, v1) :: (k', v') :: rest from by simp [mapInsert, h1]]
      simp [mapInsert, bytesLt_irrefl, h1]
    · by_cases h2 : k = k'
      · rw [show mapInsert k v1 ((k', v') :: rest) = (k, v1) :: rest from by
          simp [mapInsert, h1, h2, bytesLt_irrefl]]
        simp [mapInsert, bytesLt_irrefl, h1, h2]
      · rw [show mapInsert k v1 ((k', v') :: rest) =
            (k', v') :: mapInsert k v1 rest from by simp [mapInsert, h1, h2]]
        rw [show mapInsert k v2 ((k', v') :: mapInsert k v1 rest) =
            (k', v') :: mapInsert k v2 (mapInsert k v1 rest) from by
          simp [mapInsert, h1, h2]]
        rw [ih k v1 v2]
        simp [mapInsert, h1, h2]

/-- `read_map_il` over encoded entries terminated by the break byte `0xff`
accumulates them by `BTreeMap::insert`, exactly like `read_map`. -/
theorem readMapIl_of_emitEntries : ∀ (es : List (List Nat × Ipld))
    (f lf : Nat), es.length + 1 ≤ lf →
    (∀ kv ∈ es, validUtf8 kv.1 = true ∧ kv.1.length < 2 ^ 64 ∧
      wfIpld kv.2 = true ∧ floatsFinite kv.2 = true ∧
      cidsSized kv.2 = true ∧ ipldFuel kv.2 ≤ f) →
    ∀ (acc : List (List Nat × Ipld)) (I t : List Nat) (p : Nat),
    I.drop p = emitEntries es ++ (0xff :: t) →
    p + (emitEntries es).length + 1 < 2 ^ 64 →
    readMapIl (fun r => decodeIpld f r) lf acc ⟨I, p⟩ =
      .ok (List.foldl (fun a kv => mapInsert kv.1 kv.2 a) acc es,
        ⟨I, p + ((emitEntries es).length + 1)⟩) := by
  intro es
  induction es with
  | nil =>
    intro f lf hlf hc acc I t p hd hb
    obtain ⟨lf', rfl⟩ : ∃ lf', lf = lf' + 1 := ⟨lf - 1, by omega⟩
    have hd' : I.drop p = 0xff :: t := by simpa [emitEntries] using hd
    simp only [readMapIl]
    rw [readU8_of_drop hd', bindE_ok]
    dsimp only
    rw [if_pos rfl]
    simp [emitEntries]
  | cons kv rest ih =>
    intro f lf hlf hc acc I t p hd hb
    obtain ⟨k, v⟩ := kv
    obtain ⟨lf', rfl⟩ : ∃ lf', lf = lf' + 1 := ⟨lf - 1, by omega⟩
    have hkv := hc (k, v) (by simp)
    have hd' : I.drop p =
        emitStr k ++ (emit v ++ (emitEntries rest ++ (0xff :: t))) := by
      simpa [emitEntries, List.append_assoc] using hd
    have hdk : I.drop p = header64 3 k.length ++
        (k ++ (emit v ++ (emitEntries rest ++ (0xff :: t)))) := by
      simpa [emitStr, List.append_assoc] using hd'
    obtain ⟨b, tl, hh, hb1, hb2, hread, hrl⟩ :=
      readLen_of_header hkv.2.1 hdk
    simp only [readMapIl]
    rw [hread, bindE_ok]
    dsimp only
    rw [if_neg (by first | omega)]
    rw [seek_current_to (c := ⟨I, p + 1⟩) (q := p) (by push_cast; omega)
      (by omega), bindE_ok]
    dsimp only
    rw [decodeString_of_emitStr hkv.1 hkv.2.1 hd', bindE_ok]
    dsimp only
    have hd2 : I.drop (p + (emitStr k).length) =
        emit v ++ (emitEntries rest ++ (0xff :: t)) :=
      drop_append_of_drop hd'
    have hval := (decode_emit_all (sizeOf v)).1 v le_rfl hkv.2.2.1
      hkv.2.2.2.1 hkv.2.2.2.2.1 f hkv.2.2.2.2.2 I _ _ hd2
    rw [hval, bindE_ok]
    dsimp only
    have hd3 : I.drop (p + (emitStr k).length + (emit v).length) =
        emitEntries rest ++ (0xff :: t) := drop_append_of_drop hd2
    have hrest := ih f lf' (by simp at hlf ⊢; omega)
      (fun y hy => hc y (by simp [hy])) (mapInsert k v acc) I t _ hd3
      (by simp only [emitEntries, List.length_append] at hb; omega)
    rw [hrest]
    simp [emitEntries, List.length_append, Nat.add_assoc, List.foldl_cons]

/-- C9: map decoding (definite via `read_map`, indefinite via
`read_map_il`) performs no duplicate-key check — each decoded pair is put
into the accumulating map with `BTreeMap::insert`, and inserting the same
key twice keeps only the last value. -/
theorem map_duplicate_keys_last_wins :
    (∀ (k : List Nat) (v1 v2 : Ipld) (m : List (List Nat × Ipld)),
      mapInsert k v2 (mapInsert k v1 m) = mapInsert k v2 m) ∧
    (∀ (es : List (List Nat × Ipld)) (f : Nat),
      (∀ kv ∈ es, validUtf8 kv.1 = true ∧ kv.1.length < 2 ^ 64 ∧
        wfIpld kv.2 = true ∧ floatsFinite kv.2 = true ∧
        cidsSized kv.2 = true ∧ ipldFuel kv.2 ≤ f) →
      ∀ (acc : List (List Nat × Ipld)) (I t : List Nat) (p : Nat),
      I.drop p = emitEntries es ++ t →
      readMapN (fun r => decodeIpld f r) es.length acc ⟨I, p⟩ =
        .ok (List.foldl (fun a kv => mapInsert kv.1 kv.2 a) acc es,
          ⟨I, p + (emitEntries es).length⟩)) ∧
    (∀ (es : List (List Nat × Ipld)) (f lf : Nat), es.length + 1 ≤ lf →
      (∀ kv ∈ es, validUtf8 kv.1 = true ∧ kv.1.length < 2 ^ 64 ∧
        wfIpld kv.2 = true ∧ floatsFinite kv.2 = true ∧
        cidsSized kv.2 = true ∧ ipldFuel kv.2 ≤ f) →
      ∀ (acc : List (List Nat × Ipld)) (I t : List Nat) (p : Nat),
      I.drop p = emitEntries es ++ (0xff :: t) →
      p + (emitEntries es).length + 1 < 2 ^ 64 →
      readMapIl (fun r => decodeIpld f r) lf acc ⟨I, p⟩ =
        .ok (List.foldl (fun a kv => mapInsert kv.1 kv.2 a) acc es,
          ⟨I, p + ((emitEntries es).length + 1)⟩)) :=
  ⟨fun k v1 v2 m => mapInsert_override m k v1 v2,
   fun es f hc acc I t p hd =>
     (decode_emit_all (sizeOf es)).2.2 es le_rfl f hc acc I t p hd,
   readMapIl_of_emitEntries⟩

/-- Witness for `map_duplicate_keys_last_wins`: the duplicated key `"a"`
with values 1 then 2 decodes — definite and indefinite — to the singleton
map `{"a" ↦ 2}`. -/
theorem map_duplicate_keys_last_wins_witness :
    mapInsert [0x61] (.integer 2) (mapInsert [0x61] (.integer 1) []) =
      mapInsert [0x61] (.integer 2) [] ∧
    readMapN (fun r => decodeIpld 1 r) 2 []
        ⟨[0x61, 0x61, 0x01, 0x61, 0x61, 0x02], 0⟩ =
      .ok ([([0x61], .integer 2)],
        ⟨[0x61, 0x61, 0x01, 0x61, 0x61, 0x02], 6⟩) ∧
    readMapIl (fun r => decodeIpld 1 r) 3 []
        ⟨[0x61, 0x61, 0x01, 0x61, 0x61, 0x02, 0xff], 0⟩ =
      .ok ([([0x61], .integer 2)],
        ⟨[0x61, 0x61, 0x01, 0x61, 0x61, 0x02, 0xff], 7⟩) := by
  have hc : ∀ kv ∈ [(([0x61] : List Nat), Ipld.integer 1),
      ([0x61], Ipld.integer 2)], validUtf8 kv.1 = true ∧
      kv.1.length < 2 ^ 64 ∧ wfIpld kv.2 = true ∧
      floatsFinite kv.2 = true ∧ cidsSized kv.2 = true ∧
      ipldFuel kv.2 ≤ 1 := by
    intro kv hkv
    simp only [List.mem_cons, List.not_mem_nil, or_false] at hkv
    rcases hkv with h | h <;> subst h <;>
      exact ⟨by decide, by norm_num, by simp [wfIpld],
        by simp [floatsFinite], by simp [cidsSized], by simp [ipldFuel]⟩
  have hent : emitEntries [(([0x61] : List Nat), Ipld.integer 1),
      ([0x61], Ipld.integer 2)] = [0x61, 0x61, 0x01, 0x61, 0x61, 0x02] := by
    simp [emitEntries, emitStr, emit, emitInt, header64]
  refine ⟨map_duplicate_keys_last_wins.1 [0x61] (.integer 1) (.integer 2) [],
    ?_, ?_⟩
  · have h := map_duplicate_keys_last_wins.2.1
      [(([0x61] : List Nat), Ipld.integer 1), ([0x61], Ipld.integer 2)] 1
      hc [] [0x61, 0x61, 0x01, 0x61, 0x61, 0x02] [] 0
      (by rw [hent]; rfl)
    rw [hent] at h
    simpa [mapInsert, bytesLt] using h
  · have h := map_duplicate_keys_last_wins.2.2
      [(([0x61] : List Nat), Ipld.integer 1), ([0x61], Ipld.integer 2)] 1 3
      (by norm_num) hc [] [0x61, 0x61, 0x01, 0x61, 0x61, 0x02, 0xff] [] 0
      (by rw [hent]; rfl) (by rw [hent]; norm_num)
    rw [hent] at h
    simpa [mapInsert, bytesLt] using h

/-! ## C3: link wire form -/

theorem bindE_err {a b : Type} (e : String) (f : a → Except String b) :
    (bind (Except.error e) f : Except String b) = .error e := rfl

/-- Counterexample to C3 as stated: for the valid 4-byte identifier
`01 55 00 00`, the encoder frames the 5-byte payload with the short form
`0x45`, not the claimed one-byte-length form `0x58 <len+1>`. -/
theorem link_wire_form_counterexample :
    cidWf [0x01, 0x55, 0x00, 0x00] = true ∧
    dagCborEncode (.link [0x01, 0x55, 0x00, 0x00]) =
      .ok [0xd8, 0x2a, 0x45, 0x00, 0x01, 0x55, 0x00, 0x00] ∧
    [0xd8, 0x2a, 0x45, 0x00, 0x01, 0x55, 0x00, 0x00] ≠
      (([0xd8, 0x2a, 0x58, 0x05, 0x00] ++ [0x01, 0x55, 0x00, 0x00]) :
        List Nat) := by
  refine ⟨by decide, ?_, by decide⟩
  simp [dagCborEncode, encodeIpld, encodeCid, writeTag, writeU64, writeU32,
    writeU16, writeU8, ByteCursor.writeAll, ByteCursor.write,
    ByteCursor.new, usizeMax, Except.map, bind, Except.bind]

/-- Amended C3: for identifiers of 23 to 254 bytes the encoder produces
exactly `d8 2a 58 <len+1> 00 <cid>`; and `read_link` (after the tag) fails
unless the next byte is exactly `0x58`, the one-byte length is non-zero,
the first payload byte is `0x00` and the rest parses as a content
identifier — in which case it succeeds with those identifier bytes. -/
theorem link_wire_form :
    (∀ cid : List Nat, 23 ≤ cid.length → cid.length ≤ 254 →
      dagCborEncode (.link cid) =
        .ok ([0xd8, 0x2a, 0x58, cid.length + 1, 0x00] ++ cid)) ∧
    (∀ (I t : List Nat) (p b : Nat), I.drop p = b :: t → b ≠ 0x58 →
      readLink ⟨I, p⟩ =
        .error ("Unknown cbor tag `" ++ toString b ++ "`")) ∧
    (∀ (I t : List Nat) (p : Nat), I.drop p = 0x58 :: 0 :: t →
      readLink ⟨I, p⟩ = .error "Length out of range when decoding Cid.") ∧
    (∀ (I t bs : List Nat) (p : Nat),
      I.drop p = 0x58 :: bs.length :: (bs ++ t) → bs ≠ [] →
      bs.headI ≠ 0 →
      readLink ⟨I, p⟩ =
        .error ("Invalid Cid prefix: " ++ toString bs.headI)) ∧
    (∀ (I t bs : List Nat) (p : Nat),
      I.drop p = 0x58 :: bs.length :: (bs ++ t) → bs ≠ [] →
      bs.headI = 0 → cidWf (bs.drop 1) = false →
      readLink ⟨I, p⟩ = .error "Failed to parse multihash") ∧
    (∀ (I t cid : List Nat) (p : Nat),
      I.drop p = 0x58 :: (cid.length + 1) :: ((0 :: cid) ++ t) →
      cidWf cid = true →
      readLink ⟨I, p⟩ = .ok (cid, ⟨I, p + 2 + (cid.length + 1)⟩)) := by
  refine ⟨?_, ?_, ?_, ?_, ?_, ?_⟩
  · intro cid h23 h254
    have h642 : header64 6 42 = [0xd8, 0x2a] := by decide
    have h2c : header64 2 (cid.length + 1) = [0x58, cid.length + 1] := by
      unfold header64
      rw [if_neg (by first | omega), if_pos (by omega)]
    have e1 : writeU64 (ByteCursor.new []) 6 42 =
        .ok ⟨[0xd8, 0x2a], 2⟩ := by
      rw [writeU64_at_end 6 42 rfl (by simp [ByteCursor.new, usizeMax]),
        h642]
      rfl
    have e2 : writeU64 (⟨[0xd8, 0x2a], 2⟩ : ByteCursor) 2
        (cid.length + 1) =
        .ok ⟨[0xd8, 0x2a, 0x58, cid.length + 1], 4⟩ := by
      rw [writeU64_at_end 2 (cid.length + 1) rfl (by simp [usizeMax]),
        h2c]
      rfl
    have e3 : (⟨[0xd8, 0x2a, 0x58, cid.length + 1], 4⟩ :
        ByteCursor).writeAll [0] =
        .ok ⟨[0xd8, 0x2a, 0x58, cid.length + 1, 0x00], 5⟩ := by
      rw [writeAll_at_end [0] rfl (by simp [usizeMax])]
      rfl
    have e4 : (⟨[0xd8, 0x2a, 0x58, cid.length + 1, 0x00], 5⟩ :
        ByteCursor).writeAll cid =
        .ok ⟨[0xd8, 0x2a, 0x58, cid.length + 1, 0x00] ++ cid,
          5 + cid.length⟩ := by
      rw [writeAll_at_end cid rfl (by simp [usizeMax])]
    have henc : encodeIpld (.link cid) (ByteCursor.new []) =
        .ok ⟨[0xd8, 0x2a, 0x58, cid.length + 1, 0x00] ++ cid,
          5 + cid.length⟩ := by
      unfold encodeIpld encodeCid writeTag
      rw [e1, bindE_ok, e2, bindE_ok, e3, bindE_ok, e4]
    unfold dagCborEncode
    rw [henc]
    rfl
  · intro I t p b hd hb
    unfold readLink
    rw [readU8_of_drop hd, bindE_ok]
    dsimp only
    rw [if_pos hb]
  · intro I t p hd
    have hd2 : I.drop (p + 1) = 0 :: t := by
      simpa using drop_append_of_drop (show I.drop p = [0x58] ++ (0 :: t) by simpa using hd)
    unfold readLink
    rw [readU8_of_drop hd, bindE_ok]
    dsimp only
    rw [if_neg (by norm_num), readU8_of_drop hd2, bindE_ok]
    dsimp only
    rw [if_pos rfl]
  · intro I t bs p hd hne hhd
    have hlen : bs.length ≠ 0 := by
      simpa using fun h => hne (List.eq_nil_of_length_eq_zero h)
    have hd2 : I.drop (p + 1) = bs.length :: (bs ++ t) := by
      simpa using drop_append_of_drop (show I.drop p = [0x58] ++ (bs.length :: (bs ++ t)) by simpa using hd)
    have hd3 : I.drop (p + 2) = bs ++ t := by
      have := drop_append_of_drop (show I.drop p = [0x58, bs.length] ++ (bs ++ t) by simpa using hd)
      simpa [Nat.add_assoc] using this
    unfold readLink
    rw [readU8_of_drop hd, bindE_ok]
    dsimp only
    rw [if_neg (by norm_num), readU8_of_drop hd2, bindE_ok]
    dsimp only
    rw [if_neg hlen, readBytes_of_drop hd3, bindE_ok]
    dsimp only
    rw [if_pos hhd]
  · intro I t bs p hd hne hhd hwf
    have hlen : bs.length ≠ 0 := by
      simpa using fun h => hne (List.eq_nil_of_length_eq_zero h)
    have hd2 : I.drop (p + 1) = bs.length :: (bs ++ t) := by
      simpa using drop_append_of_drop (show I.drop p = [0x58] ++ (bs.length :: (bs ++ t)) by simpa using hd)
    have hd3 : I.drop (p + 2) = bs ++ t := by
      have := drop_append_of_drop (show I.drop p = [0x58, bs.length] ++ (bs ++ t) by simpa using hd)
      simpa [Nat.add_assoc] using this
    unfold readLink
    rw [readU8_of_drop hd, bindE_ok]
    dsimp only
    rw [if_neg (by norm_num), readU8_of_drop hd2, bindE_ok]
    dsimp only
    rw [if_neg hlen, readBytes_of_drop hd3, bindE_ok]
    dsimp only
    rw [if_neg (by simpa using hhd)]
    have h4 : cidTryFrom (bs.drop 1) = .error "Failed to parse multihash" :=
      by
        rw [List.drop_one] at hwf
        simp [cidTryFrom, hwf]
    rw [h4, bindE_err]
  · intro I t cid p hd hwf
    exact readLink_of_drop hwf (by simpa using hd)

/-- Witness for `link_wire_form`: the 23-byte identifier encodes with the
`0x58` form; the decoder rejects a wrong framing byte, a zero length, a
non-zero payload prefix and an unparsable identifier, and accepts the
well-formed wire form. -/
theorem link_wire_form_witness :
    dagCborEncode (.link [0x01, 0x71, 0x12, 0x13, 7, 7, 7, 7, 7, 7, 7, 7, 7, 7, 7, 7, 7, 7, 7, 7, 7, 7, 7]) =
      .ok ([0xd8, 0x2a, 0x58, 24, 0x00] ++ [0x01, 0x71, 0x12, 0x13, 7, 7, 7, 7, 7, 7, 7, 7, 7, 7, 7, 7, 7, 7, 7, 7, 7, 7, 7]) ∧
    readLink ⟨[0x59, 9], 0⟩ = .error "Unknown cbor tag `89`" ∧
    readLink ⟨[0x58, 0], 0⟩ =
      .error "Length out of range when decoding Cid." ∧
    readLink ⟨[0x58, 1, 5], 0⟩ = .error "Invalid Cid prefix: 5" ∧
    readLink ⟨[0x58, 2, 0, 9], 0⟩ = .error "Failed to parse multihash" ∧
    readLink ⟨[0x58, 24, 0, 0x01, 0x71, 0x12, 0x13, 7, 7, 7, 7, 7, 7, 7, 7, 7, 7, 7, 7, 7, 7, 7, 7, 7, 7, 7], 0⟩ = .ok ([0x01, 0x71, 0x12, 0x13, 7, 7, 7, 7, 7, 7, 7, 7, 7, 7, 7, 7, 7, 7, 7, 7, 7, 7, 7], ⟨[0x58, 24, 0, 0x01, 0x71, 0x12, 0x13, 7, 7, 7, 7, 7, 7, 7, 7, 7, 7, 7, 7, 7, 7, 7, 7, 7, 7, 7], 26⟩) := by
  refine ⟨?_, ?_, ?_, ?_, ?_, ?_⟩
  · have h := link_wire_form.1 [0x01, 0x71, 0x12, 0x13, 7, 7, 7, 7, 7, 7, 7, 7, 7, 7, 7, 7, 7, 7, 7, 7, 7, 7, 7] (by decide) (by decide)
    simpa using h
  · exact link_wire_form.2.1 [0x59, 9] [9] 0 0x59 (by decide) (by norm_num)
  · exact link_wire_form.2.2.1 [0x58, 0] [] 0 (by decide)
  · exact link_wire_form.2.2.2.1 [0x58, 1, 5] [] [5] 0 (by decide)
      (by decide) (by decide)
  · exact link_wire_form.2.2.2.2.1 [0x58, 2, 0, 9] [] [0, 9] 0 (by decide)
      (by decide) (by decide) (by decide)
  · exact link_wire_form.2.2.2.2.2 [0x58, 24, 0, 0x01, 0x71, 0x12, 0x13, 7, 7, 7, 7, 7, 7, 7, 7, 7, 7, 7, 7, 7, 7, 7, 7, 7, 7, 7] [] [0x01, 0x71, 0x12, 0x13, 7, 7, 7, 7, 7, 7, 7, 7, 7, 7, 7, 7, 7, 7, 7, 7, 7, 7, 7] 0 (by decide) (by decide)

end SpIpld
